import Mathlib

/-!
Verification of pajbot/utils: the duration formatter, the duration parser and the byte
packing helpers.

A shallow embedding of `time.go` and of `BytesToUint64` and `Uint64ToBytes` of `binary.go`.

* `time.Duration` and `int64` are modelled as `Int`; every `int64` operation of the
  source that can leave the 64-bit range is followed by `wrap64`, the two's complement
  wrap-around of the machine.  Go's `/` and `%` on integers truncate toward zero:
  `Int.tdiv` and `Int.tmod`.
* The formatter only builds strings (`fmt.Sprintf`, `+=`, `strings.Join`), so its strings
  are Lean `String`s.
* The parser indexes its input byte by byte (`s[i]`), so its strings are lists of bytes,
  a byte being a `Nat` (a Go byte is below 256; the theorems hold for every list).
* The one floating-point expression of the parser is a parameter of `ParseDuration`;
  `goFrac` is that expression in an exact model of `float64`.
-/

namespace Utils

/-! ## Machine integers -/

/-- The largest `int64`, `math.MaxInt64 = 1<<63 - 1`. -/
def maxInt64 : Int := 9223372036854775807

/-- The smallest `int64`. -/
def minInt64 : Int := -9223372036854775808

/-- Two's complement wrap-around of an integer into the `int64` range. -/
def wrap64 (x : Int) : Int := (x + 9223372036854775808) % 18446744073709551616 - 9223372036854775808

/-! ## Duration constants (`time` package and `time.go` lines 19-24) -/

def Nanosecond : Int := 1
def Microsecond : Int := 1000 * Nanosecond
def Millisecond : Int := 1000 * Microsecond
def Second : Int := 1000 * Millisecond
def Minute : Int := 60 * Second
def Hour : Int := 60 * Minute
def Day : Int := Hour * 24
def Week : Int := Day * 7
def Month : Int := Day * 30
def Year : Int := Month * 12

/-! ## The magnitude table (`time.go` lines 12-34) -/

/-- One row of the magnitude table. -/
structure relTimeMagnitude where
  D : Int
  Name : String
  DivBy : Int
  ModBy : Int
deriving Repr, DecidableEq

/-- The table `magnitudes`, in the order of the source. -/
def magnitudes : List relTimeMagnitude :=
  [ ⟨Minute, "second", Second, 60⟩,
    ⟨Hour, "minute", Minute, 60⟩,
    ⟨Day, "hour", Hour, 24⟩,
    ⟨Week, "day", Day, 7⟩,
    ⟨Month, "week", Week, 7⟩,
    ⟨Year, "month", Month, 12⟩,
    ⟨maxInt64, "year", Year, -1⟩ ]

/-- The row `magnitudes[k]`.  The source only indexes with `0 ≤ k < len(magnitudes)`
(see `searchIndex_le`); outside that range Go would panic, here a row is returned that
emits nothing. -/
def magAt (k : Nat) : relTimeMagnitude := magnitudes.getD k ⟨0, "", 1, 1⟩

/-! ## `sort.Search` (Go standard library) -/

/-- The loop of `sort.Search`: `for i < j { h := (i+j)/2; if !f(h) { i = h+1 } else { j = h } }`.
The first argument bounds the number of iterations; `j - i` shrinks at every iteration, so
`j - i` iterations are enough. -/
def searchLoop (f : Nat → Bool) : Nat → Nat → Nat → Nat
  | 0, i, _ => i
  | fuel + 1, i, j =>
    if i < j then
      let h := (i + j) / 2
      if !f h then searchLoop f fuel (h + 1) j else searchLoop f fuel i h
    else i

/-- The function `sort.Search(n, f)`. -/
def sortSearch (n : Nat) (f : Nat → Bool) : Nat := searchLoop f n 0 n

/-! ## The formatter (`time.go` lines 36-101) -/

/-- The index `n` the walk starts from: `sort.Search` over the table, clamped to the last
row (`if n >= len(magnitudes) { n-- }`). -/
def searchIndex (diff : Int) : Nat :=
  let n := sortSearch magnitudes.length (fun i => decide ((magAt i).D > diff))
  if n ≥ magnitudes.length then n - 1 else n

/-- The value computed for row `mag` from the running `diff`
(`value := diff; value /= mag.DivBy; value %= mag.ModBy`, each step skipped when the
field is `-1`).  A quotient by a divisor other than `-1` and a remainder never leave the
`int64` range, so neither is wrapped. -/
def magValue (mag : relTimeMagnitude) (diff : Int) : Int :=
  let value := diff
  let value := if mag.DivBy ≠ -1 then value.tdiv mag.DivBy else value
  let value := if mag.ModBy ≠ -1 then value.tmod mag.ModBy else value
  value

/-- The part for a positive value: `fmt.Sprintf("%d %s", value, mag.Name)`, with `"s"`
appended unless the value is `1` or `-1`. -/
def formatPart (value : Int) (name : String) : String :=
  let part := toString value ++ " " ++ name
  if ¬ (value = 1 ∨ value = -1) then part ++ "s" else part

/-- The loop `for i := 0; partIndex < numParts && n-i >= 0; i++`.  The first argument is
`n - i + 1`, the number of rows not yet visited (so `n - i >= 0` reads `0 < rows`), and the
row visited is `magnitudes[n-i]`.  The result is the slice `parts` when the loop ends. -/
def partsLoop (numParts : Int) : Nat → Int → Int → List String → List String
  | 0, _, _, parts => parts
  | k + 1, partIndex, diff, parts =>
    if partIndex < numParts then
      let mag := magAt k
      let value := magValue mag diff
      if value > 0 then
        partsLoop numParts k (partIndex + 1) (wrap64 (diff - wrap64 (value * mag.DivBy)))
          (parts ++ [formatPart value mag.Name])
      else
        partsLoop numParts k partIndex diff parts
    else parts

/-- The slice `parts` that `CustomDurationString` joins: empty when the function returns
`"now"` before the loop, otherwise what the loop collected. -/
def durationParts (diff : Int) (numParts : Int) : List String :=
  if diff < Second then []
  else partsLoop numParts (searchIndex diff + 1) 0 diff []

/-- The function `CustomDurationString(diff, numParts, glue)`. -/
def CustomDurationString (diff : Int) (numParts : Int) (glue : String) : String :=
  if diff < Second then "now"
  else glue.intercalate (partsLoop numParts (searchIndex diff + 1) 0 diff [])

/-- The function `DurationString(diff)`. -/
def DurationString (diff : Int) : String := CustomDurationString diff 2 " "

/-! ## The relative-time helper (`time.go` lines 78-97)

A `time.Time` is modelled by the instant it denotes, an integer count of nanoseconds from
a fixed epoch.  `t.After(u)` compares instants and `t.Sub(u)` is the standard library's
saturating difference: "if the result exceeds the maximum (or minimum) value that can be
stored in a Duration, the maximum (or minimum) duration will be returned". -/

/-- The method `t.After(u)` of `time.Time`. -/
def After (t u : Int) : Bool := decide (t > u)

/-- The method `t.Sub(u)` of `time.Time`: the difference, saturated to the `int64` range. -/
def Sub (t u : Int) : Int :=
  if t - u > maxInt64 then maxInt64
  else if t - u < minInt64 then minInt64
  else t - u

/-- The variable `diff` of `CustomRelTime`:
`if t1.After(t2) { diff = t1.Sub(t2) } else { diff = t2.Sub(t1) }`. -/
def relTimeDiff (t1 t2 : Int) : Int :=
  if After t1 t2 then Sub t1 t2 else Sub t2 t1

/-- The function `CustomRelTime(t1, t2, numParts, glue)`. -/
def CustomRelTime (t1 t2 : Int) (numParts : Int) (glue : String) : String :=
  CustomDurationString (relTimeDiff t1 t2) numParts glue

/-- The function `RelTime(t1, t2)`. -/
def RelTime (t1 t2 : Int) : String := CustomRelTime t1 t2 2 " "

/-- The function `TimeSince(t2)`; the reading of `time.Now()` is the argument `now`. -/
def TimeSince (now t2 : Int) : String := CustomRelTime now t2 2 " "

/-! ## The parser (`time.go` lines 103-302) -/

/-- The errors of the parser.  `errA`, `errLeadingInt` and `errUnknownUnit` are the three
package-level values; the others are the values built in place by `errors.New`.  The
values `invalidDurationPart` and `invalidDuration []` carry the same text,
"time: invalid duration "; they stand for two different `errors.New` calls of the source. -/
inductive ParseError where
  /-- The value `errA = errors.New("no digits")`. -/
  | errA
  /-- The value `errLeadingInt = errors.New("time: bad [0-9]*")`. -/
  | errLeadingInt
  /-- The value `errUnknownUnit = errors.New("unknown unit")`. -/
  | errUnknownUnit
  /-- The value `errors.New("time: missing unit in duration ")` of `consumeUnit`. -/
  | missingUnit
  /-- The value `errors.New("bad first character")` of `parseDurationPart`. -/
  | badFirstCharacter
  /-- The value `errors.New("time: invalid duration ")` of `parseDurationPart`. -/
  | invalidDurationPart
  /-- The value `errors.New("time: invalid duration " + orig)` of `ParseDuration`. -/
  | invalidDuration (orig : List Nat)
deriving Repr, DecidableEq

/-- The loop of `leadingInt`, with the accumulator `x`. -/
def leadingIntLoop : Int → List Nat → Except ParseError (Int × List Nat)
  | x, [] => .ok (x, [])
  | x, c :: rest =>
    if c < 48 ∨ c > 57 then .ok (x, c :: rest)
    else if x > maxInt64.tdiv 10 then .error .errLeadingInt
    else
      let x := wrap64 (wrap64 (wrap64 (x * 10) + (c : Int)) - 48)
      if x < 0 then .error .errLeadingInt
      else leadingIntLoop x rest

/-- The function `leadingInt(s)`: the value of the leading `[0-9]*` and the rest. -/
def leadingInt (s : List Nat) : Except ParseError (Int × List Nat) := leadingIntLoop 0 s

/-- The loop of `leadingFraction`, with the accumulator `x`, the flag `overflow` and the
number of times `scale *= 10` has run: `scale` is the `float64` reached from `1` by that
many multiplications by ten. -/
def leadingFractionLoop : Int → Nat → Bool → List Nat → Int × Nat × List Nat
  | x, scale, _, [] => (x, scale, [])
  | x, scale, overflow, c :: rest =>
    if c < 48 ∨ c > 57 then (x, scale, c :: rest)
    else if overflow then leadingFractionLoop x scale overflow rest
    else if x > maxInt64.tdiv 10 then leadingFractionLoop x scale true rest
    else
      let y := wrap64 (wrap64 (wrap64 (x * 10) + (c : Int)) - 48)
      if y < 0 then leadingFractionLoop x scale true rest
      else leadingFractionLoop y (scale + 1) false rest

/-- The function `leadingFraction(s)`. -/
def leadingFraction (s : List Nat) : Int × Nat × List Nat := leadingFractionLoop 0 0 false s

/-- The keys and values of `unitMap`; the keys are the UTF-8 bytes of the tokens. -/
def unitTable : List (List Nat × Int) :=
  [ ([110, 115], Nanosecond),        -- "ns"
    ([117, 115], Microsecond),       -- "us"
    ([194, 181, 115], Microsecond),  -- "µs", U+00B5
    ([206, 188, 115], Microsecond),  -- "μs", U+03BC
    ([109, 115], Millisecond),       -- "ms"
    ([115], Second),                 -- "s"
    ([109], Minute),                 -- "m"
    ([104], Hour),                   -- "h"
    ([100], 24 * Hour),              -- "d"
    ([119], 7 * 24 * Hour) ]         -- "w"

/-- The lookup `unitMap[u]`. -/
def unitMap (u : List Nat) : Option Int := unitTable.lookup u

/-- The index at which the scan of `consumeUnit` stops: the first byte that is `'.'` or a
digit, or the length. -/
def unitEnd : List Nat → Nat
  | [] => 0
  | c :: rest => if c = 46 ∨ (c ≥ 48 ∧ c ≤ 57) then 0 else unitEnd rest + 1

/-- The function `consumeUnit(orig)`: the size of the leading unit token and the rest. -/
def consumeUnit (orig : List Nat) : Except ParseError (Int × List Nat) :=
  let i := unitEnd orig
  if i = 0 then .error .missingUnit
  else
    match unitMap (orig.take i) with
    | none => .error .errUnknownUnit
    | some unit => .ok (unit, orig.drop i)

/-- What `parseDurationPart` returns when `err` is `nil`. -/
structure PartResult where
  v : Int
  f : Int
  unit : Int
  scale : Nat
  s : List Nat
deriving Repr, DecidableEq

/-- The function `parseDurationPart(part)`.  The result is `none` where Go panics: `s[0]`
on the empty string, and a division by a zero `unit`.  When `err` is not `nil` the caller
reads nothing else, so only the error is kept. -/
def parseDurationPart (part : List Nat) : Option (Except ParseError PartResult) :=
  match part with
  | [] => none
  | c0 :: _ =>
    if ¬ (c0 = 46 ∨ (c0 ≥ 48 ∧ c0 ≤ 57)) then some (.error .badFirstCharacter)
    else
      let pl := part.length
      match leadingInt part with
      | .error e => some (.error e)
      | .ok (v, s) =>
        let frac : Nat × Int × Nat × List Nat × Bool :=
          match s with
          | c :: s1 =>
            if c = 46 then
              let pl := s1.length
              let r := leadingFraction s1
              (pl, r.1, r.2.1, r.2.2, decide (pl ≠ r.2.2.length))
            else (pl, 0, 0, s, false)
          | [] => (pl, 0, 0, s, false)
        let pl := frac.1
        let f := frac.2.1
        let scale := frac.2.2.1
        let s := frac.2.2.2.1
        let post := frac.2.2.2.2
        let pre := decide (pl ≠ s.length)
        if !pre && !post then some (.error .errA)
        else
          match consumeUnit s with
          | .error e => some (.error e)
          | .ok (unit, s) =>
            if unit = 0 then none
            else if v > maxInt64.tdiv unit then some (.error .invalidDurationPart)
            else some (.ok ⟨wrap64 (v * unit), f, unit, scale, s⟩)

/-- The expression `int64(float64(f) * (float64(unit) / scale))` of `ParseDuration` is
floating-point arithmetic: it is a parameter of the parser, a function of `f`, `unit` and
the number of multiplications by ten that built `scale`, so that what does not depend on
floating point is proved for every such function; `goFrac` is the expression itself.  It
is evaluated only when `f > 0`, that is for a part with a non-zero fraction. -/
abbrev FracConv := Int → Int → Nat → Int

/-- The loop `for s != ""` of `ParseDuration`, with the running total `d`.  The first
argument bounds the number of iterations; `none` stands for a panic or for running out of
iterations, `some (.error e)` for an early `return 0, e`, and `some (.ok d)` for the value
of `d` when the loop ends. -/
def parseLoop (fmul : FracConv) (orig : List Nat) :
    Nat → Int → List Nat → Option (Except ParseError Int)
  | _, d, [] => some (.ok d)
  | 0, _, _ :: _ => none
  | fuel + 1, d, c :: cs =>
    match parseDurationPart (c :: cs) with
    | none => none
    | some (.error e) => some (.error e)
    | some (.ok r) =>
      let v? : Option Int :=
        if r.f > 0 then
          let v := wrap64 (r.v + fmul r.f r.unit r.scale)
          if v < 0 then none else some v
        else some r.v
      match v? with
      | none => some (.error (.invalidDuration orig))
      | some v =>
        let d := wrap64 (d + v)
        if d < 0 then some (.error (.invalidDuration orig))
        else parseLoop fmul orig fuel d r.s

/-- The function `ParseDuration(s)`: the pair `(duration, err)`, `err = none` for `nil`;
`none` stands for a panic or a loop that does not end.  Every part read removes at least
one byte, so `len(s)` iterations are allowed. -/
def ParseDuration (fmul : FracConv) (s : List Nat) : Option (Int × Option ParseError) :=
  let orig := s
  if s = [] then some (0, some (.invalidDuration orig))
  else
    let signed : Bool × List Nat :=
      match s with
      | c :: rest => if c = 45 ∨ c = 43 then (decide (c = 45), rest) else (false, s)
      | [] => (false, s)
    let neg := signed.1
    let s := signed.2
    if s = [48] then some (0, none)
    else
      match parseLoop fmul orig s.length 0 s with
      | none => none
      | some (.error e) => some (0, some e)
      | some (.ok d) => some (if neg then wrap64 (-d) else d, none)

/-! ## Byte packing (`binary.go` lines 8-19 and 45-59)

A `uint64` is a `Nat` below `2^64`, every operation being reduced modulo `2^64`; a byte
is a `Nat` below `256`, and a slice of bytes a list. -/

/-- The loop `for i, b := range bytes { v += uint64(b) << uint(7-i) }` of `BytesToUint64`,
with the index `i` and the accumulator `v`. -/
def bytesToUint64Loop : Nat → Nat → List Nat → Nat
  | _, v, [] => v
  | i, v, b :: rest =>
    bytesToUint64Loop (i + 1) ((v + (b <<< (7 - i)) % 18446744073709551616) % 18446744073709551616)
      rest

/-- The function `BytesToUint64(bytes)`; `none` is the panic on a slice whose length is
not 8. -/
def BytesToUint64 (bytes : List Nat) : Option Nat :=
  if bytes.length ≠ 8 then none else some (bytesToUint64Loop 0 0 bytes)

/-- The function `Uint64ToBytes(value)`: `bytes[k] = byte((value >> (56 - 8k)) & 0xFF)`. -/
def Uint64ToBytes (value : Nat) : List Nat :=
  [ ((value >>> 56) &&& 255) % 256,
    ((value >>> 48) &&& 255) % 256,
    ((value >>> 40) &&& 255) % 256,
    ((value >>> 32) &&& 255) % 256,
    ((value >>> 24) &&& 255) % 256,
    ((value >>> 16) &&& 255) % 256,
    ((value >>> 8) &&& 255) % 256,
    (value &&& 255) % 256 ]

/-! ## `float64` arithmetic (Go's `float64`, IEEE 754 binary64)

The expression `int64(float64(f) * (float64(unit) / scale))` of `ParseDuration` works on
non-negative values only (`f > 0`, `unit > 0`, `scale >= 1`).  A non-negative `float64` is
modelled exactly: a finite value is `m * 2^e` with natural `m`, and every operation is the
exact result rounded to the nearest representable value, ties to even, with the 53-bit
significand, the subnormal range and the overflow to `+Inf` of binary64. -/

/-- A non-negative `float64`: the finite value `m * 2^e`, or `+Inf`. -/
inductive F64 where
  | finite (m : Nat) (e : Int)
  | inf
deriving Repr, DecidableEq

/-- The loop behind `log2Floor`; the first argument bounds the number of halvings. -/
def log2Fuel : Nat → Nat → Nat
  | 0, _ => 0
  | fuel + 1, n => if n ≥ 2 then log2Fuel fuel (n / 2) + 1 else 0

/-- The position of the highest set bit of `n`: `2^(log2Floor n) ≤ n < 2^(log2Floor n + 1)`
for `n > 0`. -/
def log2Floor (n : Nat) : Nat := log2Fuel n n

/-- The `float64` nearest to `(num / den) * 2^ex`, ties to even.  With `E` the binary
exponent of the exact value, the result is a multiple of `2^(max E (-1022) - 52)`: 53
significant bits in the normal range, multiples of `2^(-1074)` in the subnormal range.
The rounded significand `m` is at most `2^53`, so the result is `2^1024` or more, that is
`+Inf`, exactly when `qe > 971` or `qe = 971` and `m = 2^53`. -/
def roundRatio (num den : Nat) (ex : Int) : F64 :=
  if num = 0 then .finite 0 0
  else
    let e0 : Int := (log2Floor num : Int) - (log2Floor den : Int)
    let fits : Bool :=
      if e0 ≥ 0 then decide (den * 2 ^ e0.toNat ≤ num) else decide (den ≤ num * 2 ^ (-e0).toNat)
    let e1 : Int := if fits then e0 else e0 - 1
    let qe : Int := max (e1 + ex) (-1022) - 52
    let sh : Int := ex - qe
    let n : Nat := if sh ≥ 0 then num * 2 ^ sh.toNat else num
    let d : Nat := if sh ≥ 0 then den else den * 2 ^ (-sh).toNat
    let m0 : Nat := n / d
    let rem : Nat := n % d
    let m : Nat := if 2 * rem > d ∨ (2 * rem = d ∧ m0 % 2 = 1) then m0 + 1 else m0
    if qe > 971 ∨ (qe = 971 ∧ m ≥ 9007199254740992) then .inf else .finite m qe

/-- The conversion `float64(n)` of a non-negative integer. -/
def F64.ofNat (n : Nat) : F64 := roundRatio n 1 0

/-- The product `a * b` of two non-negative `float64` values (`+Inf` times zero does not
occur in the parser: `+Inf` is only ever multiplied by ten). -/
def F64.mul : F64 → F64 → F64
  | .finite m1 e1, .finite m2 e2 => roundRatio (m1 * m2) 1 (e1 + e2)
  | _, _ => .inf

/-- The quotient `a / b` of two non-negative `float64` values, `b` not zero (the divisor
of the parser is `scale`, at least one); a finite value divided by `+Inf` is zero. -/
def F64.div : F64 → F64 → F64
  | .finite m1 e1, .finite m2 e2 => roundRatio m1 m2 (e1 - e2)
  | .finite _ _, .inf => .finite 0 0
  | .inf, _ => .inf

/-- The conversion `int64(x)` of a non-negative `float64`: the fraction is discarded
(truncation toward zero).  The mathematical integer is returned; the values of the parser
are below the size of a unit, within the `int64` range, and finite. -/
def F64.toInt64 : F64 → Int
  | .finite m e => if e ≥ 0 then (m * 2 ^ e.toNat : Nat) else (m / 2 ^ (-e).toNat : Nat)
  | .inf => 0

/-- The value of `scale` after `k` runs of `scale *= 10`, from `scale = 1`. -/
def scaleOf : Nat → F64
  | 0 => F64.ofNat 1
  | k + 1 => (scaleOf k).mul (F64.ofNat 10)

/-- The expression `int64(float64(f) * (float64(unit) / scale))` of `ParseDuration`, for
`f > 0` and `unit > 0`, `scale` being given by the number of runs of `scale *= 10`. -/
def goFrac : FracConv := fun f unit scale =>
  ((F64.ofNat f.toNat).mul ((F64.ofNat unit.toNat).div (scaleOf scale))).toInt64

/-! ## Helpers for concrete inputs -/

/-- The bytes of an ASCII string literal. -/
def ascii (s : String) : List Nat := s.toList.map Char.toNat

/-- An instance of the floating-point expression in exact arithmetic, truncated:
`f * unit / 10^scale`.  It is used only to evaluate the parser on concrete inputs. -/
def exactFrac : FracConv := fun f unit scale => (f * unit).tdiv (10 ^ scale)

/-! ## Specification-side definitions for the formatter -/

/-- The units of the formatter as the specification lists them, coarsest first, with their
sizes in nanoseconds: a year is 360 days, a month 30 days, a week 7 days. -/
def specUnits : List (Int × String) :=
  [ (360 * 24 * 3600 * 1000000000, "year"),
    (30 * 24 * 3600 * 1000000000, "month"),
    (7 * 24 * 3600 * 1000000000, "week"),
    (24 * 3600 * 1000000000, "day"),
    (3600 * 1000000000, "hour"),
    (60 * 1000000000, "minute"),
    (1000000000, "second") ]

/-- The components of `rest` over a list of units: the first is `rest / size`, and each
later one is computed from what is left once the coarser components are removed. -/
def specComponents : Int → List (Int × String) → List (Int × String)
  | _, [] => []
  | rest, (size, name) :: units =>
    (rest / size, name) :: specComponents (rest - rest / size * size) units

/-- The rendering of one component: `"<value> <unit>"`, with `"s"` appended unless the
value is `1`. -/
def specRender (c : Int × String) : String :=
  toString c.1 ++ " " ++ c.2 ++ (if c.1 = 1 then "" else "s")

/-- The string the specification describes: the glue-join of the first `numParts`
rendered non-zero components. -/
def specDurationString (diff : Int) (numParts : Int) (glue : String) : String :=
  glue.intercalate
    ((((specComponents diff specUnits).filter (fun c => c.1 ≠ 0)).take numParts.toNat).map
      specRender)

/-- The walk of `partsLoop` without the limit on the number of parts: every non-zero
magnitude from row `k - 1` down to row `0`. -/
def allParts : Nat → Int → List String
  | 0, _ => []
  | k + 1, diff =>
    let mag := magAt k
    let value := magValue mag diff
    if value > 0 then
      formatPart value mag.Name :: allParts k (wrap64 (diff - wrap64 (value * mag.DivBy)))
    else allParts k diff

/-! ## Inputs of the parser: parts without a point, and the grammar -/

/-- The number a run of decimal digits denotes when `x` is the number read so far. -/
def digitsAcc (x : Int) (ds : List Nat) : Int :=
  ds.foldl (fun acc c => acc * 10 + ((c : Int) - 48)) x

/-- The number a run of decimal digits denotes. -/
def digitsValue (ds : List Nat) : Int := digitsAcc 0 ds

/-- A part without a point: a run of digits followed by a unit token of size `size`. -/
structure SimplePart where
  digits : List Nat
  unit : List Nat
  size : Int
deriving Repr, DecidableEq

/-- The bytes of a part. -/
def SimplePart.bytes (p : SimplePart) : List Nat := p.digits ++ p.unit

/-- The part is well formed: a non-empty run of ASCII digits, then a token of `unitMap`
whose size is `size`. -/
def SimplePart.WellFormed (p : SimplePart) : Prop :=
  p.digits ≠ [] ∧ (∀ c ∈ p.digits, 48 ≤ c ∧ c ≤ 57) ∧ unitMap p.unit = some p.size

instance (p : SimplePart) : Decidable p.WellFormed := by
  unfold SimplePart.WellFormed
  infer_instance

/-- The duration of a part, `n * u`. -/
def SimplePart.nanos (p : SimplePart) : Int := digitsValue p.digits * p.size

/-- The bytes of a sequence of parts. -/
def partsBytes (parts : List SimplePart) : List Nat := (parts.map SimplePart.bytes).flatten

/-- The sum of the durations of a sequence of parts. -/
def partsSum (parts : List SimplePart) : Int := (parts.map SimplePart.nanos).sum

/-- An optional sign: nothing, `"+"` or `"-"`. -/
def IsSign (sign : List Nat) : Prop := sign = [] ∨ sign = [43] ∨ sign = [45]

instance (sign : List Nat) : Decidable (IsSign sign) := by
  unfold IsSign
  infer_instance

/-- The parts of the input `"1h1m"`. -/
def sampleParts : List SimplePart := [⟨[49], [104], Hour⟩, ⟨[49], [109], Minute⟩]

/-- The parts of the input `"9223372036854775807ns1ns"`, whose sum is `2^63`. -/
def overflowParts : List SimplePart :=
  [⟨ascii "9223372036854775807", [110, 115], Nanosecond⟩, ⟨[49], [110, 115], Nanosecond⟩]

/-- The string is empty or starts with a byte that is not an ASCII digit. -/
def NoDigitAhead (s : List Nat) : Prop := ∀ c ∈ s.head?, c < 48 ∨ c > 57

/-- The string is empty or starts with an ASCII digit or a point, the bytes at which the
scan of a unit token stops. -/
def UnitStops (s : List Nat) : Prop := ∀ c ∈ s.head?, c = 46 ∨ (c ≥ 48 ∧ c ≤ 57)

/-- The grammar of one part, `part := intDigits? ("." fracDigits?)? unit` with at least one
digit, `unit` being a token of `unitMap`. -/
def IsPart (bs : List Nat) : Prop :=
  ∃ (ints point fracs unit : List Nat) (size : Int),
    bs = ints ++ (point ++ (fracs ++ unit))
      ∧ (∀ c ∈ ints, 48 ≤ c ∧ c ≤ 57) ∧ (∀ c ∈ fracs, 48 ≤ c ∧ c ≤ 57)
      ∧ (point = [] ∨ point = [46]) ∧ (point = [] → fracs = [])
      ∧ (ints ≠ [] ∨ fracs ≠ []) ∧ unitMap unit = some size

/-- A sequence of parts, possibly empty: `part*`. -/
def IsParts (bs : List Nat) : Prop :=
  ∃ parts : List (List Nat), (∀ p ∈ parts, IsPart p) ∧ bs = parts.flatten

/-- The grammar `duration := sign? ("0" | part+)`. -/
def IsDuration (s : List Nat) : Prop :=
  ∃ sign body : List Nat, IsSign sign ∧ s = sign ++ body
    ∧ (body = [48]
        ∨ ∃ parts : List (List Nat), parts ≠ [] ∧ (∀ p ∈ parts, IsPart p)
            ∧ body = parts.flatten)

/-! ## What a successful `parseDurationPart` has done -/

/-- The steps of a call of `parseDurationPart` on `s` that returns `r` with a `nil` error:
the first byte is a digit or a point, `leadingInt` reads `v0` and leaves `s1`, a fraction
is read from `s1` when it starts with a point (and at least one fractional digit is then
required: `pre` and `post` are both computed after the point), otherwise at least one
digit was read, `consumeUnit` reads the unit from what is left, and `v0 * unit` does not
overflow. -/
def PartReads (s : List Nat) (r : PartResult) : Prop :=
  ∃ (v0 : Int) (s1 s3 : List Nat),
    s ≠ [] ∧ (∀ c ∈ s.head?, c = 46 ∨ (c ≥ 48 ∧ c ≤ 57))
      ∧ leadingInt s = .ok (v0, s1)
      ∧ ((∃ s2, s1 = 46 :: s2 ∧ leadingFraction s2 = (r.f, r.scale, s3)
            ∧ s2.length ≠ s3.length)
          ∨ ((∀ s2, s1 ≠ 46 :: s2) ∧ r.f = 0 ∧ r.scale = 0 ∧ s3 = s1
              ∧ s.length ≠ s1.length))
      ∧ consumeUnit s3 = .ok (r.unit, r.s) ∧ r.unit ≠ 0
      ∧ ¬ v0 > maxInt64.tdiv r.unit ∧ r.v = wrap64 (v0 * r.unit)

/-! ## The contribution of a part with a fraction, as the specification states it -/

/-- The contribution the specification gives to a part with integer digits denoting `n`,
fractional digits denoting `f` over `10^k`, and a unit of size `u`:
`n * u + round(f * u / 10^k)`. -/
def specContribution (n f u : Int) (k : Nat) : Int :=
  n * u + round (((f * u : Int) : ℚ) / 10 ^ k)

/-! ## The anatomy of a part, and the error classes of the specification -/

/-- Whether a byte is an ASCII digit. -/
def isDigit (c : Nat) : Bool := decide (48 ≤ c ∧ c ≤ 57)

/-- Whether a byte is a point or an ASCII digit, the bytes a unit token cannot hold. -/
def isStop (c : Nat) : Bool := decide (c = 46 ∨ (c ≥ 48 ∧ c ≤ 57))

/-- The digits at the start of a string. -/
def digitRun (s : List Nat) : List Nat := s.takeWhile isDigit

/-- What follows the digits at the start of a string. -/
def afterDigits (s : List Nat) : List Nat := s.dropWhile isDigit

/-- The integer digits of the part at the start of `t`. -/
def intDigits (t : List Nat) : List Nat := digitRun t

/-- What follows the point of the part at the start of `t`, when a point follows its
integer digits. -/
def afterPoint (t : List Nat) : Option (List Nat) :=
  match afterDigits t with
  | c :: s2 => if c = 46 then some s2 else none
  | [] => none

/-- The fractional digits of the part at the start of `t`: the digits after its point. -/
def fracDigits (t : List Nat) : List Nat :=
  match afterPoint t with
  | some s2 => digitRun s2
  | none => []

/-- What follows the number (integer digits, point, fractional digits) at the start of
`t`. -/
def afterNumber (t : List Nat) : List Nat :=
  match afterPoint t with
  | some s2 => afterDigits s2
  | none => afterDigits t

/-- The unit token of the part at the start of `t`: the bytes after the number up to the
next point or digit. -/
def unitToken (t : List Nat) : List Nat := (afterNumber t).takeWhile (fun c => !isStop c)

/-- What follows the part at the start of `t`. -/
def afterUnit (t : List Nat) : List Nat := (afterNumber t).dropWhile (fun c => !isStop c)

/-- The class "NoDigits" of the specification, for the part at the start of `t`: "a part
contains neither integer nor fractional digits". -/
def NoDigits (t : List Nat) : Prop := intDigits t = [] ∧ fracDigits t = []

/-- The class "MissingUnit" of the specification: "digits are present but no unit token
follows". -/
def MissingUnit (t : List Nat) : Prop :=
  (intDigits t ≠ [] ∨ fracDigits t ≠ []) ∧ unitToken t = []

/-- The class "UnknownUnit" of the specification: "the unit token does not match any
recognized unit". -/
def UnknownUnit (t : List Nat) : Prop := unitToken t ≠ [] ∧ unitMap (unitToken t) = none

/-- The contribution of the part at the start of `t` when its unit has size `u`: the
integer digits times `u`, plus the converted fraction when the numerator accumulated by
`leadingFraction` on the fractional digits is positive. -/
def partValue (fmul : FracConv) (t : List Nat) (u : Int) : Int :=
  digitsValue (intDigits t) * u
    + if 0 < (leadingFraction (fracDigits t)).1 then
        fmul (leadingFraction (fracDigits t)).1 u (leadingFraction (fracDigits t)).2.1
      else 0

/-- The class "Overflow" of the specification, for the part at the start of `t` reached
with the running total `total`: "any intermediate or final accumulation would exceed the
signed 64-bit range", that is the integer digits, their product with the unit, or the
running total plus the contribution of the part. -/
def Overflow (fmul : FracConv) (total : Int) (t : List Nat) : Prop :=
  maxInt64 < digitsValue (intDigits t)
    ∨ ∃ u, unitMap (unitToken t) = some u
        ∧ (maxInt64 < digitsValue (intDigits t) * u
            ∨ maxInt64 < total + partValue fmul t u)

/-- The part at the start of `t` has integer digits and a point, and no fractional digit:
the inputs of C4, such as `"1.s"`. -/
def PointWithoutFraction (t : List Nat) : Prop :=
  intDigits t ≠ [] ∧ (afterPoint t).isSome ∧ fracDigits t = []

instance (t : List Nat) : Decidable (NoDigits t) := by
  unfold NoDigits
  infer_instance

instance (t : List Nat) : Decidable (MissingUnit t) := by
  unfold MissingUnit
  infer_instance

instance (t : List Nat) : Decidable (UnknownUnit t) := by
  unfold UnknownUnit
  infer_instance

instance (t : List Nat) : Decidable (PointWithoutFraction t) := by
  unfold PointWithoutFraction
  infer_instance

/-! ## Machine arithmetic -/

theorem wrap64_of_range {x : Int} (h1 : minInt64 ≤ x) (h2 : x ≤ maxInt64) : wrap64 x = x := by
  unfold wrap64
  unfold minInt64 at h1
  unfold maxInt64 at h2
  omega

theorem wrap64_range (x : Int) : minInt64 ≤ wrap64 x ∧ wrap64 x ≤ maxInt64 := by
  unfold wrap64 minInt64 maxInt64
  omega

theorem Second_eq : Second = 1000000000 := by decide
theorem Minute_eq : Minute = 60000000000 := by decide
theorem Hour_eq : Hour = 3600000000000 := by decide
theorem Day_eq : Day = 86400000000000 := by decide
theorem Week_eq : Week = 604800000000000 := by decide
theorem Month_eq : Month = 2592000000000000 := by decide
theorem Year_eq : Year = 31104000000000000 := by decide

/-! ## The starting row -/

/-- The bound on the iterations of `sort.Search` is never reached: with at least `j - i`
iterations allowed, one more changes nothing. -/
theorem searchLoop_fuel (f : Nat → Bool) :
    ∀ (fuel i j : Nat), j - i ≤ fuel → searchLoop f (fuel + 1) i j = searchLoop f fuel i j := by
  intro fuel
  induction fuel with
  | zero =>
    intro i j h
    have hij : ¬ i < j := by omega
    simp [searchLoop, hij]
  | succ fuel ih =>
    intro i j h
    rw [searchLoop, searchLoop.eq_def f (fuel + 1) i j]
    by_cases hij : i < j
    · simp only [hij, if_true]
      by_cases hf : f ((i + j) / 2)
      · simp only [hf, Bool.not_true, Bool.false_eq_true, if_false]
        exact ih _ _ (by omega)
      · simp only [hf, Bool.not_false, if_true]
        exact ih _ _ (by omega)
    · simp only [hij, if_false]

theorem sortSearch_seven (f : Nat → Bool) :
    sortSearch 7 f =
      if f 3 then (if f 1 then (if f 0 then 0 else 1) else (if f 2 then 2 else 3))
      else (if f 5 then (if f 4 then 4 else 5) else (if f 6 then 6 else 7)) := by
  cases h3 : f 3 <;> cases h1 : f 1 <;> cases h0 : f 0 <;> cases h2 : f 2 <;>
    cases h5 : f 5 <;> cases h4 : f 4 <;> cases h6 : f 6 <;>
    simp [sortSearch, searchLoop, h0, h1, h2, h3, h4, h5, h6]

theorem magAt_zero : magAt 0 = ⟨Minute, "second", Second, 60⟩ := rfl
theorem magAt_one : magAt 1 = ⟨Hour, "minute", Minute, 60⟩ := rfl
theorem magAt_two : magAt 2 = ⟨Day, "hour", Hour, 24⟩ := rfl
theorem magAt_three : magAt 3 = ⟨Week, "day", Day, 7⟩ := rfl
theorem magAt_four : magAt 4 = ⟨Month, "week", Week, 7⟩ := rfl
theorem magAt_five : magAt 5 = ⟨Year, "month", Month, 12⟩ := rfl
theorem magAt_six : magAt 6 = ⟨maxInt64, "year", Year, -1⟩ := rfl

theorem searchIndex_eq (diff : Int) (h : diff ≤ maxInt64) :
    searchIndex diff =
      if diff < Minute then 0 else if diff < Hour then 1 else if diff < Day then 2
      else if diff < Week then 3 else if diff < Month then 4 else if diff < Year then 5
      else 6 := by
  have hlen : magnitudes.length = 7 := rfl
  unfold searchIndex
  rw [hlen, sortSearch_seven]
  simp only [magAt_zero, magAt_one, magAt_two, magAt_three, magAt_four, magAt_five, magAt_six,
    Minute_eq, Hour_eq, Day_eq, Week_eq, Month_eq, Year_eq, gt_iff_lt, decide_eq_true_eq]
  unfold maxInt64 at h ⊢
  split_ifs <;> omega

theorem searchIndex_le (diff : Int) : searchIndex diff ≤ 6 := by
  have hlen : magnitudes.length = 7 := rfl
  unfold searchIndex
  rw [hlen, sortSearch_seven]
  split_ifs <;> simp

/-! ## The loop and the unlimited walk -/

theorem partsLoop_eq_take (numParts : Int) :
    ∀ (k : Nat) (partIndex diff : Int) (parts : List String),
      partsLoop numParts k partIndex diff parts
        = parts ++ (allParts k diff).take (numParts - partIndex).toNat := by
  intro k
  induction k with
  | zero => intro partIndex diff parts; simp [partsLoop, allParts]
  | succ k ih =>
    intro partIndex diff parts
    unfold partsLoop allParts
    by_cases hlt : partIndex < numParts
    · have hn : (numParts - partIndex).toNat = (numParts - (partIndex + 1)).toNat + 1 := by omega
      simp only [hlt, if_true]
      by_cases hv : magValue (magAt k) diff > 0
      · simp only [hv, if_true, ih, hn, List.take_succ_cons]
        simp
      · simp only [hv, if_false, ih]
    · have hn : (numParts - partIndex).toNat = 0 := by omega
      simp [hlt, hn]

/-! ## The walk computes the components of the specification -/

theorem magValue_eq_div (mag : relTimeMagnitude) (diff : Int) (h0 : 0 ≤ diff)
    (hs : 0 < mag.DivBy)
    (hm : mag.ModBy = -1 ∨ (0 < mag.ModBy ∧ diff < mag.ModBy * mag.DivBy)) :
    magValue mag diff = diff / mag.DivBy := by
  have hne : mag.DivBy ≠ -1 := by omega
  unfold magValue
  simp only [hne, ne_eq, not_false_eq_true, if_true]
  rw [Int.tdiv_eq_ediv h0 hs.le]
  rcases hm with hm | ⟨hm1, hm2⟩
  · simp [hm]
  · have hne2 : ¬ mag.ModBy = -1 := by omega
    have hq : 0 ≤ diff / mag.DivBy := Int.ediv_nonneg h0 hs.le
    simp only [hne2, not_false_eq_true, if_true]
    rw [Int.tmod_eq_emod hq hm1.le]
    exact Int.emod_eq_of_lt hq (Int.ediv_lt_of_lt_mul hs hm2)

theorem remainder_step (diff s : Int) (h0 : 0 ≤ diff) (hmax : diff ≤ maxInt64) (hs : 0 < s) :
    wrap64 (diff - wrap64 (diff / s * s)) = diff - diff / s * s
      ∧ 0 ≤ diff - diff / s * s ∧ diff - diff / s * s < s
      ∧ diff - diff / s * s ≤ diff := by
  have h1 : diff / s * s ≤ diff := Int.ediv_mul_le diff (by omega)
  have h2 : 0 ≤ diff / s * s := Int.mul_nonneg (Int.ediv_nonneg h0 hs.le) hs.le
  have h3 : diff < (diff / s + 1) * s := Int.lt_ediv_add_one_mul_self diff hs
  have h4 : (diff / s + 1) * s = diff / s * s + s := by ring
  have hw : wrap64 (diff / s * s) = diff / s * s :=
    wrap64_of_range (by unfold minInt64; omega) (by omega)
  rw [hw]
  refine ⟨wrap64_of_range (by unfold minInt64; omega) (by omega), by omega, by omega, by omega⟩

theorem formatPart_eq_specRender (v : Int) (name : String) (hv : 0 < v) :
    formatPart v name = specRender (v, name) := by
  unfold formatPart specRender
  by_cases h1 : v = 1
  · simp [h1]
  · have h2 : ¬ (v = 1 ∨ v = -1) := by omega
    rw [if_pos h2, if_neg h1]

/-- The facts about row `r` of the table that the walk relies on. -/
theorem row_facts (r : Nat) (hr : r ≤ 6) :
    0 < (magAt r).DivBy
      ∧ specUnits.drop (7 - (r + 1)) = ((magAt r).DivBy, (magAt r).Name) :: specUnits.drop (7 - r)
      ∧ ((magAt r).ModBy = -1
          ∨ (0 < (magAt r).ModBy ∧ (magAt (r + 1)).DivBy ≤ (magAt r).ModBy * (magAt r).DivBy))
      ∧ (r = 6 → (magAt r).ModBy = -1) := by
  interval_cases r <;> refine ⟨by decide, by decide, by decide, by decide⟩

theorem allParts_spec :
    ∀ (r : Nat) (diff : Int), r ≤ 7 → 0 ≤ diff → diff ≤ maxInt64 →
      (r < 7 → diff < (magAt r).DivBy) →
      allParts r diff
        = ((specComponents diff (specUnits.drop (7 - r))).filter (fun c => c.1 ≠ 0)).map
            specRender := by
  intro r
  induction r with
  | zero =>
    intro diff _ _ _ _
    have : specUnits.drop (7 - 0) = [] := by decide
    simp [allParts, this, specComponents]
  | succ r ih =>
    intro diff hr h0 hmax hlt
    obtain ⟨hs, hdrop, hmod, hlast⟩ := row_facts r (by omega)
    have hval : magValue (magAt r) diff = diff / (magAt r).DivBy := by
      apply magValue_eq_div _ _ h0 hs
      rcases hmod with hm | ⟨hm1, hm2⟩
      · exact Or.inl hm
      · by_cases h6 : r = 6
        · exact Or.inl (hlast h6)
        · exact Or.inr ⟨hm1, lt_of_lt_of_le (hlt (by omega)) hm2⟩
    obtain ⟨hw, hr0, hrlt, hrle⟩ := remainder_step diff (magAt r).DivBy h0 hmax hs
    have hq : 0 ≤ diff / (magAt r).DivBy := Int.ediv_nonneg h0 hs.le
    rw [hdrop]
    unfold allParts
    simp only [hval, specComponents]
    by_cases hpos : diff / (magAt r).DivBy > 0
    · have hne : diff / (magAt r).DivBy ≠ 0 := by omega
      simp only [hpos, if_true, hw]
      rw [ih _ (by omega) hr0 (by omega) (fun _ => hrlt)]
      simp [hne, formatPart_eq_specRender _ _ hpos]
    · have hz : diff / (magAt r).DivBy = 0 := by omega
      simp only [hpos, if_false]
      rw [ih _ (by omega) h0 hmax]
      · simp [hz]
      · intro _
        have := hrlt
        rw [hz] at this
        simpa using this

theorem specComponents_skip (diff size : Int) (name : String) (units : List (Int × String))
    (h0 : 0 ≤ diff) (hlt : diff < size) :
    (specComponents diff ((size, name) :: units)).filter (fun c => c.1 ≠ 0)
      = (specComponents diff units).filter (fun c => c.1 ≠ 0) := by
  have hz : diff / size = 0 := Int.ediv_eq_zero_of_lt h0 hlt
  simp [specComponents, hz]

theorem specComponents_skip_all (diff : Int) (h0 : 0 ≤ diff) (suf : List (Int × String)) :
    ∀ pre : List (Int × String), (∀ u ∈ pre, diff < u.1) →
      (specComponents diff (pre ++ suf)).filter (fun c => c.1 ≠ 0)
        = (specComponents diff suf).filter (fun c => c.1 ≠ 0) := by
  intro pre
  induction pre with
  | nil => intro _; rfl
  | cons u pre ih =>
    intro h
    obtain ⟨size, name⟩ := u
    rw [List.cons_append, specComponents_skip diff size name _ h0 (h (size, name) (by simp))]
    exact ih (fun u hu => h u (by simp [hu]))

theorem specComponents_drop (diff : Int) (h0 : 0 ≤ diff) (n : Nat)
    (h : ∀ u ∈ specUnits.take n, diff < u.1) :
    (specComponents diff specUnits).filter (fun c => c.1 ≠ 0)
      = (specComponents diff (specUnits.drop n)).filter (fun c => c.1 ≠ 0) := by
  have := specComponents_skip_all diff h0 (specUnits.drop n) (specUnits.take n) h
  rwa [List.take_append_drop] at this

theorem allParts_start (diff : Int) (h1 : Second ≤ diff) (h2 : diff ≤ maxInt64) :
    allParts (searchIndex diff + 1) diff
      = ((specComponents diff specUnits).filter (fun c => c.1 ≠ 0)).map specRender := by
  have h0 : 0 ≤ diff := by rw [Second_eq] at h1; omega
  have hle := searchIndex_le diff
  rw [allParts_spec _ diff (by omega) h0 h2, specComponents_drop diff h0 (7 - (searchIndex diff + 1))]
  · rw [searchIndex_eq diff h2]
    simp only [Minute_eq, Hour_eq, Day_eq, Week_eq, Month_eq, Year_eq]
    split_ifs <;> simp [specUnits] <;> omega
  · rw [searchIndex_eq diff h2]
    simp only [Minute_eq, Hour_eq, Day_eq, Week_eq, Month_eq, Year_eq]
    split_ifs <;> simp [magAt, magnitudes, Minute_eq, Hour_eq, Day_eq, Week_eq, Month_eq, Year_eq]
      <;> omega

/-- C1. For every `diff` of at least one second (an `int64`, so at most `maxInt64`), every
`numParts` and every `glue`, `CustomDurationString` is the glue-join of the first `numParts`
rendered non-zero components of `diff`, taken in the order year, month, week, day, hour,
minute, second, each component being what is left after the coarser ones divided by the
size of its unit. -/
theorem customDurationString_eq_spec (diff numParts : Int) (glue : String)
    (h1 : Second ≤ diff) (h2 : diff ≤ maxInt64) :
    CustomDurationString diff numParts glue = specDurationString diff numParts glue := by
  have hnow : ¬ diff < Second := by omega
  unfold CustomDurationString specDurationString
  rw [if_neg hnow, partsLoop_eq_take, allParts_start diff h1 h2]
  simp [List.map_take]

/-- Instance at `diff` = 1 day 1 hour 1 minute 1 second, three parts, glue `", "`. -/
theorem customDurationString_eq_spec_witness :
    Second ≤ 90061000000000 ∧ (90061000000000 : Int) ≤ maxInt64
      ∧ CustomDurationString 90061000000000 3 ", "
          = specDurationString 90061000000000 3 ", "
      ∧ specDurationString 90061000000000 3 ", " = "1 day, 1 hour, 1 minute" :=
  ⟨by decide, by decide,
    customDurationString_eq_spec 90061000000000 3 ", " (by decide) (by decide), by decide⟩

/-! ## Joining parts -/

theorem intercalate_go_snoc (glue : String) (x : String) :
    ∀ (l : List String) (acc : String),
      String.intercalate.go acc glue (l ++ [x]) = String.intercalate.go acc glue l ++ glue ++ x := by
  intro l
  induction l with
  | nil => intro acc; rfl
  | cons a l ih => intro acc; exact ih _

theorem intercalate_snoc_data (glue : String) (l : List String) (x : String) :
    (glue.intercalate l).data <+: (glue.intercalate (l ++ [x])).data := by
  cases l with
  | nil => simp [String.intercalate]
  | cons a l =>
    simp only [List.cons_append, String.intercalate, intercalate_go_snoc, String.data_append,
      List.append_assoc]
    exact List.prefix_append _ _

theorem take_succ_cases (l : List String) (n : Nat) :
    l.take (n + 1) = l.take n ∨ ∃ x, l.take (n + 1) = l.take n ++ [x] := by
  rw [List.take_succ]
  cases l[n]? with
  | none => left; simp
  | some x => right; exact ⟨x, rfl⟩

theorem intercalate_take_data (glue : String) (l : List String) (n m : Nat) (h : n ≤ m) :
    (glue.intercalate (l.take n)).data <+: (glue.intercalate (l.take m)).data := by
  induction m with
  | zero =>
    have : n = 0 := by omega
    subst this
    exact List.prefix_refl _
  | succ m ih =>
    by_cases hn : n = m + 1
    · subst hn; exact List.prefix_refl _
    · have h1 := ih (by omega)
      rcases take_succ_cases l m with h2 | ⟨x, h2⟩
      · rw [h2]; exact h1
      · rw [h2]; exact h1.trans (intercalate_snoc_data glue _ x)

theorem take_eq_of_length_le (l : List String) (n m : Nat) (h : n ≤ m)
    (hlen : (l.take m).length ≤ n) : l.take m = l.take n := by
  rw [List.length_take] at hlen
  by_cases hl : l.length ≤ m
  · rw [List.take_of_length_le hl, List.take_of_length_le (by omega)]
  · have : m = n := by omega
    rw [this]

/-- C7. Monotonic truncation.  For every `diff`, `glue` and `n`, the parts emitted for
`numParts = n` are a prefix of the parts emitted for `numParts = n + 1`, the result string
for `n` is a prefix of the result string for `n + 1`, and asking for more parts changes
nothing once every non-zero magnitude has been emitted: if a request for `m ≥ n` parts
emits at most `n` of them, it emits the same parts and returns the same string as the
request for `n`.  The parts are those the result joins. -/
theorem customDurationString_truncation (diff n : Int) (glue : String) :
    durationParts diff n <+: durationParts diff (n + 1)
      ∧ (CustomDurationString diff n glue).data <+: (CustomDurationString diff (n + 1) glue).data
      ∧ (∀ m : Int, n ≤ m → (durationParts diff m).length ≤ n →
          durationParts diff m = durationParts diff n
            ∧ CustomDurationString diff m glue = CustomDurationString diff n glue)
      ∧ (Second ≤ diff →
          CustomDurationString diff n glue = glue.intercalate (durationParts diff n)) := by
  unfold durationParts CustomDurationString
  by_cases h : diff < Second
  · rw [if_pos h, if_pos h, if_pos h, if_pos h]
    refine ⟨List.prefix_refl _, List.prefix_refl _, fun m _ _ => ?_, fun h2 => ?_⟩
    · rw [if_pos h, if_pos h]
      exact ⟨rfl, rfl⟩
    · omega
  · rw [if_neg h, if_neg h, if_neg h, if_neg h]
    refine ⟨?_, ?_, fun m hm hlen => ?_, fun _ => rfl⟩
    · simp only [partsLoop_eq_take, List.nil_append, sub_zero]
      exact List.take_prefix_take_left _ (by omega)
    · simp only [partsLoop_eq_take, List.nil_append, sub_zero]
      exact intercalate_take_data glue _ _ _ (by omega)
    · rw [if_neg h] at hlen
      rw [if_neg h, if_neg h]
      simp only [partsLoop_eq_take, List.nil_append, sub_zero] at hlen ⊢
      have hn : n.toNat ≤ m.toNat := by omega
      rw [take_eq_of_length_le (allParts (searchIndex diff + 1) diff) n.toNat m.toNat hn
        (by omega)]
      exact ⟨rfl, rfl⟩

/-- Instance at `diff` = 1 day 1 hour 1 minute 1 second: four parts exhaust it, a fifth changes nothing. -/
theorem customDurationString_truncation_witness :
    (durationParts 90061000000000 5).length ≤ 4
      ∧ CustomDurationString 90061000000000 5 " " = CustomDurationString 90061000000000 4 " "
      ∧ CustomDurationString 90061000000000 4 " " = "1 day 1 hour 1 minute 1 second" :=
  ⟨by decide,
    ((customDurationString_truncation 90061000000000 4 " ").2.2.1 5 (by decide) (by decide)).2,
    by decide⟩

/-- C6. For every duration `d` of absolute value below one second (zero included), every
`numParts` and every `glue`, `CustomDurationString` returns `"now"`, and so does
`DurationString`. -/
theorem customDurationString_now (d numParts : Int) (glue : String) (h : |d| < Second) :
    CustomDurationString d numParts glue = "now" ∧ DurationString d = "now" := by
  have hd : d < Second := (abs_lt.mp h).2
  unfold DurationString CustomDurationString
  exact ⟨if_pos hd, if_pos hd⟩

/-- Instance at `d` = -999 milliseconds. -/
theorem customDurationString_now_witness :
    |(-999000000 : Int)| < Second
      ∧ CustomDurationString (-999000000) 3 ", " = "now" ∧ DurationString (-999000000) = "now" :=
  ⟨by rw [Second_eq]; norm_num, customDurationString_now (-999000000) 3 ", "
    (by rw [Second_eq]; norm_num)⟩

/-! ## Pluralization -/

theorem magAt_name_mem (k : Nat) (hk : k ≤ 6) :
    (magAt k).Name ∈ ["second", "minute", "hour", "day", "week", "month", "year"] := by
  interval_cases k <;> decide

theorem allParts_pluralized :
    ∀ (k : Nat) (diff : Int), k ≤ 7 → ∀ p ∈ allParts k diff,
      ∃ (v : Int) (unit : String),
        unit ∈ ["second", "minute", "hour", "day", "week", "month", "year"] ∧ 0 < v
          ∧ (v = 1 → p = toString v ++ " " ++ unit)
          ∧ (v ≠ 1 → p = toString v ++ " " ++ unit ++ "s") := by
  intro k
  induction k with
  | zero => intro diff _ p hp; simp [allParts] at hp
  | succ k ih =>
    intro diff hk p hp
    unfold allParts at hp
    by_cases hv : magValue (magAt k) diff > 0
    · simp only [hv, if_true, List.mem_cons] at hp
      rcases hp with hp | hp
      · refine ⟨magValue (magAt k) diff, (magAt k).Name, magAt_name_mem k (by omega), hv, ?_, ?_⟩
        · intro h1
          rw [hp, formatPart, if_neg (by simp [h1])]
        · intro h1
          have h2 : ¬ (magValue (magAt k) diff = 1 ∨ magValue (magAt k) diff = -1) := by omega
          rw [hp, formatPart, if_pos h2]
      · exact ih _ (by omega) p hp
    · simp only [hv, if_false] at hp
      exact ih _ (by omega) p hp

/-- C8. Pluralization.  For every `diff` of at least one second, every `numParts` and
every `glue`, the result is the glue-join of the emitted parts, and every emitted part has
a positive value `v` and a unit name of the table, and is exactly `"<v> <unit>"` when
`v = 1` and `"<v> <unit>s"` when `v ≠ 1`. -/
theorem customDurationString_pluralized (diff numParts : Int) (glue : String)
    (h : Second ≤ diff) :
    CustomDurationString diff numParts glue = glue.intercalate (durationParts diff numParts)
      ∧ ∀ p ∈ durationParts diff numParts,
          ∃ (v : Int) (unit : String),
            unit ∈ ["second", "minute", "hour", "day", "week", "month", "year"] ∧ 0 < v
              ∧ (v = 1 → p = toString v ++ " " ++ unit)
              ∧ (v ≠ 1 → p = toString v ++ " " ++ unit ++ "s") := by
  have hnow : ¬ diff < Second := by omega
  unfold CustomDurationString durationParts
  rw [if_neg hnow, if_neg hnow]
  refine ⟨rfl, fun p hp => ?_⟩
  rw [partsLoop_eq_take, List.nil_append] at hp
  exact allParts_pluralized _ diff (by have := searchIndex_le diff; omega) p
    (List.mem_of_mem_take hp)

/-- Instance at `diff` = 4 minutes 2 seconds. -/
theorem customDurationString_pluralized_witness :
    Second ≤ 242000000000
      ∧ durationParts 242000000000 2 = ["4 minutes", "2 seconds"]
      ∧ ∀ p ∈ durationParts 242000000000 2,
          ∃ (v : Int) (unit : String),
            unit ∈ ["second", "minute", "hour", "day", "week", "month", "year"] ∧ 0 < v
              ∧ (v = 1 → p = toString v ++ " " ++ unit)
              ∧ (v ≠ 1 → p = toString v ++ " " ++ unit ++ "s") :=
  ⟨by decide, by decide, (customDurationString_pluralized 242000000000 2 " " (by decide)).2⟩

/-! ## The relative-time helper -/

theorem relTimeDiff_eq (t1 t2 : Int) : relTimeDiff t1 t2 = min |t1 - t2| maxInt64 := by
  unfold relTimeDiff After Sub minInt64 maxInt64
  rcases abs_cases (t1 - t2) with ⟨h1, h2⟩ | ⟨h1, h2⟩ <;> rw [h1] <;>
    simp only [gt_iff_lt, decide_eq_true_eq] <;> split_ifs <;> omega

/-- C9, as stated, fails when the two timestamps are further apart than the largest
`Duration`: `time.Time.Sub` saturates, so for two instants `10^19` nanoseconds apart the
duration handed to the formatter is `maxInt64`, not `|t1 - t2|`, and the result is not the
formatting of `|t1 - t2|`. -/
theorem customRelTime_far_apart :
    relTimeDiff 10000000000000000000 0 = maxInt64
      ∧ relTimeDiff 10000000000000000000 0 ≠ |10000000000000000000 - 0|
      ∧ CustomRelTime 10000000000000000000 0 1 " " = "296 years"
      ∧ CustomRelTime 10000000000000000000 0 1 " "
          ≠ CustomDurationString |10000000000000000000 - 0| 1 " " := by
  have habs : |(10000000000000000000 : Int) - 0| = 10000000000000000000 := by norm_num
  rw [habs]
  refine ⟨by decide, by decide, by decide, by decide⟩

/-- C9, amended.  For all timestamps `t1`, `t2` and all `numParts`, `glue`:
`CustomRelTime` is `CustomDurationString` of `|t1 - t2|` saturated at the largest
`Duration`, which is `|t1 - t2|` itself whenever that fits in a `Duration`; the result
does not depend on the order of the two timestamps; and `RelTime` is `DurationString` of
the same duration. -/
theorem customRelTime_eq (t1 t2 numParts : Int) (glue : String) :
    CustomRelTime t1 t2 numParts glue
        = CustomDurationString (min |t1 - t2| maxInt64) numParts glue
      ∧ (|t1 - t2| ≤ maxInt64 →
          CustomRelTime t1 t2 numParts glue = CustomDurationString |t1 - t2| numParts glue)
      ∧ CustomRelTime t1 t2 numParts glue = CustomRelTime t2 t1 numParts glue
      ∧ RelTime t1 t2 = DurationString (min |t1 - t2| maxInt64)
      ∧ (|t1 - t2| ≤ maxInt64 → RelTime t1 t2 = DurationString |t1 - t2|) := by
  unfold RelTime CustomRelTime DurationString
  rw [relTimeDiff_eq, relTimeDiff_eq, abs_sub_comm t2 t1]
  refine ⟨rfl, fun h => ?_, rfl, rfl, fun h => ?_⟩ <;> rw [min_eq_left h]

/-- Instance at two timestamps 4 minutes 2 seconds apart. -/
theorem customRelTime_eq_witness :
    |(245000000000 : Int) - 3000000000| ≤ maxInt64
      ∧ CustomRelTime 245000000000 3000000000 2 " "
          = CustomDurationString |245000000000 - 3000000000| 2 " "
      ∧ CustomRelTime 245000000000 3000000000 2 " " = "4 minutes 2 seconds" :=
  ⟨by unfold maxInt64; norm_num,
    (customRelTime_eq 245000000000 3000000000 2 " ").2.1 (by unfold maxInt64; norm_num),
    by decide⟩

/-! ## The parser: reading digits -/

theorem maxInt64_tdiv_ten : maxInt64.tdiv 10 = 922337203685477580 := by decide

theorem digitsAcc_cons (x : Int) (c : Nat) (ds : List Nat) :
    digitsAcc x (c :: ds) = digitsAcc (x * 10 + ((c : Int) - 48)) ds := rfl

theorem digitsAcc_ge (ds : List Nat) (hds : ∀ c ∈ ds, 48 ≤ c ∧ c ≤ 57) :
    ∀ x : Int, 0 ≤ x → x ≤ digitsAcc x ds := by
  induction ds with
  | nil => intro x _; exact le_refl _
  | cons c ds ih =>
    intro x hx
    have hc := hds c (by simp)
    have := ih (fun c hc => hds c (by simp [hc])) (x * 10 + ((c : Int) - 48)) (by omega)
    rw [digitsAcc_cons]
    omega

theorem digitsValue_nonneg (ds : List Nat) (hds : ∀ c ∈ ds, 48 ≤ c ∧ c ≤ 57) :
    0 ≤ digitsValue ds := digitsAcc_ge ds hds 0 (le_refl _)

theorem wrap64_digit_step (x : Int) (c : Nat) :
    wrap64 (wrap64 (wrap64 (x * 10) + (c : Int)) - 48) = wrap64 (x * 10 + ((c : Int) - 48)) := by
  unfold wrap64
  omega

/-- What `leadingInt` does on a run of digits followed by something that is not a digit:
it returns the number the digits denote when that fits in an `int64`, and fails otherwise. -/
theorem leadingIntLoop_digits (tail : List Nat) (htail : NoDigitAhead tail) (ds : List Nat)
    (hds : ∀ c ∈ ds, 48 ≤ c ∧ c ≤ 57) :
    ∀ x : Int, 0 ≤ x → x ≤ maxInt64 →
      leadingIntLoop x (ds ++ tail)
        = if digitsAcc x ds ≤ maxInt64 then .ok (digitsAcc x ds, tail)
          else .error .errLeadingInt := by
  induction ds with
  | nil =>
    intro x _ hmax
    have hx : digitsAcc x [] = x := rfl
    rw [hx, if_pos hmax, List.nil_append]
    cases tail with
    | nil => rfl
    | cons c t =>
      have hc : c < 48 ∨ c > 57 := htail c (by simp)
      simp [leadingIntLoop, hc]
  | cons c ds ih =>
    intro x hx0 hmax
    have hc := hds c (by simp)
    have hds' : ∀ c ∈ ds, 48 ≤ c ∧ c ≤ 57 := fun c hc => hds c (by simp [hc])
    have hnd : ¬ (c < 48 ∨ c > 57) := by omega
    rw [List.cons_append, leadingIntLoop, if_neg hnd, maxInt64_tdiv_ten, digitsAcc_cons]
    have hge := digitsAcc_ge ds hds' (x * 10 + ((c : Int) - 48)) (by omega)
    by_cases hbig : x > 922337203685477580
    · rw [if_pos hbig, if_neg]
      unfold maxInt64
      omega
    · rw [if_neg hbig]
      simp only [wrap64_digit_step]
      by_cases hfit : x * 10 + ((c : Int) - 48) ≤ maxInt64
      · have hw : wrap64 (x * 10 + ((c : Int) - 48)) = x * 10 + ((c : Int) - 48) :=
          wrap64_of_range (by unfold minInt64; omega) hfit
        rw [hw, if_neg (by omega)]
        exact ih hds' _ (by omega) hfit
      · have hneg : wrap64 (x * 10 + ((c : Int) - 48)) < 0 := by
          unfold wrap64
          unfold maxInt64 at hfit
          omega
        rw [if_pos hneg, if_neg (by omega)]

/-! ## The parser: reading the unit -/

theorem lookup_mem {α β : Type} [BEq α] [LawfulBEq α] (a : α) (b : β) :
    ∀ l : List (α × β), l.lookup a = some b → (a, b) ∈ l := by
  intro l
  induction l with
  | nil => intro h; simp at h
  | cons p l ih =>
    intro h
    obtain ⟨a', b'⟩ := p
    rw [List.lookup_cons] at h
    by_cases hab : a == a'
    · simp only [hab] at h
      have : a = a' := by simpa using hab
      simp_all
    · simp only [hab] at h
      exact List.mem_cons_of_mem _ (ih h)

/-- Every token of `unitMap` is non-empty, contains no digit and no point, and has a
positive size of at most one week. -/
theorem unitMap_facts (u : List Nat) (size : Int) (h : unitMap u = some size) :
    u ≠ [] ∧ (∀ c ∈ u, ¬ (c = 46 ∨ (c ≥ 48 ∧ c ≤ 57))) ∧ 0 < size
      ∧ size ≤ 604800000000000 := by
  have hmem := lookup_mem u size unitTable h
  simp only [unitTable, List.mem_cons, Prod.mk.injEq, List.mem_singleton, List.not_mem_nil,
    or_false] at hmem
  rcases hmem with ⟨h1, h2⟩ | ⟨h1, h2⟩ | ⟨h1, h2⟩ | ⟨h1, h2⟩ | ⟨h1, h2⟩ | ⟨h1, h2⟩ | ⟨h1, h2⟩
    | ⟨h1, h2⟩ | ⟨h1, h2⟩ | ⟨h1, h2⟩ <;> subst h1 <;> subst h2 <;> decide

theorem unitEnd_append (tail : List Nat) (htail : UnitStops tail) (u : List Nat)
    (hu : ∀ c ∈ u, ¬ (c = 46 ∨ (c ≥ 48 ∧ c ≤ 57))) :
    unitEnd (u ++ tail) = u.length := by
  induction u with
  | nil =>
    cases tail with
    | nil => rfl
    | cons c t =>
      have hc : c = 46 ∨ (c ≥ 48 ∧ c ≤ 57) := htail c (by simp)
      simp [unitEnd, hc]
  | cons c u ih =>
    have hc := hu c (by simp)
    rw [List.cons_append, unitEnd, if_neg hc, ih (fun c hc => hu c (by simp [hc]))]
    rfl

/-- What `consumeUnit` does on a token of `unitMap` followed by the start of another part
or by nothing: it returns the size of the token and what follows it. -/
theorem consumeUnit_token (u : List Nat) (size : Int) (h : unitMap u = some size)
    (tail : List Nat) (htail : UnitStops tail) :
    consumeUnit (u ++ tail) = .ok (size, tail) := by
  obtain ⟨hne, hu, _, _⟩ := unitMap_facts u size h
  have hlen : u.length ≠ 0 := by
    intro h0
    exact hne (List.length_eq_zero.mp h0)
  unfold consumeUnit
  simp only [unitEnd_append tail htail u hu, hlen, if_false, List.take_left', List.drop_left', h]

/-! ## The parser: one part without a point -/

theorem gt_tdiv_iff (v size : Int) (hs : 0 < size) :
    v > maxInt64.tdiv size ↔ ¬ v * size ≤ maxInt64 := by
  rw [Int.tdiv_eq_ediv (by decide) hs.le, gt_iff_lt, Int.ediv_lt_iff_lt_mul hs]
  omega

/-- What `parseDurationPart` does on a well-formed part without a point, followed by the
start of another part or by nothing. -/
theorem parseDurationPart_simple (p : SimplePart) (hp : p.WellFormed) (tail : List Nat)
    (htail : UnitStops tail) :
    parseDurationPart (p.bytes ++ tail)
      = some (if digitsValue p.digits ≤ maxInt64 then
          (if p.nanos ≤ maxInt64 then .ok ⟨p.nanos, 0, p.size, 0, tail⟩
            else .error .invalidDurationPart)
          else .error .errLeadingInt) := by
  obtain ⟨hne, hds, hunit⟩ := hp
  obtain ⟨hune, hu, hpos, hweek⟩ := unitMap_facts p.unit p.size hunit
  obtain ⟨c0, ds, hcons⟩ := List.exists_cons_of_ne_nil hne
  obtain ⟨u0, us, hucons⟩ := List.exists_cons_of_ne_nil hune
  have hc0 : 48 ≤ c0 ∧ c0 ≤ 57 := hds c0 (by simp [hcons])
  have hu0 : ¬ (u0 = 46 ∨ (u0 ≥ 48 ∧ u0 ≤ 57)) := hu u0 (by simp [hucons])
  have hahead : NoDigitAhead (p.unit ++ tail) := by
    intro c hc
    rw [hucons] at hc
    simp only [List.cons_append, List.head?_cons, Option.mem_def, Option.some.injEq] at hc
    omega
  have hint := leadingIntLoop_digits (p.unit ++ tail) hahead p.digits hds 0 (le_refl _)
    (by decide)
  have hbytes : p.bytes ++ tail = c0 :: (ds ++ (p.unit ++ tail)) := by
    simp [SimplePart.bytes, hcons]
  have hfirst : ¬ ¬ (c0 = 46 ∨ (c0 ≥ 48 ∧ c0 ≤ 57)) := by omega
  rw [hbytes, parseDurationPart]
  simp only [if_neg hfirst]
  have hdv : digitsAcc 0 p.digits = digitsValue p.digits := rfl
  rw [← List.cons_append, ← hcons, leadingInt, hint, hdv]
  by_cases hfit : digitsValue p.digits ≤ maxInt64
  · simp only [if_pos hfit]
    have hu046 : ¬ u0 = 46 := by omega
    simp only [hucons, List.cons_append, if_neg hu046]
    rw [← List.cons_append, ← hucons, consumeUnit_token p.unit p.size hunit tail htail]
    have hlen : (p.digits ++ (p.unit ++ tail)).length ≠ (p.unit ++ tail).length := by
      have : p.digits.length ≠ 0 := fun h0 => hne (List.length_eq_zero.mp h0)
      simp only [List.length_append]
      omega
    have hsz : ¬ p.size = 0 := by omega
    simp only [hlen, ne_eq, not_false_eq_true, decide_True, Bool.not_true, Bool.false_and,
      Bool.false_eq_true, if_false, hsz, gt_tdiv_iff _ _ hpos, wrap64]
    by_cases hprod : p.nanos ≤ maxInt64
    · have hprod' : digitsValue p.digits * p.size ≤ maxInt64 := hprod
      have h0 : 0 ≤ digitsValue p.digits * p.size :=
        Int.mul_nonneg (digitsValue_nonneg _ hds) hpos.le
      have hw : (digitsValue p.digits * p.size + 9223372036854775808) % 18446744073709551616
          - 9223372036854775808 = digitsValue p.digits * p.size := by
        unfold maxInt64 at hprod'
        omega
      simp only [hprod, hprod', not_true_eq_false, if_false, if_true, hw, SimplePart.nanos]
    · have hprod' : ¬ digitsValue p.digits * p.size ≤ maxInt64 := hprod
      simp only [hprod, hprod', not_false_eq_true, if_true, if_false]
  · simp only [if_neg hfit]

/-! ## The parser: a sequence of parts without a point -/

theorem partsBytes_cons (p : SimplePart) (ps : List SimplePart) :
    partsBytes (p :: ps) = p.bytes ++ partsBytes ps := by
  simp [partsBytes]

theorem partsSum_cons (p : SimplePart) (ps : List SimplePart) :
    partsSum (p :: ps) = p.nanos + partsSum ps := by
  simp [partsSum]

theorem nanos_bounds (p : SimplePart) (hp : p.WellFormed) :
    0 ≤ digitsValue p.digits ∧ digitsValue p.digits ≤ p.nanos := by
  obtain ⟨_, hds, hunit⟩ := hp
  obtain ⟨_, _, hpos, _⟩ := unitMap_facts p.unit p.size hunit
  have h0 := digitsValue_nonneg p.digits hds
  refine ⟨h0, ?_⟩
  unfold SimplePart.nanos
  nlinarith

theorem partsSum_nonneg (parts : List SimplePart) (hwf : ∀ p ∈ parts, p.WellFormed) :
    0 ≤ partsSum parts := by
  induction parts with
  | nil => simp [partsSum]
  | cons p ps ih =>
    have h1 := nanos_bounds p (hwf p (by simp))
    have h2 := ih (fun q hq => hwf q (by simp [hq]))
    rw [partsSum_cons]
    omega

theorem bytes_length (p : SimplePart) (hp : p.WellFormed) : 2 ≤ p.bytes.length := by
  obtain ⟨hne, _, hunit⟩ := hp
  obtain ⟨hune, _, _, _⟩ := unitMap_facts p.unit p.size hunit
  have h1 : p.digits.length ≠ 0 := fun h0 => hne (List.length_eq_zero.mp h0)
  have h2 : p.unit.length ≠ 0 := fun h0 => hune (List.length_eq_zero.mp h0)
  simp only [SimplePart.bytes, List.length_append]
  omega

theorem partsBytes_head (parts : List SimplePart) (hwf : ∀ p ∈ parts, p.WellFormed) :
    ∀ c ∈ (partsBytes parts).head?, 48 ≤ c ∧ c ≤ 57 := by
  cases parts with
  | nil => intro c hc; simp [partsBytes] at hc
  | cons p ps =>
    intro c hc
    obtain ⟨hne, hds, _⟩ := hwf p (by simp)
    obtain ⟨c0, ds, hcons⟩ := List.exists_cons_of_ne_nil hne
    rw [partsBytes_cons, SimplePart.bytes, hcons] at hc
    simp only [List.cons_append, List.head?_cons, Option.mem_def, Option.some.injEq] at hc
    rw [← hc]
    exact hds c0 (by simp [hcons])

theorem partsBytes_unitStops (parts : List SimplePart) (hwf : ∀ p ∈ parts, p.WellFormed) :
    UnitStops (partsBytes parts) := by
  intro c hc
  have := partsBytes_head parts hwf c hc
  omega

/-- The loop of `ParseDuration` over a sequence of well-formed parts without a point,
entered with a running total `d`: it ends with `d` plus the sum of the parts when that
fits in an `int64`, and otherwise returns one of the three overflow errors. -/
theorem parseLoop_parts (fmul : FracConv) (orig : List Nat) :
    ∀ (parts : List SimplePart), (∀ p ∈ parts, p.WellFormed) →
      ∀ (fuel : Nat) (d : Int), (partsBytes parts).length ≤ fuel → 0 ≤ d → d ≤ maxInt64 →
        (d + partsSum parts ≤ maxInt64 →
            parseLoop fmul orig fuel d (partsBytes parts) = some (.ok (d + partsSum parts)))
          ∧ (¬ d + partsSum parts ≤ maxInt64 →
            ∃ e, parseLoop fmul orig fuel d (partsBytes parts) = some (.error e)
              ∧ (e = .errLeadingInt ∨ e = .invalidDurationPart ∨ e = .invalidDuration orig)) := by
  intro parts
  induction parts with
  | nil =>
    intro _ fuel d _ _ hmax
    have hb : partsBytes [] = [] := rfl
    have hs : partsSum [] = 0 := rfl
    rw [hb, hs]
    refine ⟨fun _ => ?_, fun h => ?_⟩
    · cases fuel <;> simp [parseLoop]
    · omega
  | cons p ps ih =>
    intro hwf fuel d hfuel hd0 hdmax
    have hp := hwf p (by simp)
    have hps : ∀ q ∈ ps, q.WellFormed := fun q hq => hwf q (by simp [hq])
    have hlen := bytes_length p hp
    obtain ⟨hv0, hvn⟩ := nanos_bounds p hp
    have hsum0 := partsSum_nonneg ps hps
    have hpart := parseDurationPart_simple p hp (partsBytes ps) (partsBytes_unitStops ps hps)
    rw [partsBytes_cons] at hfuel ⊢
    rw [partsSum_cons]
    rw [List.length_append] at hfuel
    obtain ⟨fuel', rfl⟩ : ∃ k, fuel = k + 1 := ⟨fuel - 1, by omega⟩
    obtain ⟨c, cs, hcs⟩ : ∃ c cs, p.bytes ++ partsBytes ps = c :: cs := by
      cases h : p.bytes ++ partsBytes ps with
      | nil =>
        have := congrArg List.length h
        simp only [List.length_append, List.length_nil] at this
        omega
      | cons c cs => exact ⟨c, cs, rfl⟩
    have hloop : parseLoop fmul orig (fuel' + 1) d (p.bytes ++ partsBytes ps)
        = match parseDurationPart (p.bytes ++ partsBytes ps) with
          | none => none
          | some (.error e) => some (.error e)
          | some (.ok r) =>
            match (if r.f > 0 then
                (if wrap64 (r.v + fmul r.f r.unit r.scale) < 0 then none
                  else some (wrap64 (r.v + fmul r.f r.unit r.scale)))
                else some r.v) with
            | none => some (.error (.invalidDuration orig))
            | some v =>
              if wrap64 (d + v) < 0 then some (.error (.invalidDuration orig))
              else parseLoop fmul orig fuel' (wrap64 (d + v)) r.s := by
      rw [hcs, parseLoop]
    rw [hloop, hpart]
    by_cases hfit : digitsValue p.digits ≤ maxInt64
    · by_cases hprod : p.nanos ≤ maxInt64
      · simp only [if_pos hfit, if_pos hprod, lt_irrefl, if_false]
        by_cases hadd : d + p.nanos ≤ maxInt64
        · have hw : wrap64 (d + p.nanos) = d + p.nanos :=
            wrap64_of_range (by unfold minInt64; omega) hadd
          have hnn : ¬ d + p.nanos < 0 := by omega
          simp only [hw, hnn, if_false]
          have := ih hps fuel' (d + p.nanos) (by omega) (by omega) hadd
          rw [← add_assoc]
          exact this
        · have hneg : wrap64 (d + p.nanos) < 0 := by
            unfold wrap64
            unfold maxInt64 at hadd hdmax hprod
            omega
          simp only [hneg, if_true]
          refine ⟨fun h => ?_, fun _ => ⟨_, rfl, Or.inr (Or.inr rfl)⟩⟩
          omega
      · simp only [if_pos hfit, if_neg hprod]
        refine ⟨fun h => ?_, fun _ => ⟨_, rfl, Or.inr (Or.inl rfl)⟩⟩
        omega
    · simp only [if_neg hfit]
      refine ⟨fun h => ?_, fun _ => ⟨_, rfl, Or.inl rfl⟩⟩
      omega

/-! ## The parser: sign and result -/

/-- The top of `ParseDuration` on an optional sign followed by a body that is not empty,
is not `"0"` and does not start with a sign: the sign is removed and the loop runs on the
body. -/
theorem parseDuration_body (fmul : FracConv) (sign body : List Nat) (hsign : IsSign sign)
    (hne : body ≠ []) (hhead : ∀ c ∈ body.head?, ¬ (c = 45 ∨ c = 43)) (hzero : body ≠ [48]) :
    ParseDuration fmul (sign ++ body)
      = match parseLoop fmul (sign ++ body) body.length 0 body with
        | none => none
        | some (.error e) => some (0, some e)
        | some (.ok d) => some (if sign = [45] then wrap64 (-d) else d, none) := by
  obtain ⟨c, cs, rfl⟩ := List.exists_cons_of_ne_nil hne
  have hc : ¬ (c = 45 ∨ c = 43) := hhead c (by simp)
  rcases hsign with rfl | rfl | rfl
  · simp [ParseDuration, hc, hzero]
  · simp [ParseDuration, hzero]
  · simp [ParseDuration, hzero]

theorem partsBytes_body (parts : List SimplePart) (hne : parts ≠ [])
    (hwf : ∀ p ∈ parts, p.WellFormed) :
    partsBytes parts ≠ [] ∧ (∀ c ∈ (partsBytes parts).head?, ¬ (c = 45 ∨ c = 43))
      ∧ partsBytes parts ≠ [48] := by
  obtain ⟨p, ps, rfl⟩ := List.exists_cons_of_ne_nil hne
  have hlen := bytes_length p (hwf p (by simp))
  have hl : 2 ≤ (partsBytes (p :: ps)).length := by
    rw [partsBytes_cons, List.length_append]
    omega
  refine ⟨fun h => ?_, fun c hc => ?_, fun h => ?_⟩
  · rw [h] at hl; simp at hl
  · have := partsBytes_head (p :: ps) hwf c hc
    omega
  · rw [h] at hl; simp at hl

/-- C2. For every input made of an optional sign followed by one or more parts, each a
non-empty run of ASCII digits denoting `n_i` followed by a token of `unitMap` of size
`u_i`, with no point: if the sum of the `n_i * u_i` is at most `2^63 - 1`, `ParseDuration`
returns no error and exactly that sum, negated when the sign is `'-'`. -/
theorem parseDuration_sum (fmul : FracConv) (sign : List Nat) (parts : List SimplePart)
    (hsign : IsSign sign) (hne : parts ≠ []) (hwf : ∀ p ∈ parts, p.WellFormed)
    (hsum : partsSum parts ≤ maxInt64) :
    ParseDuration fmul (sign ++ partsBytes parts)
      = some (if sign = [45] then - partsSum parts else partsSum parts, none) := by
  obtain ⟨h1, h2, h3⟩ := partsBytes_body parts hne hwf
  have h0 := partsSum_nonneg parts hwf
  have hloop := (parseLoop_parts fmul (sign ++ partsBytes parts) parts hwf
    (partsBytes parts).length 0 (le_refl _) (le_refl _) (by decide)).1 (by omega)
  rw [parseDuration_body fmul sign _ hsign h1 h2 h3, hloop]
  have hw : wrap64 (- partsSum parts) = - partsSum parts :=
    wrap64_of_range (by unfold minInt64; unfold maxInt64 at hsum; omega)
      (by unfold maxInt64; omega)
  simp only [zero_add, hw]

/-- Instance at the input `"-1h1m"`. -/
theorem parseDuration_sum_witness :
    IsSign [45] ∧ sampleParts ≠ [] ∧ (∀ p ∈ sampleParts, p.WellFormed)
      ∧ partsSum sampleParts ≤ maxInt64
      ∧ [45] ++ partsBytes sampleParts = ascii "-1h1m"
      ∧ ParseDuration exactFrac ([45] ++ partsBytes sampleParts)
          = some (if [45] = [45] then - partsSum sampleParts else partsSum sampleParts, none)
      ∧ - partsSum sampleParts = -(Hour + Minute) :=
  ⟨by decide, by decide, by decide, by decide, by decide,
    parseDuration_sum exactFrac [45] sampleParts (by decide) (by decide) (by decide)
      (by decide),
    by decide⟩

/-- C3. `ParseDuration` rejects overflow instead of wrapping.  For every input made of an
optional sign followed by one or more parts of ASCII digits and a token of `unitMap`, with
no point: if a digit run denotes more than `2^63 - 1`, or a product `n_i * u_i` exceeds
`2^63 - 1`, or the sum of the products exceeds `2^63 - 1`, then `ParseDuration` returns
duration `0` together with an error, one of the three overflow errors of the source. -/
theorem parseDuration_overflow (fmul : FracConv) (sign : List Nat) (parts : List SimplePart)
    (hsign : IsSign sign) (hne : parts ≠ []) (hwf : ∀ p ∈ parts, p.WellFormed)
    (hover : (∃ p ∈ parts, maxInt64 < digitsValue p.digits)
      ∨ (∃ p ∈ parts, maxInt64 < p.nanos) ∨ maxInt64 < partsSum parts) :
    ∃ e, ParseDuration fmul (sign ++ partsBytes parts) = some (0, some e)
      ∧ (e = .errLeadingInt ∨ e = .invalidDurationPart
          ∨ e = .invalidDuration (sign ++ partsBytes parts)) := by
  obtain ⟨h1, h2, h3⟩ := partsBytes_body parts hne hwf
  have hmem : ∀ p ∈ parts, p.nanos ≤ partsSum parts := by
    intro p hp
    obtain ⟨l1, l2, rfl⟩ := List.append_of_mem hp
    have a1 := partsSum_nonneg l1 (fun q hq => hwf q (by simp [hq]))
    have a2 := partsSum_nonneg l2 (fun q hq => hwf q (by simp [hq]))
    have : partsSum (l1 ++ p :: l2) = partsSum l1 + (p.nanos + partsSum l2) := by
      simp [partsSum]
    omega
  have hbig : ¬ 0 + partsSum parts ≤ maxInt64 := by
    rcases hover with ⟨p, hp, h⟩ | ⟨p, hp, h⟩ | h
    · have := (nanos_bounds p (hwf p hp)).2
      have := hmem p hp
      omega
    · have := hmem p hp
      omega
    · omega
  obtain ⟨e, hloop, he⟩ := (parseLoop_parts fmul (sign ++ partsBytes parts) parts hwf
    (partsBytes parts).length 0 (le_refl _) (le_refl _) (by decide)).2 hbig
  refine ⟨e, ?_, he⟩
  rw [parseDuration_body fmul sign _ hsign h1 h2 h3, hloop]

/-- Instance at the input `"9223372036854775807ns1ns"`, whose sum is `2^63`. -/
theorem parseDuration_overflow_witness :
    IsSign [] ∧ overflowParts ≠ [] ∧ (∀ p ∈ overflowParts, p.WellFormed)
      ∧ maxInt64 < partsSum overflowParts
      ∧ [] ++ partsBytes overflowParts = ascii "9223372036854775807ns1ns"
      ∧ ∃ e, ParseDuration exactFrac ([] ++ partsBytes overflowParts) = some (0, some e)
          ∧ (e = .errLeadingInt ∨ e = .invalidDurationPart
              ∨ e = .invalidDuration ([] ++ partsBytes overflowParts)) :=
  ⟨by decide, by decide, by decide, by decide, by decide,
    parseDuration_overflow exactFrac [] overflowParts (by decide) (by decide) (by decide)
      (Or.inr (Or.inr (by decide)))⟩

/-! ## The parser: a point without fractional digits -/

theorem leadingFraction_no_digit (tail : List Nat) (htail : NoDigitAhead tail) :
    leadingFraction tail = (0, 0, tail) := by
  cases tail with
  | nil => rfl
  | cons c t =>
    have hc : c < 48 ∨ c > 57 := htail c (by simp)
    simp [leadingFraction, leadingFractionLoop, hc]

/-- What `parseDurationPart` does on a run of digits, a point, and something that is not a
digit: `pl` is set again after the point, so `pre` is computed from the fraction and the
part is rejected with `errA` although digits were read before the point. -/
theorem parseDurationPart_point (digits tail : List Nat) (hds : ∀ c ∈ digits, 48 ≤ c ∧ c ≤ 57)
    (hfit : digitsValue digits ≤ maxInt64) (htail : NoDigitAhead tail) :
    parseDurationPart (digits ++ 46 :: tail) = some (.error .errA) := by
  have hahead : NoDigitAhead (46 :: tail) := by
    intro c hc
    simp only [List.head?_cons, Option.mem_def, Option.some.injEq] at hc
    omega
  have hint := leadingIntLoop_digits (46 :: tail) hahead digits hds 0 (le_refl _) (by decide)
  have hdv : digitsAcc 0 digits = digitsValue digits := rfl
  rw [hdv, if_pos hfit] at hint
  obtain ⟨c0, cs, hcs, hc0⟩ : ∃ c0 cs, digits ++ 46 :: tail = c0 :: cs
      ∧ (c0 = 46 ∨ (c0 ≥ 48 ∧ c0 ≤ 57)) := by
    cases digits with
    | nil => exact ⟨46, tail, rfl, Or.inl rfl⟩
    | cons c ds => exact ⟨c, ds ++ 46 :: tail, rfl, Or.inr (hds c (by simp))⟩
  have hfirst : ¬ ¬ (c0 = 46 ∨ (c0 ≥ 48 ∧ c0 ≤ 57)) := not_not.mpr hc0
  rw [hcs, parseDurationPart]
  simp only [if_neg hfirst]
  rw [← hcs, leadingInt, hint]
  simp [leadingFraction_no_digit tail htail]

/-- C4, what the code does.  For every input made of an optional sign, a non-empty run of
digits denoting `n`, a point, no fractional digits, a token of `unitMap` of size `u` with
`n * u ≤ 2^63 - 1`, and anything after it, `ParseDuration` returns duration `0` and the
"no digits" error `errA`: digits before the point do not suffice. -/
theorem parseDuration_point_no_fraction (fmul : FracConv) (sign digits unit rest : List Nat)
    (size : Int) (hsign : IsSign sign) (hne : digits ≠ [])
    (hds : ∀ c ∈ digits, 48 ≤ c ∧ c ≤ 57) (hunit : unitMap unit = some size)
    (hfit : digitsValue digits * size ≤ maxInt64) :
    ParseDuration fmul (sign ++ (digits ++ 46 :: (unit ++ rest))) = some (0, some .errA) := by
  obtain ⟨hune, hu, hpos, _⟩ := unitMap_facts unit size hunit
  obtain ⟨u0, us, hucons⟩ := List.exists_cons_of_ne_nil hune
  obtain ⟨c0, ds, hcons⟩ := List.exists_cons_of_ne_nil hne
  have hv0 := digitsValue_nonneg digits hds
  have hfit' : digitsValue digits ≤ maxInt64 := by nlinarith
  have htail : NoDigitAhead (unit ++ rest) := by
    intro c hc
    have hu0 := hu u0 (by simp [hucons])
    rw [hucons] at hc
    simp only [List.cons_append, List.head?_cons, Option.mem_def, Option.some.injEq] at hc
    omega
  have hpart := parseDurationPart_point digits (unit ++ rest) hds hfit' htail
  have hc0 := hds c0 (by simp [hcons])
  have hbody : digits ++ 46 :: (unit ++ rest) = c0 :: (ds ++ 46 :: (unit ++ rest)) := by
    rw [hcons]; rfl
  rw [parseDuration_body fmul sign _ hsign (by rw [hbody]; simp)
    (by
      intro c hc
      rw [hbody] at hc
      simp only [List.head?_cons, Option.mem_def, Option.some.injEq] at hc
      omega)
    (by rw [hbody]; simp)]
  have hloop : parseLoop fmul (sign ++ (digits ++ 46 :: (unit ++ rest)))
      (digits ++ 46 :: (unit ++ rest)).length 0 (digits ++ 46 :: (unit ++ rest))
      = some (.error .errA) := by
    rw [hbody, List.length_cons, parseLoop, ← hbody, hpart]
  rw [hloop]

/-- Instance at the input `"1.s"`. -/
theorem parseDuration_point_no_fraction_witness :
    IsSign [] ∧ ([49] : List Nat) ≠ [] ∧ (∀ c ∈ ([49] : List Nat), 48 ≤ c ∧ c ≤ 57)
      ∧ unitMap [115] = some Second ∧ digitsValue [49] * Second ≤ maxInt64
      ∧ [] ++ ([49] ++ 46 :: ([115] ++ [])) = ascii "1.s"
      ∧ ParseDuration exactFrac ([] ++ ([49] ++ 46 :: ([115] ++ []))) = some (0, some .errA) :=
  ⟨by decide, by decide, by decide, by decide, by decide, by decide,
    parseDuration_point_no_fraction exactFrac [] [49] [115] [] Second (by decide) (by decide)
      (by decide) (by decide) (by decide)⟩

/-! ## The parser: bare signs -/

/-- C5, what the code does.  The empty string is rejected, but the bare signs `"+"` and
`"-"` are accepted: the test for an empty input comes before the sign is removed, the
loop over the parts then runs zero times, and the result is duration `0` with no error. -/
theorem parseDuration_bare_sign (fmul : FracConv) :
    ParseDuration fmul [43] = some (0, none) ∧ ParseDuration fmul [45] = some (0, none)
      ∧ ParseDuration fmul [] = some (0, some (.invalidDuration [])) := by
  refine ⟨?_, ?_, ?_⟩ <;> simp [ParseDuration, parseLoop, wrap64]

/-! ## The parser: the sign -/

/-- A loop that ends normally ends with a total in `0 .. maxInt64`, and ends with the same
total whatever the original string quoted in the error messages is. -/
theorem parseLoop_ok (fmul : FracConv) (orig orig' : List Nat) :
    ∀ (fuel : Nat) (d : Int) (s : List Nat) (r : Int), 0 ≤ d → d ≤ maxInt64 →
      parseLoop fmul orig fuel d s = some (.ok r) →
      parseLoop fmul orig' fuel d s = some (.ok r) ∧ 0 ≤ r ∧ r ≤ maxInt64 := by
  intro fuel
  induction fuel with
  | zero =>
    intro d s r hd0 hdmax h
    cases s with
    | nil =>
      simp only [parseLoop, Option.some.injEq, Except.ok.injEq] at h ⊢
      subst h
      exact ⟨rfl, hd0, hdmax⟩
    | cons c cs => simp [parseLoop] at h
  | succ fuel ih =>
    intro d s r hd0 hdmax h
    cases s with
    | nil =>
      simp only [parseLoop, Option.some.injEq, Except.ok.injEq] at h ⊢
      subst h
      exact ⟨rfl, hd0, hdmax⟩
    | cons c cs =>
      rw [parseLoop] at h ⊢
      cases hpart : parseDurationPart (c :: cs) with
      | none => rw [hpart] at h; simp at h
      | some x =>
        cases x with
        | error e => rw [hpart] at h; simp at h
        | ok res =>
          rw [hpart] at h
          simp only at h ⊢
          by_cases hf : res.f > 0
          · simp only [hf, if_true] at h ⊢
            by_cases hv : wrap64 (res.v + fmul res.f res.unit res.scale) < 0
            · simp [hv] at h
            · simp only [hv, if_false] at h ⊢
              by_cases hd : wrap64 (d + wrap64 (res.v + fmul res.f res.unit res.scale)) < 0
              · simp [hd] at h
              · simp only [hd, if_false] at h ⊢
                exact ih _ _ _ (by omega) (wrap64_range _).2 h
          · simp only [hf, if_false] at h ⊢
            by_cases hd : wrap64 (d + res.v) < 0
            · simp [hd] at h
            · simp only [hd, if_false] at h ⊢
              exact ih _ _ _ (by omega) (wrap64_range _).2 h

/-- C10. For every string `s` without a leading sign on which `ParseDuration` succeeds
with value `d`, `ParseDuration` succeeds on `"-" + s` with value `-d`, and `d` is not
negative. -/
theorem parseDuration_neg (fmul : FracConv) (s : List Nat) (d : Int)
    (hs : ∀ c ∈ s.head?, ¬ (c = 45 ∨ c = 43)) (h : ParseDuration fmul s = some (d, none)) :
    ParseDuration fmul (45 :: s) = some (-d, none) ∧ 0 ≤ d := by
  by_cases hnil : s = []
  · subst hnil
    simp [ParseDuration] at h
  by_cases hzero : s = [48]
  · subst hzero
    simp only [ParseDuration, List.cons_ne_nil, if_false, if_true, Option.some.injEq,
      Prod.mk.injEq, and_true] at h
    simp only [show (48 : Nat) = 45 ∨ (48 : Nat) = 43 ↔ False by decide, if_false, if_true]
      at h
    have hd : d = 0 := by
      simp only [Option.some.injEq, Prod.mk.injEq, and_true] at h
      exact h.symm
    subst hd
    simp [ParseDuration]
  have h1 := parseDuration_body fmul [] s (Or.inl rfl) hnil hs hzero
  have h2 := parseDuration_body fmul [45] s (Or.inr (Or.inr rfl)) hnil hs hzero
  rw [List.nil_append] at h1
  rw [h] at h1
  cases hloop : parseLoop fmul s s.length 0 s with
  | none => rw [hloop] at h1; simp at h1
  | some x =>
    cases x with
    | error e => rw [hloop] at h1; simp at h1
    | ok r =>
      rw [hloop] at h1
      simp only [List.nil_eq, reduceCtorEq, if_false, Option.some.injEq, Prod.mk.injEq,
        and_true] at h1
      subst h1
      obtain ⟨hl, hd0, hdmax⟩ := parseLoop_ok fmul s ([45] ++ s) s.length 0 s d (le_refl _)
        (by decide) hloop
      have hw : wrap64 (-d) = -d :=
        wrap64_of_range (by unfold minInt64; unfold maxInt64 at hdmax; omega)
          (by unfold maxInt64; omega)
      rw [show (45 :: s) = [45] ++ s from rfl, h2, hl]
      refine ⟨?_, hd0⟩
      show some ((if [45] = [45] then wrap64 (-d) else d), none) = some (-d, none)
      rw [if_pos rfl, hw]

/-- Instance at the input `"1h1m"`. -/
theorem parseDuration_neg_witness :
    (∀ c ∈ (ascii "1h1m").head?, ¬ (c = 45 ∨ c = 43))
      ∧ ParseDuration exactFrac (ascii "1h1m") = some (Hour + Minute, none)
      ∧ ParseDuration exactFrac (45 :: ascii "1h1m") = some (-(Hour + Minute), none)
      ∧ (0 : Int) ≤ Hour + Minute :=
  ⟨by decide, by decide,
    parseDuration_neg exactFrac (ascii "1h1m") (Hour + Minute) (by decide) (by decide)⟩

/-! ## The parser: what a successful call has read -/

/-- A successful `leadingInt` has removed a run of digits, and what is left does not start
with a digit. -/
theorem leadingIntLoop_split :
    ∀ (s : List Nat) (x v : Int) (rest : List Nat), leadingIntLoop x s = .ok (v, rest) →
      ∃ ds, s = ds ++ rest ∧ (∀ c ∈ ds, 48 ≤ c ∧ c ≤ 57) ∧ NoDigitAhead rest := by
  intro s
  induction s with
  | nil =>
    intro x v rest h
    simp only [leadingIntLoop, Except.ok.injEq, Prod.mk.injEq] at h
    refine ⟨[], by simp [h.2.symm], by simp, ?_⟩
    rw [← h.2]
    intro c hc
    simp at hc
  | cons c cs ih =>
    intro x v rest h
    rw [leadingIntLoop] at h
    by_cases hc : c < 48 ∨ c > 57
    · simp only [hc, if_true, Except.ok.injEq, Prod.mk.injEq] at h
      refine ⟨[], by simp [h.2.symm], by simp, ?_⟩
      rw [← h.2]
      intro c' hc'
      simp only [List.head?_cons, Option.mem_def, Option.some.injEq] at hc'
      rw [← hc']
      exact hc
    · simp only [hc, if_false] at h
      by_cases hbig : x > maxInt64.tdiv 10
      · simp [hbig] at h
      · simp only [hbig, if_false] at h
        by_cases hneg : wrap64 (wrap64 (wrap64 (x * 10) + (c : Int)) - 48) < 0
        · simp [hneg] at h
        · simp only [hneg, if_false] at h
          obtain ⟨ds, h1, h2, h3⟩ := ih _ _ _ h
          refine ⟨c :: ds, by simp [h1], ?_, h3⟩
          intro c' hc'
          rcases List.mem_cons.mp hc' with rfl | hc'
          · omega
          · exact h2 c' hc'

/-- The function `leadingFraction` removes a run of digits, and what is left does not
start with a digit. -/
theorem leadingFractionLoop_split :
    ∀ (s : List Nat) (x : Int) (k : Nat) (ov : Bool),
      ∃ ds, s = ds ++ (leadingFractionLoop x k ov s).2.2 ∧ (∀ c ∈ ds, 48 ≤ c ∧ c ≤ 57)
        ∧ NoDigitAhead (leadingFractionLoop x k ov s).2.2 := by
  intro s
  induction s with
  | nil =>
    intro x k ov
    refine ⟨[], rfl, by simp, ?_⟩
    intro c hc
    simp [leadingFractionLoop] at hc
  | cons c cs ih =>
    intro x k ov
    rw [leadingFractionLoop]
    by_cases hc : c < 48 ∨ c > 57
    · simp only [hc, if_true]
      refine ⟨[], rfl, by simp, ?_⟩
      intro c' hc'
      simp only [List.head?_cons, Option.mem_def, Option.some.injEq] at hc'
      rw [← hc']
      exact hc
    · simp only [hc, if_false]
      have hstep : ∀ (x' : Int) (k' : Nat) (ov' : Bool),
          ∃ ds, c :: cs = ds ++ (leadingFractionLoop x' k' ov' cs).2.2
            ∧ (∀ c ∈ ds, 48 ≤ c ∧ c ≤ 57)
            ∧ NoDigitAhead (leadingFractionLoop x' k' ov' cs).2.2 := by
        intro x' k' ov'
        obtain ⟨ds, h1, h2, h3⟩ := ih x' k' ov'
        refine ⟨c :: ds, by rw [List.cons_append, ← h1], ?_, h3⟩
        intro c' hc'
        rcases List.mem_cons.mp hc' with rfl | hc'
        · omega
        · exact h2 c' hc'
      split_ifs <;> exact hstep _ _ _

theorem unitEnd_le (s : List Nat) : unitEnd s ≤ s.length := by
  induction s with
  | nil => simp [unitEnd]
  | cons c cs ih =>
    rw [unitEnd]
    split_ifs
    · omega
    · simp only [List.length_cons]; omega

theorem unitEnd_stops (s : List Nat) : UnitStops (s.drop (unitEnd s)) := by
  induction s with
  | nil => intro c hc; simp [unitEnd] at hc
  | cons c cs ih =>
    rw [unitEnd]
    by_cases hc : c = 46 ∨ (c ≥ 48 ∧ c ≤ 57)
    · rw [if_pos hc]
      intro c' hc'
      simp only [List.drop_zero, List.head?_cons, Option.mem_def, Option.some.injEq] at hc'
      rw [← hc']
      exact hc
    · rw [if_neg hc]
      exact ih

/-- A successful `consumeUnit` has removed a token of `unitMap`, and what is left is empty
or starts with a digit or a point. -/
theorem consumeUnit_split (s : List Nat) (size : Int) (rest : List Nat)
    (h : consumeUnit s = .ok (size, rest)) :
    ∃ u, s = u ++ rest ∧ unitMap u = some size ∧ UnitStops rest := by
  unfold consumeUnit at h
  by_cases h0 : unitEnd s = 0
  · simp [h0] at h
  · simp only [h0, if_false] at h
    cases hu : unitMap (s.take (unitEnd s)) with
    | none => rw [hu] at h; simp at h
    | some sz =>
      rw [hu] at h
      simp only [Except.ok.injEq, Prod.mk.injEq] at h
      obtain ⟨h1, h2⟩ := h
      subst h1
      subst h2
      exact ⟨s.take (unitEnd s), (List.take_append_drop _ _).symm, hu, unitEnd_stops s⟩

/-- A successful `parseDurationPart` has removed one part of the grammar, and what is left
is empty or starts with a digit or a point. -/
theorem parseDurationPart_split (s : List Nat) (r : PartResult)
    (h : parseDurationPart s = some (.ok r)) :
    ∃ p, IsPart p ∧ s = p ++ r.s ∧ p ≠ [] ∧ UnitStops r.s := by
  cases s with
  | nil => simp [parseDurationPart] at h
  | cons c0 cs =>
    rw [parseDurationPart] at h
    by_cases hfirst : ¬ (c0 = 46 ∨ (c0 ≥ 48 ∧ c0 ≤ 57))
    · simp [hfirst] at h
    simp only [hfirst, if_false] at h
    cases hint : leadingInt (c0 :: cs) with
    | error e => rw [hint] at h; simp at h
    | ok vs =>
      obtain ⟨v, s1⟩ := vs
      rw [hint] at h
      obtain ⟨ints, hs, hints, hahead⟩ := leadingIntLoop_split _ _ _ _ hint
      simp only at h
      have finish : ∀ (point fracs s3 : List Nat) (f : Int) (scale : Nat),
          s1 = point ++ (fracs ++ s3) → (∀ c ∈ fracs, 48 ≤ c ∧ c ≤ 57) →
          (point = [] ∨ point = [46]) → (point = [] → fracs = []) →
          (ints ≠ [] ∨ fracs ≠ []) →
          (match consumeUnit s3 with
            | Except.error e => some (Except.error e)
            | Except.ok (unit, s) =>
              if unit = 0 then none
              else if v > maxInt64.tdiv unit then
                some (Except.error ParseError.invalidDurationPart)
              else some (Except.ok (PartResult.mk (wrap64 (v * unit)) f unit scale s)))
            = some (Except.ok r) →
          ∃ p, IsPart p ∧ c0 :: cs = p ++ r.s ∧ p ≠ [] ∧ UnitStops r.s := by
        intro point fracs s3 f scale hs1 hfracs hpoint hpf hdig hres
        cases hcu : consumeUnit s3 with
        | error e => rw [hcu] at hres; simp at hres
        | ok us =>
          obtain ⟨unit, rest⟩ := us
          rw [hcu] at hres
          simp only at hres
          obtain ⟨u, hs3, hmap, hstops⟩ := consumeUnit_split _ _ _ hcu
          have hrs : r.s = rest := by
            by_cases h0 : unit = 0
            · simp [h0] at hres
            · by_cases hgt : v > maxInt64.tdiv unit
              · simp [h0, hgt] at hres
              · simp only [h0, hgt, if_false, Option.some.injEq, Except.ok.injEq] at hres
                rw [← hres]
          have hune := (unitMap_facts u unit hmap).1
          refine ⟨ints ++ (point ++ (fracs ++ u)),
            ⟨ints, point, fracs, u, unit, rfl, hints, hfracs, hpoint, hpf, hdig, hmap⟩, ?_, ?_, ?_⟩
          · rw [hs, hs1, hs3, hrs]
            simp only [List.append_assoc]
          · intro hnil
            simp only [List.append_eq_nil] at hnil
            exact hune hnil.2.2.2
          · rw [hrs]; exact hstops
      cases s1 with
      | nil =>
        have hi : ints ≠ [] := by
          intro hnil
          rw [hnil] at hs
          simp at hs
        have hpre : (c0 :: cs).length ≠ ([] : List Nat).length := by simp
        simp only [hpre, ne_eq, not_false_eq_true, decide_True, Bool.not_true, Bool.false_and,
          Bool.false_eq_true, if_false] at h
        exact finish [] [] [] 0 0 rfl (by simp) (Or.inl rfl) (fun _ => rfl) (Or.inl hi) h
      | cons c s2 =>
        by_cases hc : c = 46
        · subst hc
          simp only [if_true] at h
          obtain ⟨fracs, hf1, hf2, _⟩ := leadingFractionLoop_split s2 0 0 false
          by_cases hpost : s2.length = (leadingFraction s2).2.2.length
          · simp [hpost] at h
          · have hfr : fracs ≠ [] := by
              intro hnil
              rw [hnil, List.nil_append] at hf1
              exact hpost (congrArg List.length hf1)
            simp only [hpost, ne_eq, not_false_eq_true, decide_True, Bool.not_true,
              Bool.false_and, Bool.false_eq_true, if_false] at h
            exact finish [46] fracs _ _ _ (by rw [List.singleton_append]; congr 1) hf2
              (Or.inr rfl) (fun hp => absurd hp (by simp)) (Or.inr hfr) h
        · simp only [hc, if_false] at h
          by_cases hpre : (c0 :: cs).length = (c :: s2).length
          · simp [hpre] at h
          · have hi : ints ≠ [] := by
              intro hnil
              rw [hnil, List.nil_append] at hs
              exact hpre (congrArg List.length hs)
            simp only [hpre, ne_eq, not_false_eq_true, decide_True, Bool.not_true,
              Bool.false_and, Bool.false_eq_true, if_false] at h
            exact finish [] [] (c :: s2) 0 0 rfl (by simp) (Or.inl rfl) (fun _ => rfl)
              (Or.inl hi) h

/-- A loop that ends normally has read a sequence of parts of the grammar. -/
theorem parseLoop_isParts (fmul : FracConv) (orig : List Nat) :
    ∀ (fuel : Nat) (d : Int) (s : List Nat) (r : Int),
      parseLoop fmul orig fuel d s = some (.ok r) → IsParts s := by
  intro fuel
  induction fuel with
  | zero =>
    intro d s r h
    cases s with
    | nil => exact ⟨[], by simp, rfl⟩
    | cons c cs => simp [parseLoop] at h
  | succ fuel ih =>
    intro d s r h
    cases s with
    | nil => exact ⟨[], by simp, rfl⟩
    | cons c cs =>
      rw [parseLoop] at h
      cases hpart : parseDurationPart (c :: cs) with
      | none => rw [hpart] at h; simp at h
      | some x =>
        cases x with
        | error e => rw [hpart] at h; simp at h
        | ok res =>
          obtain ⟨p, hp, hs, _, _⟩ := parseDurationPart_split _ _ hpart
          have hrest : IsParts res.s := by
            rw [hpart] at h
            simp only at h
            by_cases hf : res.f > 0
            · simp only [hf, if_true] at h
              by_cases hv : wrap64 (res.v + fmul res.f res.unit res.scale) < 0
              · simp [hv] at h
              · simp only [hv, if_false] at h
                by_cases hd : wrap64 (d + wrap64 (res.v + fmul res.f res.unit res.scale)) < 0
                · simp [hd] at h
                · simp only [hd, if_false] at h
                  exact ih _ _ _ h
            · simp only [hf, if_false] at h
              by_cases hd : wrap64 (d + res.v) < 0
              · simp [hd] at h
              · simp only [hd, if_false] at h
                exact ih _ _ _ h
          obtain ⟨ps, hps, hflat⟩ := hrest
          refine ⟨p :: ps, ?_, ?_⟩
          · intro q hq
            rcases List.mem_cons.mp hq with rfl | hq
            · exact hp
            · exact hps q hq
          · rw [hs, hflat, List.flatten_cons]

/-- Every input `ParseDuration` accepts is of the grammar `sign? ("0" | part+)`, or is one
of the bare signs `"+"` and `"-"`. -/
theorem parseDuration_accepts_grammar (fmul : FracConv) (s : List Nat) (d : Int)
    (h : ParseDuration fmul s = some (d, none)) :
    IsDuration s ∨ s = [43] ∨ s = [45] := by
  have key : ∀ (sign body : List Nat), IsSign sign → s = sign ++ body →
      (body = [48] ∨ ∃ r, parseLoop fmul s body.length 0 body = some (.ok r)) →
      IsDuration s ∨ sign = s := by
    intro sign body hsign hs hbody
    rcases hbody with h48 | ⟨r, hr⟩
    · exact Or.inl ⟨sign, body, hsign, hs, Or.inl h48⟩
    · by_cases hnil : body = []
      · right; rw [hs, hnil, List.append_nil]
      · obtain ⟨parts, hparts, hflat⟩ := parseLoop_isParts fmul s _ _ _ _ hr
        refine Or.inl ⟨sign, body, hsign, hs, Or.inr ⟨parts, ?_, hparts, hflat⟩⟩
        intro hp
        rw [hp] at hflat
        exact hnil hflat
  cases s with
  | nil => simp [ParseDuration] at h
  | cons c rest =>
    simp only [ParseDuration, List.cons_ne_nil, if_false] at h
    by_cases hc : c = 45 ∨ c = 43
    · simp only [hc, if_true] at h
      have hsign : IsSign [c] := by
        rcases hc with rfl | rfl
        · exact Or.inr (Or.inr rfl)
        · exact Or.inr (Or.inl rfl)
      have hbody : rest = [48] ∨ ∃ r, parseLoop fmul (c :: rest) rest.length 0 rest
          = some (.ok r) := by
        by_cases h48 : rest = [48]
        · exact Or.inl h48
        · right
          simp only [h48, if_false] at h
          cases hl : parseLoop fmul (c :: rest) rest.length 0 rest with
          | none => rw [hl] at h; simp at h
          | some x =>
            cases x with
            | error e => rw [hl] at h; simp at h
            | ok r => exact ⟨r, rfl⟩
      rcases key [c] rest hsign rfl hbody with h1 | h1
      · exact Or.inl h1
      · right
        rw [← h1]
        rcases hc with rfl | rfl
        · exact Or.inr rfl
        · exact Or.inl rfl
    · simp only [hc, if_false] at h
      have hbody : c :: rest = [48] ∨ ∃ r, parseLoop fmul (c :: rest) (c :: rest).length 0
          (c :: rest) = some (.ok r) := by
        by_cases h48 : c :: rest = [48]
        · exact Or.inl h48
        · right
          simp only [h48, if_false] at h
          cases hl : parseLoop fmul (c :: rest) (c :: rest).length 0 (c :: rest) with
          | none => rw [hl] at h; simp at h
          | some x =>
            cases x with
            | error e => rw [hl] at h; simp at h
            | ok r => exact ⟨r, rfl⟩
      rcases key [] (c :: rest) (Or.inl rfl) rfl hbody with h1 | h1
      · exact Or.inl h1
      · simp at h1

/-- Instance at the input `"1h1m"`. -/
theorem parseDuration_accepts_grammar_witness :
    ParseDuration exactFrac (ascii "1h1m") = some (Hour + Minute, none)
      ∧ (IsDuration (ascii "1h1m") ∨ ascii "1h1m" = [43] ∨ ascii "1h1m" = [45]) :=
  ⟨by decide, parseDuration_accepts_grammar exactFrac (ascii "1h1m") (Hour + Minute) (by decide)⟩

/-! ## Byte packing -/

/-- What `BytesToUint64` computes on eight bytes: the shifts are by `7 - i` bits, not by
`8 * (7 - i)`, so the bytes overlap and the result is below `2^16`. -/
theorem bytesToUint64_eq (b0 b1 b2 b3 b4 b5 b6 b7 : Nat) (h0 : b0 < 256) (h1 : b1 < 256)
    (h2 : b2 < 256) (h3 : b3 < 256) (h4 : b4 < 256) (h5 : b5 < 256) (h6 : b6 < 256)
    (h7 : b7 < 256) :
    BytesToUint64 [b0, b1, b2, b3, b4, b5, b6, b7]
      = some (b0 * 128 + b1 * 64 + b2 * 32 + b3 * 16 + b4 * 8 + b5 * 4 + b6 * 2 + b7) := by
  simp only [BytesToUint64, bytesToUint64Loop, List.length_cons, List.length_nil,
    Nat.shiftLeft_eq]
  simp only [show (0 + 1 + 1 + 1 + 1 + 1 + 1 + 1 + 1 : Nat) ≠ 8 ↔ False by decide, if_false]
  congr 1
  norm_num
  omega

/-- C18, what the code does.  `BytesToUint64` does not invert `Uint64ToBytes`: the value
`256` is written as the bytes `0 0 0 0 0 0 1 0` and read back as `2`, and the slice
`1 0 0 0 0 0 0 0` is read as `128`, which is written back as `0 0 0 0 0 0 0 128`. -/
theorem bytesToUint64_not_inverse :
    Uint64ToBytes 256 = [0, 0, 0, 0, 0, 0, 1, 0]
      ∧ BytesToUint64 (Uint64ToBytes 256) = some 2
      ∧ BytesToUint64 [1, 0, 0, 0, 0, 0, 0, 0] = some 128
      ∧ Uint64ToBytes 128 = [0, 0, 0, 0, 0, 0, 0, 128] := by
  refine ⟨by decide, by decide, by decide, by decide⟩

/-! ## The parser: the literal zero and the point without digits -/

/-- C11. `ParseDuration("0")`, `ParseDuration("+0")` and `ParseDuration("-0")` each return
duration `0` with no error. -/
theorem parseDuration_zero (fmul : FracConv) :
    ParseDuration fmul (ascii "0") = some (0, none)
      ∧ ParseDuration fmul (ascii "+0") = some (0, none)
      ∧ ParseDuration fmul (ascii "-0") = some (0, none) := by
  have h0 : ascii "0" = [48] := by decide
  have h1 : ascii "+0" = [43, 48] := by decide
  have h2 : ascii "-0" = [45, 48] := by decide
  rw [h0, h1, h2]
  refine ⟨?_, ?_, ?_⟩ <;> simp [ParseDuration]

/-- C12. For every input that, after an optional sign, begins with a point not followed by
a digit, `ParseDuration` returns duration `0` and the "no digits" error `errA`. -/
theorem parseDuration_point_first (fmul : FracConv) (sign tail : List Nat)
    (hsign : IsSign sign) (htail : NoDigitAhead tail) :
    ParseDuration fmul (sign ++ 46 :: tail) = some (0, some .errA) := by
  have hpart := parseDurationPart_point [] tail (by simp) (by decide) htail
  rw [List.nil_append] at hpart
  rw [parseDuration_body fmul sign (46 :: tail) hsign (by simp)
    (by
      intro c hc
      simp only [List.head?_cons, Option.mem_def, Option.some.injEq] at hc
      omega)
    (by simp)]
  have hloop : parseLoop fmul (sign ++ 46 :: tail) (46 :: tail).length 0 (46 :: tail)
      = some (.error .errA) := by
    rw [List.length_cons, parseLoop, hpart]
  rw [hloop]

/-- Instance at the input `"-.s"`. -/
theorem parseDuration_point_first_witness :
    IsSign [45] ∧ NoDigitAhead [115] ∧ [45] ++ 46 :: [115] = ascii "-.s"
      ∧ ParseDuration exactFrac ([45] ++ 46 :: [115]) = some (0, some .errA) :=
  ⟨by decide, by intro c hc; simp at hc; omega, by decide,
    parseDuration_point_first exactFrac [45] [115] (by decide)
      (by intro c hc; simp at hc; omega)⟩

/-! ## The formatter: no slot, and the first part -/

/-- C14, as stated, fails for a duration below one second: the test `diff < time.Second`
comes first, so `CustomDurationString(0, 0, " ")` is `"now"`, not the empty string. -/
theorem customDurationString_zero_parts_now :
    CustomDurationString 0 0 " " = "now" ∧ CustomDurationString 0 0 " " ≠ ""
      ∧ CustomDurationString (-5000000000) (-1) ", " = "now" := by
  refine ⟨by decide, by decide, by decide⟩

/-- C14, amended.  For every `diff` of at least one second, every `numParts ≤ 0` and every
`glue`, `CustomDurationString` returns the empty string; for every `diff` below one second
it returns `"now"`, whatever `numParts` and `glue` are. -/
theorem customDurationString_zero_parts (diff numParts : Int) (glue : String) :
    (numParts ≤ 0 → Second ≤ diff → CustomDurationString diff numParts glue = "")
      ∧ (diff < Second → CustomDurationString diff numParts glue = "now") := by
  unfold CustomDurationString
  refine ⟨fun hn h => ?_, fun h => if_pos h⟩
  have hnow : ¬ diff < Second := by omega
  have h0 : (numParts - 0).toNat = 0 := by omega
  rw [if_neg hnow, partsLoop_eq_take, h0]
  rfl

/-- Instances: `diff` = 4 minutes with `numParts = 0`, and `diff` = half a second with
`numParts = 3`. -/
theorem customDurationString_zero_parts_witness :
    ((0 : Int) ≤ 0 ∧ Second ≤ 240000000000 ∧ CustomDurationString 240000000000 0 " " = "")
      ∧ ((500000000 : Int) < Second ∧ CustomDurationString 500000000 3 ", " = "now") :=
  ⟨⟨by decide, by decide,
      (customDurationString_zero_parts 240000000000 0 " ").1 (by decide) (by decide)⟩,
    by decide, (customDurationString_zero_parts 500000000 3 ", ").2 (by decide)⟩

/-! ## The parser: an unknown unit -/

/-- What `consumeUnit` does on a non-empty run of bytes that are neither digits nor points,
that is not a token of `unitMap`, followed by the start of another part or by nothing. -/
theorem consumeUnit_unknown (u tail : List Nat) (hune : u ≠ [])
    (hu : ∀ c ∈ u, ¬ (c = 46 ∨ (c ≥ 48 ∧ c ≤ 57))) (hunk : unitMap u = none)
    (htail : UnitStops tail) :
    consumeUnit (u ++ tail) = .error .errUnknownUnit := by
  have hlen : u.length ≠ 0 := fun h0 => hune (List.length_eq_zero.mp h0)
  unfold consumeUnit
  simp only [unitEnd_append tail htail u hu, hlen, if_false, List.take_left', hunk]

/-- What `parseDurationPart` does on a run of digits that fits in an `int64`, followed by
such a run of bytes. -/
theorem parseDurationPart_unknown (digits u tail : List Nat) (hne : digits ≠ [])
    (hds : ∀ c ∈ digits, 48 ≤ c ∧ c ≤ 57) (hfit : digitsValue digits ≤ maxInt64)
    (hune : u ≠ []) (hu : ∀ c ∈ u, ¬ (c = 46 ∨ (c ≥ 48 ∧ c ≤ 57)))
    (hunk : unitMap u = none) (htail : UnitStops tail) :
    parseDurationPart (digits ++ (u ++ tail)) = some (.error .errUnknownUnit) := by
  obtain ⟨c0, ds, hcons⟩ := List.exists_cons_of_ne_nil hne
  obtain ⟨u0, us, hucons⟩ := List.exists_cons_of_ne_nil hune
  have hc0 : 48 ≤ c0 ∧ c0 ≤ 57 := hds c0 (by simp [hcons])
  have hu0 : ¬ (u0 = 46 ∨ (u0 ≥ 48 ∧ u0 ≤ 57)) := hu u0 (by simp [hucons])
  have hahead : NoDigitAhead (u ++ tail) := by
    intro c hc
    rw [hucons] at hc
    simp only [List.cons_append, List.head?_cons, Option.mem_def, Option.some.injEq] at hc
    omega
  have hint := leadingIntLoop_digits (u ++ tail) hahead digits hds 0 (le_refl _) (by decide)
  have hdv : digitsAcc 0 digits = digitsValue digits := rfl
  rw [hdv, if_pos hfit] at hint
  have hbytes : digits ++ (u ++ tail) = c0 :: (ds ++ (u ++ tail)) := by
    rw [hcons]; rfl
  have hfirst : ¬ ¬ (c0 = 46 ∨ (c0 ≥ 48 ∧ c0 ≤ 57)) := by omega
  rw [hbytes, parseDurationPart]
  simp only [if_neg hfirst]
  rw [← hbytes, leadingInt, hint]
  have hu046 : ¬ u0 = 46 := by omega
  simp only [hucons, List.cons_append, if_neg hu046]
  rw [← List.cons_append, ← hucons, consumeUnit_unknown u tail hune hu hunk htail]
  have hlen : (digits ++ (u ++ tail)).length ≠ (u ++ tail).length := by
    have : digits.length ≠ 0 := fun h0 => hne (List.length_eq_zero.mp h0)
    simp only [List.length_append]
    omega
  simp only [hlen, ne_eq, not_false_eq_true, decide_True, Bool.not_true, Bool.false_and,
    Bool.false_eq_true, if_false]

/-- C13. For every input made of an optional sign, a non-empty run of digits of value at
most `2^63 - 1`, and a non-empty run of bytes that are neither digits nor points and is
not a token of `unitMap`, whatever follows that run, `ParseDuration` returns duration `0`
and the error `errUnknownUnit`. -/
theorem parseDuration_unknown_unit (fmul : FracConv) (sign digits u rest : List Nat)
    (hsign : IsSign sign) (hne : digits ≠ []) (hds : ∀ c ∈ digits, 48 ≤ c ∧ c ≤ 57)
    (hfit : digitsValue digits ≤ maxInt64) (hune : u ≠ [])
    (hu : ∀ c ∈ u, ¬ (c = 46 ∨ (c ≥ 48 ∧ c ≤ 57))) (hunk : unitMap u = none)
    (hrest : UnitStops rest) :
    ParseDuration fmul (sign ++ (digits ++ (u ++ rest))) = some (0, some .errUnknownUnit) := by
  obtain ⟨c0, ds, hcons⟩ := List.exists_cons_of_ne_nil hne
  have hc0 := hds c0 (by simp [hcons])
  have hpart := parseDurationPart_unknown digits u rest hne hds hfit hune hu hunk hrest
  have hbody : digits ++ (u ++ rest) = c0 :: (ds ++ (u ++ rest)) := by
    rw [hcons]; rfl
  have hlen : 2 ≤ (digits ++ (u ++ rest)).length := by
    have h1 : digits.length ≠ 0 := fun h0 => hne (List.length_eq_zero.mp h0)
    have h2 : u.length ≠ 0 := fun h0 => hune (List.length_eq_zero.mp h0)
    simp only [List.length_append]
    omega
  rw [parseDuration_body fmul sign _ hsign (by rw [hbody]; simp)
    (by
      intro c hc
      rw [hbody] at hc
      simp only [List.head?_cons, Option.mem_def, Option.some.injEq] at hc
      omega)
    (by intro h; rw [h] at hlen; simp at hlen)]
  have hloop : parseLoop fmul (sign ++ (digits ++ (u ++ rest)))
      (digits ++ (u ++ rest)).length 0 (digits ++ (u ++ rest))
      = some (.error .errUnknownUnit) := by
    rw [hbody, List.length_cons, parseLoop, ← hbody, hpart]
  rw [hloop]

/-- Instance at the input `"1hm5s"`. -/
theorem parseDuration_unknown_unit_witness :
    IsSign [] ∧ ([49] : List Nat) ≠ [] ∧ (∀ c ∈ ([49] : List Nat), 48 ≤ c ∧ c ≤ 57)
      ∧ digitsValue [49] ≤ maxInt64 ∧ ([104, 109] : List Nat) ≠ []
      ∧ (∀ c ∈ ([104, 109] : List Nat), ¬ (c = 46 ∨ (c ≥ 48 ∧ c ≤ 57)))
      ∧ unitMap [104, 109] = none
      ∧ [] ++ ([49] ++ ([104, 109] ++ [53, 115])) = ascii "1hm5s"
      ∧ ParseDuration exactFrac ([] ++ ([49] ++ ([104, 109] ++ [53, 115])))
          = some (0, some .errUnknownUnit) :=
  ⟨by decide, by decide, by decide, by decide, by decide, by decide, by decide, by decide,
    parseDuration_unknown_unit exactFrac [] [49] [104, 109] [53, 115] (by decide) (by decide)
      (by decide) (by decide) (by decide) (by decide) (by decide)
      (by intro c hc; simp at hc; omega)⟩

/-! ## The formatter: the first part -/

/-- The row the walk starts from: its divisor is positive and at most `diff`, its modulus
does not change the quotient, it is the first row whose threshold exceeds `diff`, or the
last row when there is none. -/
theorem start_row_facts (diff : Int) (h1 : Second ≤ diff) (h2 : diff ≤ maxInt64) :
    0 < (magAt (searchIndex diff)).DivBy ∧ (magAt (searchIndex diff)).DivBy ≤ diff
      ∧ ((magAt (searchIndex diff)).ModBy = -1
          ∨ (0 < (magAt (searchIndex diff)).ModBy
              ∧ diff < (magAt (searchIndex diff)).ModBy * (magAt (searchIndex diff)).DivBy))
      ∧ (diff < (magAt (searchIndex diff)).D ∨ searchIndex diff = 6)
      ∧ (∀ j, j < searchIndex diff → (magAt j).D ≤ diff) := by
  rw [searchIndex_eq diff h2]
  rw [Second_eq] at h1
  unfold maxInt64 at h2
  simp only [Minute_eq, Hour_eq, Day_eq, Week_eq, Month_eq, Year_eq]
  split_ifs <;> refine ⟨?_, ?_, ?_, ?_, ?_⟩ <;>
    first
    | (intro j hj
       interval_cases j <;>
         simp only [magAt_zero, magAt_one, magAt_two, magAt_three, magAt_four, magAt_five,
           magAt_six, Second_eq, Minute_eq, Hour_eq, Day_eq, Week_eq, Month_eq, Year_eq,
           maxInt64] <;>
         omega)
    | (simp only [magAt_zero, magAt_one, magAt_two, magAt_three, magAt_four, magAt_five,
         magAt_six, Second_eq, Minute_eq, Hour_eq, Day_eq, Week_eq, Month_eq, Year_eq,
         maxInt64]
       omega)
    | simp [magAt_six]

theorem intercalate_go_length (glue : String) :
    ∀ (l : List String) (acc : String),
      acc.length ≤ (String.intercalate.go acc glue l).length := by
  intro l
  induction l with
  | nil => intro acc; exact le_refl _
  | cons a l ih =>
    intro acc
    have h := ih (acc ++ glue ++ a)
    simp only [String.intercalate.go]
    simp only [String.length_append] at h
    omega

theorem magAt_name_length (k : Nat) (hk : k ≤ 6) : 3 ≤ (magAt k).Name.length := by
  interval_cases k <;> decide

theorem formatPart_length (v : Int) (name : String) (h : 3 ≤ name.length) :
    4 ≤ (formatPart v name).length := by
  unfold formatPart
  have hs : (" " : String).length = 1 := by decide
  split_ifs <;> simp only [String.length_append, hs] <;> omega

/-- C15. For every `diff` of at least one second (an `int64`), every `numParts ≥ 1` and
every `glue`: the row the walk starts from is the first whose threshold exceeds `diff`
(the last row when there is none), its value is at least `1`, its part is the first
emitted part, and the result, the glue-join of the emitted parts, is neither the empty
string nor `"now"`. -/
theorem customDurationString_first_part (diff numParts : Int) (glue : String)
    (h1 : Second ≤ diff) (h2 : diff ≤ maxInt64) (hn : 1 ≤ numParts) :
    (diff < (magAt (searchIndex diff)).D ∨ searchIndex diff = 6)
      ∧ (∀ j, j < searchIndex diff → (magAt j).D ≤ diff)
      ∧ 1 ≤ magValue (magAt (searchIndex diff)) diff
      ∧ (∃ rest, durationParts diff numParts
          = formatPart (magValue (magAt (searchIndex diff)) diff)
              (magAt (searchIndex diff)).Name :: rest)
      ∧ CustomDurationString diff numParts glue = glue.intercalate (durationParts diff numParts)
      ∧ CustomDurationString diff numParts glue ≠ ""
      ∧ CustomDurationString diff numParts glue ≠ "now" := by
  obtain ⟨hs, hle, hm, hsel, hbelow⟩ := start_row_facts diff h1 h2
  have h0 : 0 ≤ diff := by rw [Second_eq] at h1; omega
  have hval := magValue_eq_div (magAt (searchIndex diff)) diff h0 hs hm
  have hone : 1 ≤ magValue (magAt (searchIndex diff)) diff := by
    rw [hval]
    exact (Int.le_ediv_iff_mul_le hs).mpr (by omega)
  have hnow : ¬ diff < Second := by omega
  have hparts : ∃ rest, durationParts diff numParts
      = formatPart (magValue (magAt (searchIndex diff)) diff)
          (magAt (searchIndex diff)).Name :: rest := by
    unfold durationParts
    rw [if_neg hnow, partsLoop_eq_take, List.nil_append, allParts]
    have hpos : magValue (magAt (searchIndex diff)) diff > 0 := by omega
    have hk : (numParts - 0).toNat = (numParts - 1).toNat + 1 := by omega
    simp only [hpos, if_true, hk, List.take_succ_cons]
    exact ⟨_, rfl⟩
  have hjoin : CustomDurationString diff numParts glue
      = glue.intercalate (durationParts diff numParts) := by
    unfold CustomDurationString durationParts
    rw [if_neg hnow, if_neg hnow]
  obtain ⟨rest, hrest⟩ := hparts
  have hlen : 4 ≤ (CustomDurationString diff numParts glue).length := by
    rw [hjoin, hrest, String.intercalate]
    exact le_trans
      (formatPart_length _ _ (magAt_name_length _ (searchIndex_le diff)))
      (intercalate_go_length glue rest _)
  refine ⟨hsel, hbelow, hone, ⟨rest, hrest⟩, hjoin, ?_, ?_⟩
  · intro h
    rw [h] at hlen
    exact absurd hlen (by decide)
  · intro h
    rw [h] at hlen
    exact absurd hlen (by decide)

/-- Instance at `diff` = 1 day 1 hour 1 minute 1 second with two parts. -/
theorem customDurationString_first_part_witness :
    Second ≤ 90061000000000 ∧ (90061000000000 : Int) ≤ maxInt64 ∧ (1 : Int) ≤ 2
      ∧ searchIndex 90061000000000 = 3
      ∧ (∃ rest, durationParts 90061000000000 2
          = formatPart (magValue (magAt (searchIndex 90061000000000)) 90061000000000)
              (magAt (searchIndex 90061000000000)).Name :: rest)
      ∧ CustomDurationString 90061000000000 2 " " = "1 day 1 hour" :=
  ⟨by decide, by decide, by decide, by decide,
    (customDurationString_first_part 90061000000000 2 " " (by decide) (by decide)
      (by decide)).2.2.2.1,
    by decide⟩

/-! ## The parser: the steps of one part -/

/-- The end of `parseDurationPart`, from the unit on, returns `r` exactly when
`consumeUnit` succeeds with a non-zero unit and the product does not overflow. -/
theorem partTail_ok_iff (v0 f : Int) (scale : Nat) (s3 : List Nat) (r : PartResult) :
    (match consumeUnit s3 with
      | Except.error e => some (Except.error e)
      | Except.ok (unit, s) =>
        if unit = 0 then none
        else if v0 > maxInt64.tdiv unit then
          some (Except.error ParseError.invalidDurationPart)
        else some (Except.ok (PartResult.mk (wrap64 (v0 * unit)) f unit scale s)))
        = some (Except.ok r)
      ↔ (consumeUnit s3 = .ok (r.unit, r.s) ∧ r.unit ≠ 0 ∧ ¬ v0 > maxInt64.tdiv r.unit
          ∧ r.v = wrap64 (v0 * r.unit) ∧ r.f = f ∧ r.scale = scale) := by
  cases hcu : consumeUnit s3 with
  | error e => simp
  | ok us =>
    obtain ⟨unit, rest⟩ := us
    simp only [Except.ok.injEq, Prod.mk.injEq]
    by_cases h0 : unit = 0
    · simp only [h0, if_true]
      constructor
      · intro h; simp at h
      · rintro ⟨⟨h1, _⟩, h2, _⟩
        exact absurd h1.symm h2
    · by_cases hgt : v0 > maxInt64.tdiv unit
      · simp only [h0, hgt, if_true, if_false]
        constructor
        · intro h; simp at h
        · rintro ⟨⟨h1, _⟩, _, h3, _⟩
          rw [← h1] at h3
          exact absurd hgt h3
      · simp only [h0, hgt, if_false, Option.some.injEq, Except.ok.injEq]
        constructor
        · intro h
          subst h
          exact ⟨⟨rfl, rfl⟩, h0, hgt, rfl, rfl, rfl⟩
        · rintro ⟨⟨h1, h2⟩, _, _, h4, h5, h6⟩
          cases r
          simp only at h1 h2 h4 h5 h6
          subst h1 h2 h5 h6
          rw [h4]

/-- A call of `parseDurationPart` returns `r` with a `nil` error exactly when it goes
through the steps of `PartReads`. -/
theorem parseDurationPart_ok_iff (s : List Nat) (r : PartResult) :
    parseDurationPart s = some (.ok r) ↔ PartReads s r := by
  cases s with
  | nil =>
    constructor
    · intro h; simp [parseDurationPart] at h
    · rintro ⟨_, _, _, hne, _⟩
      exact absurd rfl hne
  | cons c0 cs =>
    rw [parseDurationPart]
    by_cases hfirst : c0 = 46 ∨ (c0 ≥ 48 ∧ c0 ≤ 57)
    · have hnn : ¬ ¬ (c0 = 46 ∨ (c0 ≥ 48 ∧ c0 ≤ 57)) := not_not.mpr hfirst
      simp only [if_neg hnn]
      have hhead : ∀ c ∈ (c0 :: cs).head?, c = 46 ∨ (c ≥ 48 ∧ c ≤ 57) := by
        intro c hc
        simp only [List.head?_cons, Option.mem_def, Option.some.injEq] at hc
        rw [← hc]
        exact hfirst
      cases hint : leadingInt (c0 :: cs) with
      | error e =>
        simp only
        constructor
        · intro h; simp at h
        · rintro ⟨v0, s1, s3, _, _, h, _⟩
          rw [hint] at h
          simp at h
      | ok vs =>
        obtain ⟨v, s1⟩ := vs
        simp only
        cases s1 with
        | nil =>
          have hpre : (c0 :: cs).length ≠ ([] : List Nat).length := by simp
          simp only [hpre, ne_eq, not_false_eq_true, decide_True, Bool.not_true,
            Bool.false_and, Bool.false_eq_true, if_false]
          rw [partTail_ok_iff]
          constructor
          · rintro ⟨h1, h2, h3, h4, h5, h6⟩
            exact ⟨v, [], [], by simp, hhead, hint,
              Or.inr ⟨by simp, h5, h6, rfl, by simp⟩, h1, h2, h3, h4⟩
          · rintro ⟨v0, s1, s3, _, _, hi, hfr, h1, h2, h3, h4⟩
            rw [hint] at hi
            simp only [Except.ok.injEq, Prod.mk.injEq] at hi
            obtain ⟨rfl, rfl⟩ := hi
            rcases hfr with ⟨s2, hs1, _⟩ | ⟨_, h5, h6, rfl, _⟩
            · simp at hs1
            · exact ⟨h1, h2, h3, h4, h5, h6⟩
        | cons c s2 =>
          by_cases hc : c = 46
          · subst hc
            simp only [if_true]
            by_cases hpost : s2.length = (leadingFraction s2).2.2.length
            · simp only [hpost, ne_eq, not_true_eq_false, decide_False, Bool.not_false,
                Bool.and_self, if_true]
              constructor
              · intro h; simp at h
              · rintro ⟨v0, s1, s3, _, _, hi, hfr, _⟩
                rw [hint] at hi
                simp only [Except.ok.injEq, Prod.mk.injEq] at hi
                obtain ⟨rfl, rfl⟩ := hi
                rcases hfr with ⟨s2', hs1, hlf, hlen⟩ | ⟨hno, _⟩
                · simp only [List.cons.injEq, true_and] at hs1
                  subst hs1
                  rw [hlf] at hpost
                  exact absurd hpost hlen
                · exact absurd rfl (hno s2)
            · simp only [hpost, ne_eq, not_false_eq_true, decide_True, Bool.not_true,
                Bool.false_and, Bool.false_eq_true, if_false]
              rw [partTail_ok_iff]
              constructor
              · rintro ⟨h1, h2, h3, h4, h5, h6⟩
                refine ⟨v, 46 :: s2, (leadingFraction s2).2.2, by simp, hhead, hint,
                  Or.inl ⟨s2, rfl, ?_, hpost⟩, h1, h2, h3, h4⟩
                rw [h5, h6]
              · rintro ⟨v0, s1, s3, _, _, hi, hfr, h1, h2, h3, h4⟩
                rw [hint] at hi
                simp only [Except.ok.injEq, Prod.mk.injEq] at hi
                obtain ⟨rfl, rfl⟩ := hi
                rcases hfr with ⟨s2', hs1, hlf, _⟩ | ⟨hno, _⟩
                · simp only [List.cons.injEq, true_and] at hs1
                  subst hs1
                  rw [hlf]
                  exact ⟨h1, h2, h3, h4, rfl, rfl⟩
                · exact absurd rfl (hno s2)
          · simp only [hc, if_false]
            by_cases hpre : (c0 :: cs).length = (c :: s2).length
            · simp only [hpre, ne_eq, not_true_eq_false, decide_False, Bool.not_false,
                Bool.and_self, if_true]
              constructor
              · intro h; simp at h
              · rintro ⟨v0, s1, s3, _, _, hi, hfr, _⟩
                rw [hint] at hi
                simp only [Except.ok.injEq, Prod.mk.injEq] at hi
                obtain ⟨rfl, rfl⟩ := hi
                rcases hfr with ⟨s2', hs1, _⟩ | ⟨_, _, _, _, hlen⟩
                · simp only [List.cons.injEq] at hs1
                  exact absurd hs1.1 hc
                · exact absurd hpre hlen
            · simp only [hpre, ne_eq, not_false_eq_true, decide_True, Bool.not_true,
                Bool.false_and, Bool.false_eq_true, if_false]
              rw [partTail_ok_iff]
              constructor
              · rintro ⟨h1, h2, h3, h4, h5, h6⟩
                refine ⟨v, c :: s2, c :: s2, by simp, hhead, hint,
                  Or.inr ⟨?_, h5, h6, rfl, hpre⟩, h1, h2, h3, h4⟩
                intro s2' h
                simp only [List.cons.injEq] at h
                exact hc h.1
              · rintro ⟨v0, s1, s3, _, _, hi, hfr, h1, h2, h3, h4⟩
                rw [hint] at hi
                simp only [Except.ok.injEq, Prod.mk.injEq] at hi
                obtain ⟨rfl, rfl⟩ := hi
                rcases hfr with ⟨s2', hs1, _⟩ | ⟨_, h5, h6, rfl, _⟩
                · simp only [List.cons.injEq] at hs1
                  exact absurd hs1.1 hc
                · exact ⟨h1, h2, h3, h4, h5, h6⟩
    · simp only [if_pos hfirst]
      constructor
      · intro h; simp at h
      · rintro ⟨_, _, _, _, hhead, _⟩
        exact absurd (hhead c0 (by simp)) hfirst

/-! ## The parser: every outcome of one part -/

theorem leadingIntLoop_error :
    ∀ (s : List Nat) (x : Int) (e : ParseError), leadingIntLoop x s = .error e →
      e = .errLeadingInt := by
  intro s
  induction s with
  | nil => intro x e h; simp [leadingIntLoop] at h
  | cons c cs ih =>
    intro x e h
    rw [leadingIntLoop] at h
    by_cases hc : c < 48 ∨ c > 57
    · simp [hc] at h
    · simp only [hc, if_false] at h
      by_cases hbig : x > maxInt64.tdiv 10
      · simp only [hbig, if_true, Except.error.injEq] at h
        exact h.symm
      · simp only [hbig, if_false] at h
        by_cases hneg : wrap64 (wrap64 (wrap64 (x * 10) + (c : Int)) - 48) < 0
        · simp only [hneg, if_true, Except.error.injEq] at h
          exact h.symm
        · simp only [hneg, if_false] at h
          exact ih _ _ h

theorem leadingIntLoop_nonneg :
    ∀ (s : List Nat) (x v : Int) (rest : List Nat), leadingIntLoop x s = .ok (v, rest) →
      0 ≤ x → 0 ≤ v := by
  intro s
  induction s with
  | nil =>
    intro x v rest h hx
    simp only [leadingIntLoop, Except.ok.injEq, Prod.mk.injEq] at h
    omega
  | cons c cs ih =>
    intro x v rest h hx
    rw [leadingIntLoop] at h
    by_cases hc : c < 48 ∨ c > 57
    · simp only [hc, if_true, Except.ok.injEq, Prod.mk.injEq] at h
      omega
    · simp only [hc, if_false] at h
      by_cases hbig : x > maxInt64.tdiv 10
      · simp [hbig] at h
      · simp only [hbig, if_false] at h
        by_cases hneg : wrap64 (wrap64 (wrap64 (x * 10) + (c : Int)) - 48) < 0
        · simp [hneg] at h
        · simp only [hneg, if_false] at h
          exact ih _ _ _ h (by omega)

theorem consumeUnit_error (s : List Nat) (e : ParseError) (h : consumeUnit s = .error e) :
    e = .missingUnit ∨ e = .errUnknownUnit := by
  unfold consumeUnit at h
  by_cases h0 : unitEnd s = 0
  · simp only [h0, if_true, Except.error.injEq] at h
    exact Or.inl h.symm
  · simp only [h0, if_false] at h
    cases hu : unitMap (s.take (unitEnd s)) with
    | none =>
      rw [hu] at h
      simp only [Except.error.injEq] at h
      exact Or.inr h.symm
    | some sz => rw [hu] at h; simp at h

/-- The end of `parseDurationPart`, from the unit on, never panics: the unit it divides by
is a value of `unitMap`, which is positive. -/
theorem partTail_cases (v0 f : Int) (scale : Nat) (s3 : List Nat) :
    (∃ e, (match consumeUnit s3 with
        | Except.error e => some (Except.error e)
        | Except.ok (unit, s) =>
          if unit = 0 then none
          else if v0 > maxInt64.tdiv unit then
            some (Except.error ParseError.invalidDurationPart)
          else some (Except.ok (PartResult.mk (wrap64 (v0 * unit)) f unit scale s)))
          = some (Except.error e)
        ∧ (e = .missingUnit ∨ e = .errUnknownUnit ∨ e = .invalidDurationPart))
      ∨ ∃ r, (match consumeUnit s3 with
        | Except.error e => some (Except.error e)
        | Except.ok (unit, s) =>
          if unit = 0 then none
          else if v0 > maxInt64.tdiv unit then
            some (Except.error ParseError.invalidDurationPart)
          else some (Except.ok (PartResult.mk (wrap64 (v0 * unit)) f unit scale s)))
          = some (Except.ok r) := by
  cases hcu : consumeUnit s3 with
  | error e =>
    rcases consumeUnit_error s3 e hcu with h | h
    · exact Or.inl ⟨e, rfl, Or.inl h⟩
    · exact Or.inl ⟨e, rfl, Or.inr (Or.inl h)⟩
  | ok us =>
    obtain ⟨unit, rest⟩ := us
    obtain ⟨u, _, hmap, _⟩ := consumeUnit_split _ _ _ hcu
    have hpos := (unitMap_facts u unit hmap).2.2.1
    have h0 : ¬ unit = 0 := by omega
    simp only [h0, if_false]
    by_cases hgt : v0 > maxInt64.tdiv unit
    · simp only [hgt, if_true]
      exact Or.inl ⟨_, rfl, Or.inr (Or.inr rfl)⟩
    · simp only [hgt, if_false]
      exact Or.inr ⟨_, rfl⟩

/-- Every outcome of `parseDurationPart` on a non-empty string: it does not panic; it
returns "bad first character" exactly when the first byte is neither a digit nor a point;
its other errors are `errLeadingInt`, `errA`, the two errors of `consumeUnit` and the
overflow of the product. -/
theorem parseDurationPart_cases (c0 : Nat) (cs : List Nat) :
    (¬ (c0 = 46 ∨ (c0 ≥ 48 ∧ c0 ≤ 57))
        ∧ parseDurationPart (c0 :: cs) = some (.error .badFirstCharacter))
      ∨ ((c0 = 46 ∨ (c0 ≥ 48 ∧ c0 ≤ 57))
        ∧ ((∃ e, parseDurationPart (c0 :: cs) = some (.error e)
              ∧ (e = .errLeadingInt ∨ e = .errA ∨ e = .missingUnit ∨ e = .errUnknownUnit
                  ∨ e = .invalidDurationPart))
            ∨ ∃ r, parseDurationPart (c0 :: cs) = some (.ok r))) := by
  rw [parseDurationPart]
  by_cases hfirst : c0 = 46 ∨ (c0 ≥ 48 ∧ c0 ≤ 57)
  · right
    refine ⟨hfirst, ?_⟩
    have hnn : ¬ ¬ (c0 = 46 ∨ (c0 ≥ 48 ∧ c0 ≤ 57)) := not_not.mpr hfirst
    simp only [if_neg hnn]
    have lift : ∀ (v0 f : Int) (scale : Nat) (s3 : List Nat) (t : Option (Except ParseError PartResult)),
        t = (match consumeUnit s3 with
          | Except.error e => some (Except.error e)
          | Except.ok (unit, s) =>
            if unit = 0 then none
            else if v0 > maxInt64.tdiv unit then
              some (Except.error ParseError.invalidDurationPart)
            else some (Except.ok (PartResult.mk (wrap64 (v0 * unit)) f unit scale s))) →
        (∃ e, t = some (.error e)
            ∧ (e = .errLeadingInt ∨ e = .errA ∨ e = .missingUnit ∨ e = .errUnknownUnit
                ∨ e = .invalidDurationPart))
          ∨ ∃ r, t = some (.ok r) := by
      intro v0 f scale s3 t ht
      rcases partTail_cases v0 f scale s3 with ⟨e, he, hk⟩ | ⟨r, hr⟩
      · left
        refine ⟨e, by rw [ht, he], ?_⟩
        rcases hk with h | h | h
        · exact Or.inr (Or.inr (Or.inl h))
        · exact Or.inr (Or.inr (Or.inr (Or.inl h)))
        · exact Or.inr (Or.inr (Or.inr (Or.inr h)))
      · exact Or.inr ⟨r, by rw [ht, hr]⟩
    cases hint : leadingInt (c0 :: cs) with
    | error e =>
      left
      exact ⟨e, rfl, Or.inl (leadingIntLoop_error _ _ _ hint)⟩
    | ok vs =>
      obtain ⟨v, s1⟩ := vs
      simp only
      cases s1 with
      | nil =>
        have hpre : (c0 :: cs).length ≠ ([] : List Nat).length := by simp
        simp only [hpre, ne_eq, not_false_eq_true, decide_True, Bool.not_true,
          Bool.false_and, Bool.false_eq_true, if_false]
        exact lift v 0 0 [] _ rfl
      | cons c s2 =>
        by_cases hc : c = 46
        · subst hc
          simp only [if_true]
          by_cases hpost : s2.length = (leadingFraction s2).2.2.length
          · simp only [hpost, ne_eq, not_true_eq_false, decide_False, Bool.not_false,
              Bool.and_self, if_true]
            exact Or.inl ⟨_, rfl, Or.inr (Or.inl rfl)⟩
          · simp only [hpost, ne_eq, not_false_eq_true, decide_True, Bool.not_true,
              Bool.false_and, Bool.false_eq_true, if_false]
            exact lift v (leadingFraction s2).1 (leadingFraction s2).2.1
              (leadingFraction s2).2.2 _ rfl
        · simp only [hc, if_false]
          by_cases hpre : (c0 :: cs).length = (c :: s2).length
          · simp only [hpre, ne_eq, not_true_eq_false, decide_False, Bool.not_false,
              Bool.and_self, if_true]
            exact Or.inl ⟨_, rfl, Or.inr (Or.inl rfl)⟩
          · simp only [hpre, ne_eq, not_false_eq_true, decide_True, Bool.not_true,
              Bool.false_and, Bool.false_eq_true, if_false]
            exact lift v 0 0 (c :: s2) _ rfl
  · left
    exact ⟨hfirst, by simp only [if_pos hfirst]⟩

/-! ## The parser: termination and absence of panics -/

theorem isPart_length (p : List Nat) (hp : IsPart p) : 2 ≤ p.length := by
  obtain ⟨ints, point, fracs, unit, size, rfl, _, _, _, _, hdig, hunit⟩ := hp
  have hune := (unitMap_facts unit size hunit).1
  have h1 : unit.length ≠ 0 := fun h0 => hune (List.length_eq_zero.mp h0)
  have h2 : ints.length ≠ 0 ∨ fracs.length ≠ 0 := by
    rcases hdig with h | h
    · exact Or.inl (fun h0 => h (List.length_eq_zero.mp h0))
    · exact Or.inr (fun h0 => h (List.length_eq_zero.mp h0))
  simp only [List.length_append]
  omega

/-- What a successful `parseDurationPart` returns: a positive unit, a value in
`0 .. maxInt64`, and a rest shorter than the input by at least two bytes that is empty or
starts with a digit or a point. -/
theorem parseDurationPart_ok_facts (s : List Nat) (r : PartResult)
    (h : parseDurationPart s = some (.ok r)) :
    0 < r.unit ∧ 0 ≤ r.v ∧ r.v ≤ maxInt64 ∧ r.s.length + 2 ≤ s.length ∧ UnitStops r.s := by
  obtain ⟨p, hp, hs, _, hstops⟩ := parseDurationPart_split s r h
  obtain ⟨v0, s1, s3, _, _, hint, _, hcu, _, hgt, hv⟩ := (parseDurationPart_ok_iff s r).mp h
  obtain ⟨u, _, hmap, _⟩ := consumeUnit_split _ _ _ hcu
  have hpos := (unitMap_facts u r.unit hmap).2.2.1
  have hv0 : 0 ≤ v0 := leadingIntLoop_nonneg _ _ _ _ hint (le_refl _)
  have hprod : v0 * r.unit ≤ maxInt64 := by
    by_contra hcon
    exact hgt ((gt_tdiv_iff v0 r.unit hpos).mpr hcon)
  have h0 : 0 ≤ v0 * r.unit := Int.mul_nonneg hv0 hpos.le
  have hw : wrap64 (v0 * r.unit) = v0 * r.unit :=
    wrap64_of_range (by unfold minInt64; omega) hprod
  have hlen := isPart_length p hp
  have hl : s.length = p.length + r.s.length := by
    rw [hs, List.length_append]
  rw [hv, hw]
  exact ⟨hpos, h0, hprod, by omega, hstops⟩

/-- The loop of `ParseDuration` ends within `len(s)` iterations and does not panic. -/
theorem parseLoop_total (fmul : FracConv) (orig : List Nat) :
    ∀ (fuel : Nat) (d : Int) (s : List Nat), s.length ≤ fuel →
      parseLoop fmul orig fuel d s ≠ none := by
  intro fuel
  induction fuel with
  | zero =>
    intro d s hlen
    cases s with
    | nil => simp [parseLoop]
    | cons c cs => simp at hlen
  | succ fuel ih =>
    intro d s hlen
    cases s with
    | nil => simp [parseLoop]
    | cons c cs =>
      rw [parseLoop]
      rcases parseDurationPart_cases c cs with ⟨_, h⟩ | ⟨_, ⟨e, h, _⟩ | ⟨r, h⟩⟩
      · rw [h]; simp
      · rw [h]; simp
      · rw [h]
        have hfacts := parseDurationPart_ok_facts _ _ h
        have hrs : r.s.length ≤ fuel := by
          have := hfacts.2.2.2.1
          simp only [List.length_cons] at this hlen
          omega
        simp only
        split
        · simp
        · split_ifs
          · simp
          · exact ih _ _ hrs

/-- The top of `ParseDuration` on a non-empty input: an optional sign is removed, what is
left is the body, and the result is zero when the body is `"0"` and is read by the loop
otherwise. -/
theorem parseDuration_unfold (fmul : FracConv) (s : List Nat) (hne : s ≠ []) :
    ∃ sign body, IsSign sign ∧ s = sign ++ body
      ∧ (sign = [] → ∀ c ∈ body.head?, ¬ (c = 45 ∨ c = 43))
      ∧ ParseDuration fmul s
          = if body = [48] then some (0, none)
            else match parseLoop fmul s body.length 0 body with
              | none => none
              | some (.error e) => some (0, some e)
              | some (.ok d) => some (if sign = [45] then wrap64 (-d) else d, none) := by
  obtain ⟨c, rest, rfl⟩ := List.exists_cons_of_ne_nil hne
  by_cases hc : c = 45 ∨ c = 43
  · refine ⟨[c], rest, ?_, rfl, by simp, ?_⟩
    · rcases hc with rfl | rfl
      · exact Or.inr (Or.inr rfl)
      · exact Or.inr (Or.inl rfl)
    · rcases hc with rfl | rfl <;> simp [ParseDuration]
  · refine ⟨[], c :: rest, Or.inl rfl, rfl, ?_, ?_⟩
    · intro _ c' hc'
      simp only [List.head?_cons, Option.mem_def, Option.some.injEq] at hc'
      rw [← hc']
      exact hc
    · simp [ParseDuration, hc]

/-- C20. `ParseDuration` is total and panic-free on every input: it returns a duration and
an error value, `parseDurationPart` does not panic on a non-empty string (the only strings
the loop passes to it), the unit it divides by is positive, and every successful call
returns a rest that is shorter than its input by at least two bytes, a digit and a unit
byte, so that the loop ends. -/
theorem parseDuration_total (fmul : FracConv) (s : List Nat) :
    (∃ d err, ParseDuration fmul s = some (d, err))
      ∧ (∀ (orig : List Nat) (d : Int), parseLoop fmul orig s.length d s ≠ none)
      ∧ (∀ c cs, s = c :: cs → parseDurationPart s ≠ none)
      ∧ (∀ r, parseDurationPart s = some (.ok r) →
          0 < r.unit ∧ ∃ p, s = p ++ r.s ∧ 2 ≤ p.length) := by
  refine ⟨?_, fun orig d => parseLoop_total fmul orig _ d s (le_refl _), ?_, ?_⟩
  · by_cases hne : s = []
    · subst hne
      exact ⟨0, some (.invalidDuration []), by simp [ParseDuration]⟩
    · obtain ⟨sign, body, _, _, _, hpd⟩ := parseDuration_unfold fmul s hne
      rw [hpd]
      by_cases h48 : body = [48]
      · exact ⟨0, none, by rw [if_pos h48]⟩
      · rw [if_neg h48]
        have htot := parseLoop_total fmul s body.length 0 body (le_refl _)
        cases hl : parseLoop fmul s body.length 0 body with
        | none => exact absurd hl htot
        | some x =>
          cases x with
          | error e => exact ⟨0, some e, rfl⟩
          | ok d => exact ⟨_, none, rfl⟩
  · intro c cs hs
    rw [hs]
    rcases parseDurationPart_cases c cs with ⟨_, h⟩ | ⟨_, ⟨e, h, _⟩ | ⟨r, h⟩⟩ <;> rw [h] <;> simp
  · intro r h
    obtain ⟨p, hp, hs, _, _⟩ := parseDurationPart_split s r h
    exact ⟨(parseDurationPart_ok_facts s r h).1, p, hs, isPart_length p hp⟩

/-- Instance at the input `"1h1m"`, whose first part `"1h"` is read with unit one hour. -/
theorem parseDuration_total_witness :
    parseDurationPart (ascii "1h1m") = some (.ok ⟨Hour, 0, Hour, 0, ascii "1m"⟩)
      ∧ (0 < Hour ∧ ∃ p, ascii "1h1m" = p ++ ascii "1m" ∧ 2 ≤ p.length) :=
  ⟨rfl, (parseDuration_total exactFrac (ascii "1h1m")).2.2.2 ⟨Hour, 0, Hour, 0, ascii "1m"⟩
    rfl⟩

/-! ## The parser: the errors it returns -/

/-- The errors the loop of `ParseDuration` returns.  "bad first character" can only come
from the first part, on a byte that is neither a digit nor a point: every later part
starts where a unit token stopped. -/
theorem parseLoop_error (fmul : FracConv) (orig : List Nat) :
    ∀ (fuel : Nat) (d : Int) (s : List Nat) (e : ParseError),
      parseLoop fmul orig fuel d s = some (.error e) →
      (e = .badFirstCharacter ∧ ∃ c cs, s = c :: cs ∧ ¬ (c = 46 ∨ (c ≥ 48 ∧ c ≤ 57)))
        ∨ e = .errLeadingInt ∨ e = .errA ∨ e = .missingUnit ∨ e = .errUnknownUnit
        ∨ e = .invalidDurationPart ∨ e = .invalidDuration orig := by
  intro fuel
  induction fuel with
  | zero =>
    intro d s e h
    cases s <;> simp [parseLoop] at h
  | succ fuel ih =>
    intro d s e h
    cases s with
    | nil => simp [parseLoop] at h
    | cons c cs =>
      rw [parseLoop] at h
      rcases parseDurationPart_cases c cs with ⟨hc, hp⟩ | ⟨_, ⟨e', hp, hk⟩ | ⟨r, hp⟩⟩
      · rw [hp] at h
        simp only [Option.some.injEq, Except.error.injEq] at h
        exact Or.inl ⟨h.symm, c, cs, rfl, hc⟩
      · rw [hp] at h
        simp only [Option.some.injEq, Except.error.injEq] at h
        subst h
        rcases hk with h1 | h1 | h1 | h1 | h1
        · exact Or.inr (Or.inl h1)
        · exact Or.inr (Or.inr (Or.inl h1))
        · exact Or.inr (Or.inr (Or.inr (Or.inl h1)))
        · exact Or.inr (Or.inr (Or.inr (Or.inr (Or.inl h1))))
        · exact Or.inr (Or.inr (Or.inr (Or.inr (Or.inr (Or.inl h1)))))
      · have hstops := (parseDurationPart_ok_facts _ _ hp).2.2.2.2
        rw [hp] at h
        simp only at h
        have last : e = .invalidDuration orig →
            (e = .badFirstCharacter ∧ ∃ c cs, r.s = c :: cs ∧ ¬ (c = 46 ∨ (c ≥ 48 ∧ c ≤ 57)))
              ∨ e = .errLeadingInt ∨ e = .errA ∨ e = .missingUnit ∨ e = .errUnknownUnit
              ∨ e = .invalidDurationPart ∨ e = .invalidDuration orig :=
          fun h1 => Or.inr (Or.inr (Or.inr (Or.inr (Or.inr (Or.inr h1)))))
        have hrec : (e = .badFirstCharacter
              ∧ ∃ c cs, r.s = c :: cs ∧ ¬ (c = 46 ∨ (c ≥ 48 ∧ c ≤ 57)))
              ∨ e = .errLeadingInt ∨ e = .errA ∨ e = .missingUnit ∨ e = .errUnknownUnit
              ∨ e = .invalidDurationPart ∨ e = .invalidDuration orig := by
          by_cases hf : r.f > 0
          · simp only [hf, if_true] at h
            by_cases hv : wrap64 (r.v + fmul r.f r.unit r.scale) < 0
            · simp only [hv, if_true, Option.some.injEq, Except.error.injEq] at h
              exact last h.symm
            · simp only [hv, if_false] at h
              by_cases hd : wrap64 (d + wrap64 (r.v + fmul r.f r.unit r.scale)) < 0
              · simp only [hd, if_true, Option.some.injEq, Except.error.injEq] at h
                exact last h.symm
              · simp only [hd, if_false] at h
                exact ih _ _ _ h
          · simp only [hf, if_false] at h
            by_cases hd : wrap64 (d + r.v) < 0
            · simp only [hd, if_true, Option.some.injEq, Except.error.injEq] at h
              exact last h.symm
            · simp only [hd, if_false] at h
              exact ih _ _ _ h
        rcases hrec with ⟨_, c', cs', hrs, hc'⟩ | hrest
        · exact absurd (hstops c' (by rw [hrs]; simp)) hc'
        · exact Or.inr hrest

/-- What `ParseDuration` does on an optional sign followed by a byte that is neither a
digit nor a point (and is not itself taken for the sign): "bad first character". -/
theorem parseDuration_bad_first (fmul : FracConv) (sign rest : List Nat) (c : Nat)
    (hsign : IsSign sign) (hc : ¬ (c = 46 ∨ (c ≥ 48 ∧ c ≤ 57)))
    (hns : sign = [] → ¬ (c = 45 ∨ c = 43)) :
    ParseDuration fmul (sign ++ c :: rest) = some (0, some .badFirstCharacter) := by
  have hpart : parseDurationPart (c :: rest) = some (.error .badFirstCharacter) := by
    rw [parseDurationPart, if_pos hc]
  have h48 : c :: rest ≠ [48] := by
    intro h
    simp only [List.cons.injEq] at h
    omega
  have hloop : ∀ orig, parseLoop fmul orig (c :: rest).length 0 (c :: rest)
      = some (.error .badFirstCharacter) := by
    intro orig
    rw [List.length_cons, parseLoop, hpart]
  rcases hsign with rfl | rfl | rfl
  · have hcs := hns rfl
    simp only [List.nil_append]
    simp only [ParseDuration, List.cons_ne_nil, if_false, hcs, h48, hloop]
  · simp only [ParseDuration, List.singleton_append, List.cons_ne_nil, if_false, or_true,
      if_true, h48, hloop]
  · simp only [ParseDuration, List.singleton_append, List.cons_ne_nil, if_false, true_or,
      if_true, h48, hloop]

/-! ## The parser: a part does not depend on what follows it -/

theorem leadingIntLoop_append (b : List Nat) :
    ∀ (s : List Nat) (x v : Int) (rest : List Nat), leadingIntLoop x s = .ok (v, rest) →
      rest ≠ [] → leadingIntLoop x (s ++ b) = .ok (v, rest ++ b) := by
  intro s
  induction s with
  | nil =>
    intro x v rest h hne
    simp only [leadingIntLoop, Except.ok.injEq, Prod.mk.injEq] at h
    exact absurd h.2.symm hne
  | cons c cs ih =>
    intro x v rest h hne
    rw [leadingIntLoop] at h
    rw [List.cons_append, leadingIntLoop]
    by_cases hc : c < 48 ∨ c > 57
    · simp only [hc, if_true, Except.ok.injEq, Prod.mk.injEq] at h ⊢
      obtain ⟨h1, h2⟩ := h
      rw [← h2]
      exact ⟨h1, rfl⟩
    · simp only [hc, if_false] at h ⊢
      by_cases hbig : x > maxInt64.tdiv 10
      · simp [hbig] at h
      · simp only [hbig, if_false] at h ⊢
        by_cases hneg : wrap64 (wrap64 (wrap64 (x * 10) + (c : Int)) - 48) < 0
        · simp [hneg] at h
        · simp only [hneg, if_false] at h ⊢
          exact ih _ _ _ h hne

theorem leadingFractionLoop_append (b : List Nat) :
    ∀ (s : List Nat) (x : Int) (k : Nat) (ov : Bool),
      (leadingFractionLoop x k ov s).2.2 ≠ [] →
      leadingFractionLoop x k ov (s ++ b)
        = ((leadingFractionLoop x k ov s).1, (leadingFractionLoop x k ov s).2.1,
            (leadingFractionLoop x k ov s).2.2 ++ b) := by
  intro s
  induction s with
  | nil =>
    intro x k ov h
    simp [leadingFractionLoop] at h
  | cons c cs ih =>
    intro x k ov h
    rw [leadingFractionLoop] at h ⊢
    rw [List.cons_append, leadingFractionLoop]
    by_cases hc : c < 48 ∨ c > 57
    · simp only [hc, if_true]
      rfl
    · simp only [hc, if_false] at h ⊢
      split_ifs at h ⊢ <;> exact ih _ _ _ h

theorem unitEnd_append_stops (b : List Nat) (hb : UnitStops b) :
    ∀ s : List Nat, unitEnd (s ++ b) = unitEnd s := by
  intro s
  induction s with
  | nil =>
    cases b with
    | nil => rfl
    | cons c t =>
      have hc : c = 46 ∨ (c ≥ 48 ∧ c ≤ 57) := hb c (by simp)
      simp [unitEnd, hc]
  | cons c cs ih =>
    rw [List.cons_append, unitEnd, unitEnd, ih]

theorem consumeUnit_append (b : List Nat) (hb : UnitStops b) (s : List Nat) (unit : Int)
    (rest : List Nat) (h : consumeUnit s = .ok (unit, rest)) :
    consumeUnit (s ++ b) = .ok (unit, rest ++ b) := by
  unfold consumeUnit at h ⊢
  rw [unitEnd_append_stops b hb s]
  have hle := unitEnd_le s
  by_cases h0 : unitEnd s = 0
  · simp [h0] at h
  · simp only [h0, if_false] at h ⊢
    rw [List.take_append_of_le_length hle, List.drop_append_of_le_length hle]
    cases hu : unitMap (s.take (unitEnd s)) with
    | none => rw [hu] at h; simp at h
    | some sz =>
      rw [hu] at h
      simp only [Except.ok.injEq, Prod.mk.injEq] at h ⊢
      exact ⟨h.1, by rw [h.2]⟩

theorem consumeUnit_ne_nil (s : List Nat) (unit : Int) (rest : List Nat)
    (h : consumeUnit s = .ok (unit, rest)) : s ≠ [] := by
  intro hs
  subst hs
  simp [consumeUnit, unitEnd] at h

/-- A part that is read successfully is read in the same way when the input is followed
by the start of another part. -/
theorem partReads_append (b : List Nat) (hb : UnitStops b) (s : List Nat) (r : PartResult)
    (h : PartReads s r) :
    PartReads (s ++ b) ⟨r.v, r.f, r.unit, r.scale, r.s ++ b⟩ := by
  obtain ⟨v0, s1, s3, hne, hhead, hint, hfr, hcu, hu0, hgt, hv⟩ := h
  obtain ⟨c0, cs, rfl⟩ := List.exists_cons_of_ne_nil hne
  have hs3 := consumeUnit_ne_nil _ _ _ hcu
  have hs1 : s1 ≠ [] := by
    rcases hfr with ⟨s2, h1, _⟩ | ⟨_, _, _, h1, _⟩
    · rw [h1]; simp
    · rw [← h1]; exact hs3
  refine ⟨v0, s1 ++ b, s3 ++ b, by simp, ?_, leadingIntLoop_append b _ _ _ _ hint hs1, ?_,
    consumeUnit_append b hb _ _ _ hcu, hu0, hgt, hv⟩
  · intro c hc
    exact hhead c (by simpa using hc)
  · rcases hfr with ⟨s2, h1, h2, h3⟩ | ⟨h1, h2, h3, h4, h5⟩
    · left
      refine ⟨s2 ++ b, by rw [h1]; rfl, ?_, ?_⟩
      · have hr : (leadingFractionLoop 0 0 false s2).2.2 ≠ [] := by
          have : leadingFractionLoop 0 0 false s2 = (r.f, r.scale, s3) := h2
          rw [this]
          exact hs3
        have := leadingFractionLoop_append b s2 0 0 false hr
        unfold leadingFraction at h2 ⊢
        rw [this, h2]
      · simp only [List.length_append]
        omega
    · right
      refine ⟨?_, h2, h3, by rw [h4], ?_⟩
      · intro s2 hs
        obtain ⟨c, t, hct⟩ := List.exists_cons_of_ne_nil hs1
        rw [hct, List.cons_append] at hs
        simp only [List.cons.injEq] at hs
        exact h1 t (by rw [hct, hs.1])
      · simp only [List.length_append, List.length_cons] at h5 ⊢
        omega

theorem parseDurationPart_append (b : List Nat) (hb : UnitStops b) (s : List Nat)
    (r : PartResult) (h : parseDurationPart s = some (.ok r)) :
    parseDurationPart (s ++ b) = some (.ok ⟨r.v, r.f, r.unit, r.scale, r.s ++ b⟩) :=
  (parseDurationPart_ok_iff _ _).mpr
    (partReads_append b hb s r ((parseDurationPart_ok_iff _ _).mp h))

/-- A part that is read successfully is read in the same way after a leading `'0'`. -/
theorem parseDurationPart_zero_first (s : List Nat) (r : PartResult)
    (h : parseDurationPart s = some (.ok r)) :
    parseDurationPart (48 :: s) = some (.ok r) := by
  obtain ⟨v0, s1, s3, hne, hhead, hint, hfr, hcu, hu0, hgt, hv⟩ :=
    (parseDurationPart_ok_iff _ _).mp h
  obtain ⟨ds, hs, _, _⟩ := leadingIntLoop_split _ _ _ _ hint
  have hlen : s.length = ds.length + s1.length := by rw [hs, List.length_append]
  have hint' : leadingInt (48 :: s) = .ok (v0, s1) := by
    have h0 : wrap64 (wrap64 (wrap64 ((0 : Int) * 10) + ((48 : Nat) : Int)) - 48) = 0 := by
      decide
    unfold leadingInt at hint ⊢
    rw [leadingIntLoop]
    simp only [show ¬ ((48 : Nat) < 48 ∨ (48 : Nat) > 57) by decide, if_false,
      show ¬ ((0 : Int) > maxInt64.tdiv 10) by decide, h0, lt_irrefl]
    exact hint
  refine (parseDurationPart_ok_iff _ _).mpr
    ⟨v0, s1, s3, by simp, ?_, hint', ?_, hcu, hu0, hgt, hv⟩
  · intro c hc
    simp only [List.head?_cons, Option.mem_def, Option.some.injEq] at hc
    omega
  · rcases hfr with h1 | ⟨h1, h2, h3, h4, h5⟩
    · exact Or.inl h1
    · refine Or.inr ⟨h1, h2, h3, h4, ?_⟩
      simp only [List.length_cons]
      omega

/-! ## The parser: parts are additive -/

/-- One step of the loop of `ParseDuration` after a part was read with a `nil` error. -/
theorem parseLoop_step (fmul : FracConv) (orig : List Nat) (fuel : Nat) (d : Int)
    (c : Nat) (cs : List Nat) (r : PartResult)
    (h : parseDurationPart (c :: cs) = some (.ok r)) :
    parseLoop fmul orig (fuel + 1) d (c :: cs)
      = if r.f > 0 then
          (if wrap64 (r.v + fmul r.f r.unit r.scale) < 0 then
            some (.error (.invalidDuration orig))
          else if wrap64 (d + wrap64 (r.v + fmul r.f r.unit r.scale)) < 0 then
            some (.error (.invalidDuration orig))
          else parseLoop fmul orig fuel (wrap64 (d + wrap64 (r.v + fmul r.f r.unit r.scale)))
            r.s)
        else if wrap64 (d + r.v) < 0 then some (.error (.invalidDuration orig))
        else parseLoop fmul orig fuel (wrap64 (d + r.v)) r.s := by
  rw [parseLoop, h]
  simp only
  by_cases hf : r.f > 0
  · simp only [hf, if_true]
    by_cases hv : wrap64 (r.v + fmul r.f r.unit r.scale) < 0
    · simp only [hv, if_true]
    · simp only [hv, if_false]
  · simp only [hf, if_false]

/-- The bound on the iterations of the loop is never reached: with `len(s)` iterations
allowed, one more changes nothing. -/
theorem parseLoop_fuel (fmul : FracConv) (orig : List Nat) :
    ∀ (fuel : Nat) (d : Int) (s : List Nat), s.length ≤ fuel →
      parseLoop fmul orig (fuel + 1) d s = parseLoop fmul orig fuel d s := by
  intro fuel
  induction fuel with
  | zero =>
    intro d s hlen
    cases s with
    | nil => simp [parseLoop]
    | cons c cs => simp at hlen
  | succ fuel ih =>
    intro d s hlen
    cases s with
    | nil => simp [parseLoop]
    | cons c cs =>
      rcases parseDurationPart_cases c cs with ⟨_, h⟩ | ⟨_, ⟨e, h, _⟩ | ⟨r, h⟩⟩
      · rw [parseLoop, parseLoop, h]
      · rw [parseLoop, parseLoop, h]
      · have hrs : r.s.length ≤ fuel := by
          have := (parseDurationPart_ok_facts _ _ h).2.2.2.1
          simp only [List.length_cons] at this hlen
          omega
        rw [parseLoop_step fmul orig (fuel + 1) d c cs r h,
          parseLoop_step fmul orig fuel d c cs r h, ih _ r.s hrs, ih _ r.s hrs]

theorem parseLoop_fuel_add (fmul : FracConv) (orig : List Nat) (d : Int) (s : List Nat) :
    ∀ (k fuel : Nat), s.length ≤ fuel →
      parseLoop fmul orig (fuel + k) d s = parseLoop fmul orig fuel d s := by
  intro k
  induction k with
  | zero => intro fuel _; rfl
  | succ k ih =>
    intro fuel hlen
    rw [← Nat.add_assoc, parseLoop_fuel fmul orig (fuel + k) d s (by omega), ih fuel hlen]

/-- The loop on `a ++ b`, when it ends normally on `a` with total `A` and `b` is empty or
starts with a digit or a point, goes on with `b` from the total `A`. -/
theorem parseLoop_append (fmul : FracConv) (orig : List Nat) (b : List Nat)
    (hb : UnitStops b) :
    ∀ (fa : Nat) (d : Int) (a : List Nat) (A : Int),
      parseLoop fmul orig fa d a = some (.ok A) →
      ∀ fb, b.length ≤ fb →
        parseLoop fmul orig (fa + fb) d (a ++ b) = parseLoop fmul orig fb A b := by
  intro fa
  induction fa with
  | zero =>
    intro d a A h fb _
    cases a with
    | nil =>
      simp only [parseLoop, Option.some.injEq, Except.ok.injEq] at h
      rw [h, List.nil_append, Nat.zero_add]
    | cons c cs => simp [parseLoop] at h
  | succ fa ih =>
    intro d a A h fb hfb
    cases a with
    | nil =>
      simp only [parseLoop, Option.some.injEq, Except.ok.injEq] at h
      rw [h, List.nil_append, Nat.add_comm (fa + 1) fb,
        parseLoop_fuel_add fmul orig A b (fa + 1) fb hfb]
    | cons c cs =>
      rcases parseDurationPart_cases c cs with ⟨_, hp⟩ | ⟨_, ⟨e, hp, _⟩ | ⟨r, hp⟩⟩
      · rw [parseLoop, hp] at h; simp at h
      · rw [parseLoop, hp] at h; simp at h
      · have hp' := parseDurationPart_append b hb _ r hp
        rw [List.cons_append] at hp' ⊢
        rw [parseLoop_step fmul orig fa d c cs r hp] at h
        rw [show fa + 1 + fb = (fa + fb) + 1 by omega,
          parseLoop_step fmul orig (fa + fb) d c (cs ++ b) _ hp']
        simp only
        by_cases hf : r.f > 0
        · simp only [hf, if_true] at h ⊢
          by_cases hv : wrap64 (r.v + fmul r.f r.unit r.scale) < 0
          · simp [hv] at h
          · simp only [hv, if_false] at h ⊢
            by_cases hd : wrap64 (d + wrap64 (r.v + fmul r.f r.unit r.scale)) < 0
            · simp [hd] at h
            · simp only [hd, if_false] at h ⊢
              exact ih _ _ _ h fb hfb
        · simp only [hf, if_false] at h ⊢
          by_cases hd : wrap64 (d + r.v) < 0
          · simp [hd] at h
          · simp only [hd, if_false] at h ⊢
            exact ih _ _ _ h fb hfb

/-- A loop that ends normally from the total `d` with the total `R` has `d ≤ R`, and from
the total `A + d` it ends with `A + R` when that fits in an `int64`. -/
theorem parseLoop_shift (fmul : FracConv) (orig : List Nat) :
    ∀ (fuel : Nat) (d : Int) (s : List Nat) (R : Int), 0 ≤ d → d ≤ maxInt64 →
      parseLoop fmul orig fuel d s = some (.ok R) →
      d ≤ R ∧ ∀ A : Int, 0 ≤ A → A + R ≤ maxInt64 →
        parseLoop fmul orig fuel (A + d) s = some (.ok (A + R)) := by
  intro fuel
  induction fuel with
  | zero =>
    intro d s R hd0 hdmax h
    cases s with
    | nil =>
      simp only [parseLoop, Option.some.injEq, Except.ok.injEq] at h
      subst h
      exact ⟨le_refl _, fun A _ _ => by simp [parseLoop]⟩
    | cons c cs => simp [parseLoop] at h
  | succ fuel ih =>
    intro d s R hd0 hdmax h
    cases s with
    | nil =>
      simp only [parseLoop, Option.some.injEq, Except.ok.injEq] at h
      subst h
      exact ⟨le_refl _, fun A _ _ => by simp [parseLoop]⟩
    | cons c cs =>
      rcases parseDurationPart_cases c cs with ⟨_, hp⟩ | ⟨_, ⟨e, hp, _⟩ | ⟨r, hp⟩⟩
      · rw [parseLoop, hp] at h; simp at h
      · rw [parseLoop, hp] at h; simp at h
      · obtain ⟨_, hv0, hvmax, _, _⟩ := parseDurationPart_ok_facts _ _ hp
        rw [parseLoop_step fmul orig fuel d c cs r hp] at h
        have key : ∀ v : Int, 0 ≤ v → v ≤ maxInt64 → ¬ wrap64 (d + v) < 0 →
            parseLoop fmul orig fuel (wrap64 (d + v)) r.s = some (.ok R) →
            d ≤ R ∧ ∀ A : Int, 0 ≤ A → A + R ≤ maxInt64 →
              (¬ wrap64 (A + d + v) < 0
                ∧ parseLoop fmul orig fuel (wrap64 (A + d + v)) r.s = some (.ok (A + R))) := by
          intro v hv0' hvmax' hd hrec
          have hsum : d + v ≤ maxInt64 := by
            by_contra hcon
            apply hd
            unfold wrap64
            unfold maxInt64 at hcon hdmax hvmax'
            omega
          have hw : wrap64 (d + v) = d + v :=
            wrap64_of_range (by unfold minInt64; omega) hsum
          rw [hw] at hrec
          obtain ⟨hle, hA⟩ := ih (d + v) r.s R (by omega) hsum hrec
          refine ⟨by omega, fun A hA0 hAR => ?_⟩
          have hw2 : wrap64 (A + d + v) = A + (d + v) := by
            rw [add_assoc]
            exact wrap64_of_range (by unfold minInt64; omega) (by omega)
          rw [hw2]
          exact ⟨by omega, hA A hA0 hAR⟩
        by_cases hf : r.f > 0
        · simp only [hf, if_true] at h
          by_cases hv : wrap64 (r.v + fmul r.f r.unit r.scale) < 0
          · simp [hv] at h
          · simp only [hv, if_false] at h
            by_cases hd : wrap64 (d + wrap64 (r.v + fmul r.f r.unit r.scale)) < 0
            · simp [hd] at h
            · simp only [hd, if_false] at h
              obtain ⟨hle, hA⟩ := key _ (by omega) (wrap64_range _).2 hd h
              refine ⟨hle, fun A hA0 hAR => ?_⟩
              obtain ⟨h1, h2⟩ := hA A hA0 hAR
              rw [parseLoop_step fmul orig fuel (A + d) c cs r hp]
              simp only [hf, if_true, hv, if_false, ← add_assoc, h1, h2]
        · simp only [hf, if_false] at h
          by_cases hd : wrap64 (d + r.v) < 0
          · simp [hd] at h
          · simp only [hd, if_false] at h
            obtain ⟨hle, hA⟩ := key _ hv0 hvmax hd h
            refine ⟨hle, fun A hA0 hAR => ?_⟩
            obtain ⟨h1, h2⟩ := hA A hA0 hAR
            rw [parseLoop_step fmul orig fuel (A + d) c cs r hp]
            simp only [hf, if_false, ← add_assoc, h1, h2]

/-- On a non-empty input without a sign that is not `"0"`, `ParseDuration` succeeds with
`d` exactly when the loop over the whole input ends normally with `d`. -/
theorem parseDuration_ok_iff_loop (fmul : FracConv) (s : List Nat) (d : Int)
    (hs : ∀ c ∈ s.head?, ¬ (c = 45 ∨ c = 43)) (hne : s ≠ []) (h48 : s ≠ [48]) :
    ParseDuration fmul s = some (d, none)
      ↔ parseLoop fmul s s.length 0 s = some (.ok d) := by
  have h := parseDuration_body fmul [] s (Or.inl rfl) hne hs h48
  rw [List.nil_append] at h
  rw [h]
  cases hl : parseLoop fmul s s.length 0 s with
  | none => simp
  | some x =>
    cases x with
    | error e => simp
    | ok r => simp

theorem parseLoop_ok_head (fmul : FracConv) (orig : List Nat) (fuel : Nat) (d R : Int)
    (c : Nat) (cs : List Nat) (h : parseLoop fmul orig fuel d (c :: cs) = some (.ok R)) :
    c = 46 ∨ (c ≥ 48 ∧ c ≤ 57) := by
  cases fuel with
  | zero => simp [parseLoop] at h
  | succ fuel =>
    rcases parseDurationPart_cases c cs with ⟨_, hp⟩ | ⟨hc, ⟨e, hp, _⟩ | _⟩
    · rw [parseLoop, hp] at h; simp at h
    · rw [parseLoop, hp] at h; simp at h
    · exact hc

theorem parseDuration_append_core (fmul : FracConv) (a b : List Nat) (A B : Int)
    (ha : ∀ c ∈ a.head?, ¬ (c = 45 ∨ c = 43)) (hb : ∀ c ∈ b.head?, ¬ (c = 45 ∨ c = 43))
    (hb0 : b ≠ [48]) (hA : ParseDuration fmul a = some (A, none))
    (hB : ParseDuration fmul b = some (B, none)) (hsum : A + B ≤ maxInt64) :
    ParseDuration fmul (a ++ b) = some (A + B, none) := by
  have hane : a ≠ [] := by
    intro h; subst h; simp [ParseDuration] at hA
  have hbne : b ≠ [] := by
    intro h; subst h; simp [ParseDuration] at hB
  obtain ⟨cb, csb, hbcons⟩ := List.exists_cons_of_ne_nil hbne
  obtain ⟨ca, csa, hacons⟩ := List.exists_cons_of_ne_nil hane
  have hBl := (parseDuration_ok_iff_loop fmul b B hb hbne hb0).mp hB
  have hBl' := (parseLoop_ok fmul b (a ++ b) _ _ _ _ (le_refl _) (by decide) hBl).1
  have hstops : UnitStops b := by
    intro c hc
    rw [hbcons] at hc hBl
    simp only [List.head?_cons, Option.mem_def, Option.some.injEq] at hc
    rw [← hc]
    exact parseLoop_ok_head fmul _ _ _ _ _ _ hBl
  have hlen2 : 2 ≤ (a ++ b).length := by
    rw [hacons, hbcons]
    simp only [List.length_append, List.length_cons]
    omega
  have hab48 : a ++ b ≠ [48] := by
    intro h; rw [h] at hlen2; simp at hlen2
  have habne : a ++ b ≠ [] := by
    intro h; rw [h] at hlen2; simp at hlen2
  have habhead : ∀ c ∈ (a ++ b).head?, ¬ (c = 45 ∨ c = 43) := by
    intro c hc
    apply ha c
    rw [hacons] at hc ⊢
    simpa using hc
  rw [parseDuration_ok_iff_loop fmul (a ++ b) (A + B) habhead habne hab48]
  by_cases ha48 : a = [48]
  · subst ha48
    have hA0 : A = 0 := by
      simp only [ParseDuration, List.cons_ne_nil, if_false, if_true, Option.some.injEq,
        Prod.mk.injEq, and_true,
        show ((48 : Nat) = 45 ∨ (48 : Nat) = 43) ↔ False by decide] at hA
      exact hA.symm
    subst hA0
    rw [zero_add]
    have hfuel := parseLoop_fuel fmul ([48] ++ b) b.length 0 b (le_refl _)
    rw [hBl'] at hfuel
    rw [← hfuel, hbcons]
    simp only [List.singleton_append, List.length_cons]
    rcases parseDurationPart_cases cb csb with ⟨hc, _⟩ | ⟨_, ⟨e, hp, _⟩ | ⟨r, hp⟩⟩
    · rw [hbcons] at hstops
      exact absurd (hstops cb (by simp)) hc
    · rw [hbcons] at hBl
      rw [List.length_cons, parseLoop, hp] at hBl
      simp at hBl
    · rw [parseLoop_step fmul _ _ 0 48 (cb :: csb) r (parseDurationPart_zero_first _ _ hp),
        parseLoop_step fmul _ _ 0 cb csb r hp]
  · have hAl := (parseDuration_ok_iff_loop fmul a A ha hane ha48).mp hA
    obtain ⟨hAl', hA0, _⟩ := parseLoop_ok fmul a (a ++ b) _ _ _ _ (le_refl _) (by decide) hAl
    have happ := parseLoop_append fmul (a ++ b) b hstops a.length 0 a A hAl' b.length
      (le_refl _)
    have hshift := (parseLoop_shift fmul (a ++ b) b.length 0 b B (le_refl _) (by decide)
      hBl').2 A hA0 hsum
    rw [add_zero] at hshift
    rw [List.length_append, happ, hshift]

/-- C19. Parts are additive and order-independent.  For all strings `a` and `b` without a
leading sign, with `b` not `"0"`, on which `ParseDuration` succeeds with `A` and `B`, if
`A + B ≤ 2^63 - 1` then `ParseDuration` succeeds on `a ++ b` with `A + B`; when `a` is
not `"0"` either, it succeeds on `b ++ a` with the same value. -/
theorem parseDuration_additive (fmul : FracConv) (a b : List Nat) (A B : Int)
    (ha : ∀ c ∈ a.head?, ¬ (c = 45 ∨ c = 43)) (hb : ∀ c ∈ b.head?, ¬ (c = 45 ∨ c = 43))
    (hb0 : b ≠ [48]) (hA : ParseDuration fmul a = some (A, none))
    (hB : ParseDuration fmul b = some (B, none)) (hsum : A + B ≤ maxInt64) :
    ParseDuration fmul (a ++ b) = some (A + B, none)
      ∧ (a ≠ [48] → ParseDuration fmul (b ++ a) = some (A + B, none)
          ∧ ParseDuration fmul (a ++ b) = ParseDuration fmul (b ++ a)) := by
  have h1 := parseDuration_append_core fmul a b A B ha hb hb0 hA hB hsum
  refine ⟨h1, fun ha0 => ?_⟩
  have h2 := parseDuration_append_core fmul b a B A hb ha ha0 hB hA (by omega)
  rw [add_comm B A] at h2
  exact ⟨h2, by rw [h1, h2]⟩

/-- Instance at `a = "1h"` and `b = "1m"`. -/
theorem parseDuration_additive_witness :
    ParseDuration exactFrac (ascii "1h") = some (Hour, none)
      ∧ ParseDuration exactFrac (ascii "1m") = some (Minute, none)
      ∧ ascii "1h" ++ ascii "1m" = ascii "1h1m"
      ∧ ParseDuration exactFrac (ascii "1h" ++ ascii "1m") = some (Hour + Minute, none)
      ∧ ParseDuration exactFrac (ascii "1m" ++ ascii "1h") = some (Hour + Minute, none) :=
  ⟨by decide, by decide, by decide,
    (parseDuration_additive exactFrac (ascii "1h") (ascii "1m") Hour Minute (by decide)
      (by decide) (by decide) (by decide) (by decide) (by decide)).1,
    ((parseDuration_additive exactFrac (ascii "1h") (ascii "1m") Hour Minute (by decide)
      (by decide) (by decide) (by decide) (by decide) (by decide)).2 (by decide)).1⟩

/-! ## The parser: a part with a fraction -/

/-- What `leadingFraction` does on a run of digits whose value fits in an `int64`,
followed by something that is not a digit: it returns the value, one factor of ten per
digit, and the rest. -/
theorem leadingFractionLoop_digits (tail : List Nat) (htail : NoDigitAhead tail)
    (ds : List Nat) (hds : ∀ c ∈ ds, 48 ≤ c ∧ c ≤ 57) :
    ∀ (x : Int) (k : Nat), 0 ≤ x → digitsAcc x ds ≤ maxInt64 →
      leadingFractionLoop x k false (ds ++ tail) = (digitsAcc x ds, k + ds.length, tail) := by
  induction ds with
  | nil =>
    intro x k _ _
    have hx : digitsAcc x [] = x := rfl
    rw [hx, List.nil_append, List.length_nil, Nat.add_zero]
    cases tail with
    | nil => rfl
    | cons c t =>
      have hc : c < 48 ∨ c > 57 := htail c (by simp)
      simp [leadingFractionLoop, hc]
  | cons c ds ih =>
    intro x k hx0 hfit
    have hc := hds c (by simp)
    have hds' : ∀ c ∈ ds, 48 ≤ c ∧ c ≤ 57 := fun c hc => hds c (by simp [hc])
    have hnd : ¬ (c < 48 ∨ c > 57) := by omega
    rw [digitsAcc_cons] at hfit ⊢
    have hge := digitsAcc_ge ds hds' (x * 10 + ((c : Int) - 48)) (by omega)
    have hy : x * 10 + ((c : Int) - 48) ≤ maxInt64 := by omega
    have hbig : ¬ x > 922337203685477580 := by
      unfold maxInt64 at hy
      omega
    have hw : wrap64 (x * 10 + ((c : Int) - 48)) = x * 10 + ((c : Int) - 48) :=
      wrap64_of_range (by unfold minInt64; omega) hy
    have hnn : ¬ x * 10 + ((c : Int) - 48) < 0 := by omega
    rw [List.cons_append, leadingFractionLoop, if_neg hnd, maxInt64_tdiv_ten]
    simp only [Bool.false_eq_true, if_false, if_neg hbig, wrap64_digit_step, hw, hnn]
    rw [ih hds' _ (k + 1) (by omega) hfit, List.length_cons]
    congr 2
    omega

/-- Once `overflow` is set, `leadingFraction` only moves past the remaining digits. -/
theorem leadingFractionLoop_overflow (ds : List Nat) (hds : ∀ c ∈ ds, 48 ≤ c ∧ c ≤ 57) :
    ∀ (x : Int) (k : Nat), leadingFractionLoop x k true ds = (x, k, []) := by
  induction ds with
  | nil => intro x k; rfl
  | cons c ds ih =>
    intro x k
    have hc := hds c (by simp)
    have hnd : ¬ (c < 48 ∨ c > 57) := by omega
    rw [leadingFractionLoop, if_neg hnd, if_pos rfl]
    exact ih (fun c hc => hds c (by simp [hc])) x k

/-- What `leadingFraction` returns for a run of digits followed by something that is not
a digit depends on the run only: the rest is what follows the run. -/
theorem leadingFractionLoop_run (tail : List Nat) (htail : NoDigitAhead tail)
    (ds : List Nat) (hds : ∀ c ∈ ds, 48 ≤ c ∧ c ≤ 57) :
    ∀ (x : Int) (k : Nat) (ov : Bool),
      leadingFractionLoop x k ov (ds ++ tail)
        = ((leadingFractionLoop x k ov ds).1, (leadingFractionLoop x k ov ds).2.1, tail) := by
  induction ds with
  | nil =>
    intro x k ov
    rw [List.nil_append]
    cases tail with
    | nil => rfl
    | cons c t =>
      have hc : c < 48 ∨ c > 57 := htail c (by simp)
      simp [leadingFractionLoop, hc]
  | cons c ds ih =>
    intro x k ov
    have hc := hds c (by simp)
    have hds' : ∀ c ∈ ds, 48 ≤ c ∧ c ≤ 57 := fun c hc => hds c (by simp [hc])
    have hnd : ¬ (c < 48 ∨ c > 57) := by omega
    rw [List.cons_append, leadingFractionLoop, leadingFractionLoop, if_neg hnd, if_neg hnd]
    by_cases hov : ov = true
    · simp only [hov, if_true]
      exact ih hds' _ _ _
    · simp only [hov, if_false]
      by_cases hbig : x > maxInt64.tdiv 10
      · simp only [hbig, if_true]
        exact ih hds' _ _ _
      · simp only [hbig, if_false]
        by_cases hneg : wrap64 (wrap64 (wrap64 (x * 10) + (c : Int)) - 48) < 0
        · simp only [hneg, if_true]
          exact ih hds' _ _ _
        · simp only [hneg, if_false]
          exact ih hds' _ _ _

/-- What `leadingFraction` accumulates on a run of digits: the value and the number of the
digits of the longest prefix whose value fits in an `int64`; the digits after that prefix
are passed over. -/
theorem leadingFractionLoop_kept (ds : List Nat) (hds : ∀ c ∈ ds, 48 ≤ c ∧ c ≤ 57) :
    ∀ (x : Int) (k : Nat), 0 ≤ x → x ≤ maxInt64 →
      ∃ j, j ≤ ds.length
        ∧ leadingFractionLoop x k false ds = (digitsAcc x (ds.take j), k + j, [])
        ∧ digitsAcc x (ds.take j) ≤ maxInt64
        ∧ (j < ds.length → maxInt64 < digitsAcc x (ds.take (j + 1))) := by
  induction ds with
  | nil =>
    intro x k _ hx
    exact ⟨0, le_refl _, rfl, hx, fun h => absurd h (by simp)⟩
  | cons c ds ih =>
    intro x k hx0 hx
    have hc := hds c (by simp)
    have hds' : ∀ c ∈ ds, 48 ≤ c ∧ c ≤ 57 := fun c hc => hds c (by simp [hc])
    have hnd : ¬ (c < 48 ∨ c > 57) := by omega
    by_cases hy : x * 10 + ((c : Int) - 48) ≤ maxInt64
    · have hbig : ¬ x > 922337203685477580 := by
        unfold maxInt64 at hy
        omega
      have hw : wrap64 (x * 10 + ((c : Int) - 48)) = x * 10 + ((c : Int) - 48) :=
        wrap64_of_range (by unfold minInt64; omega) hy
      have hnn : ¬ x * 10 + ((c : Int) - 48) < 0 := by omega
      obtain ⟨j, hj, hrun, hfit, hmax⟩ := ih hds' (x * 10 + ((c : Int) - 48)) (k + 1)
        (by omega) hy
      refine ⟨j + 1, by simp only [List.length_cons]; omega, ?_, ?_, ?_⟩
      · rw [leadingFractionLoop, if_neg hnd, maxInt64_tdiv_ten]
        simp only [Bool.false_eq_true, if_false, if_neg hbig, wrap64_digit_step, hw, hnn]
        rw [hrun, List.take_succ_cons, digitsAcc_cons]
        congr 2
        omega
      · rw [List.take_succ_cons, digitsAcc_cons]
        exact hfit
      · intro hlt
        rw [List.take_succ_cons, digitsAcc_cons]
        exact hmax (by simp only [List.length_cons] at hlt; omega)
    · refine ⟨0, Nat.zero_le _, ?_, hx, ?_⟩
      · rw [leadingFractionLoop, if_neg hnd, maxInt64_tdiv_ten]
        simp only [Bool.false_eq_true, if_false, wrap64_digit_step]
        by_cases hbig : x > 922337203685477580
        · rw [if_pos hbig, leadingFractionLoop_overflow ds hds']
          rfl
        · have hneg : wrap64 (x * 10 + ((c : Int) - 48)) < 0 := by
            unfold wrap64
            unfold maxInt64 at hy hx
            omega
          rw [if_neg hbig, if_pos hneg, leadingFractionLoop_overflow ds hds']
          rfl
      · intro _
        have h1 : (c :: ds).take (0 + 1) = [c] := rfl
        rw [h1]
        have h2 : digitsAcc x [c] = x * 10 + ((c : Int) - 48) := rfl
        rw [h2]
        omega

/-- What `parseDurationPart` does on digits, a point, at least one fractional digit and a
token of `unitMap`, when the integer digits fit in an `int64` and their product with the
unit does not overflow: the fraction is what `leadingFraction` accumulates on the
fractional digits. -/
theorem parseDurationPart_fraction (ints fracs unit tail : List Nat) (size : Int)
    (hints : ∀ c ∈ ints, 48 ≤ c ∧ c ≤ 57) (hfracs : ∀ c ∈ fracs, 48 ≤ c ∧ c ≤ 57)
    (hfne : fracs ≠ [])
    (hunit : unitMap unit = some size) (hprod : digitsValue ints * size ≤ maxInt64)
    (htail : UnitStops tail) :
    parseDurationPart (ints ++ 46 :: (fracs ++ (unit ++ tail)))
      = some (.ok ⟨digitsValue ints * size, (leadingFraction fracs).1, size,
          (leadingFraction fracs).2.1, tail⟩) := by
  obtain ⟨hune, hu, hpos, _⟩ := unitMap_facts unit size hunit
  obtain ⟨u0, us, hucons⟩ := List.exists_cons_of_ne_nil hune
  have hn0 := digitsValue_nonneg ints hints
  have hn : digitsValue ints ≤ maxInt64 := by nlinarith
  have hahead46 : NoDigitAhead (46 :: (fracs ++ (unit ++ tail))) := by
    intro c hc
    simp only [List.head?_cons, Option.mem_def, Option.some.injEq] at hc
    omega
  have haheadu : NoDigitAhead (unit ++ tail) := by
    intro c hc
    have hu0 := hu u0 (by simp [hucons])
    rw [hucons] at hc
    simp only [List.cons_append, List.head?_cons, Option.mem_def, Option.some.injEq] at hc
    omega
  have hint := leadingIntLoop_digits _ hahead46 ints hints 0 (le_refl _) (by decide)
  have hdv : digitsAcc 0 ints = digitsValue ints := rfl
  rw [hdv, if_pos hn] at hint
  have hfrac : leadingFraction (fracs ++ (unit ++ tail))
      = ((leadingFraction fracs).1, (leadingFraction fracs).2.1, unit ++ tail) :=
    leadingFractionLoop_run _ haheadu fracs hfracs 0 0 false
  have hw : wrap64 (digitsValue ints * size) = digitsValue ints * size :=
    wrap64_of_range (by unfold minInt64; nlinarith) hprod
  refine (parseDurationPart_ok_iff _ _).mpr
    ⟨digitsValue ints, 46 :: (fracs ++ (unit ++ tail)), unit ++ tail, by simp, ?_, hint,
      Or.inl ⟨fracs ++ (unit ++ tail), rfl, hfrac, ?_⟩,
      consumeUnit_token unit size hunit tail htail, by simp only; omega, ?_, hw.symm⟩
  · intro c hc
    cases ints with
    | nil =>
      simp only [List.nil_append, List.head?_cons, Option.mem_def, Option.some.injEq] at hc
      exact Or.inl hc.symm
    | cons i is =>
      simp only [List.cons_append, List.head?_cons, Option.mem_def, Option.some.injEq] at hc
      rw [← hc]
      exact Or.inr (hints i (by simp))
  · have : fracs.length ≠ 0 := fun h0 => hfne (List.length_eq_zero.mp h0)
    simp only [List.length_append]
    omega
  · intro hgt
    exact (gt_tdiv_iff _ _ hpos).mp hgt hprod

theorem goFrac_nonneg (f unit : Int) (k : Nat) : 0 ≤ goFrac f unit k := by
  unfold goFrac F64.toInt64
  split
  · split_ifs <;> exact Int.ofNat_nonneg _
  · exact le_refl _

set_option maxRecDepth 100000 in
/-- C17, as stated, fails: the fraction is converted with `int64(...)`, which discards the
fraction of the floating-point product instead of rounding it.  On `"0.9ns"` the
contribution of the part is `0` and `ParseDuration` returns `0`, where
`n * u + round(f * u / 10^k)` is `0 * 1 + round(9 * 1 / 10) = 1`. -/
theorem parseDuration_fraction_truncated :
    ParseDuration goFrac (ascii "0.9ns") = some (0, none)
      ∧ goFrac 9 Nanosecond 1 = 0
      ∧ specContribution 0 9 Nanosecond 1 = 1 := by
  refine ⟨by decide, by decide, ?_⟩
  have h : (((9 * Nanosecond : Int) : ℚ) / 10 ^ 1) = 9 / 10 := by
    have : Nanosecond = 1 := rfl
    rw [this]
    norm_num
  unfold specContribution
  rw [h, round_eq]
  norm_num [Int.floor_eq_iff]

theorem digitsAcc_append (a b : List Nat) :
    ∀ x : Int, digitsAcc x (a ++ b) = digitsAcc (digitsAcc x a) b := by
  induction a with
  | nil => intro x; rfl
  | cons c a ih =>
    intro x
    rw [List.cons_append, digitsAcc_cons, digitsAcc_cons, ih]

/-- The monotonicity of the value of a run of digits in its prefixes. -/
theorem digitsValue_take_le (ds : List Nat) (hds : ∀ c ∈ ds, 48 ≤ c ∧ c ≤ 57) (j : Nat) :
    digitsValue (ds.take j) ≤ digitsValue ds := by
  have h := digitsAcc_ge (ds.drop j) (fun c hc => hds c (List.mem_of_mem_drop hc))
    (digitsValue (ds.take j))
    (digitsValue_nonneg _ (fun c hc => hds c (List.mem_of_mem_take hc)))
  have happ : digitsAcc (digitsValue (ds.take j)) (ds.drop j) = digitsValue ds := by
    have h1 : digitsValue ds = digitsAcc 0 (ds.take j ++ ds.drop j) := by
      rw [List.take_append_drop]
      rfl
    rw [h1, digitsAcc_append]
    rfl
  rw [happ] at h
  exact h

set_option maxRecDepth 100000 in
/-- C17, amended.  For every input made of an optional sign and one part with integer
digits denoting `n`, a point, at least one fractional digit and a token of `unitMap` of
size `u`, let `f` and `k` be the numerator and the number of digits `leadingFraction`
accumulates on the fractional digits: they are the value and the length of the longest
prefix of the fractional digits whose value is at most `2^63 - 1`, that is of all the
fractional digits when their value is at most `2^63 - 1`.  Then `ParseDuration` returns
`n * u` plus, when `f > 0`, the `float64` product `float64(f) * (float64(u) / scale)`
converted by `int64`, that is truncated toward zero and not rounded (`scale` being `1`
multiplied `k` times by `10`), provided the total is at most `2^63 - 1`; the result is
negated for the sign `'-'`.  In particular `"0.5h"` parses to exactly 30 minutes and
`"0.10h"` to exactly 6 minutes. -/
theorem parseDuration_fraction (sign ints fracs unit : List Nat) (size : Int)
    (f : Int) (k : Nat) (rest : List Nat)
    (hsign : IsSign sign) (hints : ∀ c ∈ ints, 48 ≤ c ∧ c ≤ 57)
    (hfracs : ∀ c ∈ fracs, 48 ≤ c ∧ c ≤ 57) (hfne : fracs ≠ [])
    (hunit : unitMap unit = some size) (hfk : leadingFraction fracs = (f, k, rest)) :
    (k ≤ fracs.length ∧ f = digitsValue (fracs.take k) ∧ f ≤ maxInt64
        ∧ (k < fracs.length → maxInt64 < digitsValue (fracs.take (k + 1)))
        ∧ (digitsValue fracs ≤ maxInt64 → k = fracs.length ∧ f = digitsValue fracs))
      ∧ (digitsValue ints * size + (if 0 < f then goFrac f size k else 0) ≤ maxInt64 →
          ParseDuration goFrac (sign ++ (ints ++ 46 :: (fracs ++ unit)))
            = some ((if sign = [45] then
                  -(digitsValue ints * size + if 0 < f then goFrac f size k else 0)
                else digitsValue ints * size + if 0 < f then goFrac f size k else 0), none))
      ∧ ParseDuration goFrac (ascii "0.5h") = some (30 * Minute, none)
      ∧ ParseDuration goFrac (ascii "0.10h") = some (6 * Minute, none) := by
  obtain ⟨j, hj, hrun, hfit, hmax⟩ := leadingFractionLoop_kept fracs hfracs 0 0 (le_refl _)
    (by decide)
  have hrun' : leadingFraction fracs = (digitsValue (fracs.take j), 0 + j, []) := hrun
  rw [hfk, Nat.zero_add] at hrun'
  simp only [Prod.mk.injEq] at hrun'
  obtain ⟨hf, hk, _⟩ := hrun'
  subst hk
  have hkept : k ≤ fracs.length ∧ f = digitsValue (fracs.take k) ∧ f ≤ maxInt64
      ∧ (k < fracs.length → maxInt64 < digitsValue (fracs.take (k + 1)))
      ∧ (digitsValue fracs ≤ maxInt64 → k = fracs.length ∧ f = digitsValue fracs) := by
    refine ⟨hj, hf, by rw [hf]; exact hfit, hmax, fun hall => ?_⟩
    have hkl : k = fracs.length := by
      by_contra hne
      have h1 := hmax (by omega)
      have h2 := digitsValue_take_le fracs hfracs (k + 1)
      have h3 : digitsAcc 0 (fracs.take (k + 1)) = digitsValue (fracs.take (k + 1)) := rfl
      omega
    refine ⟨hkl, ?_⟩
    rw [hf, hkl, List.take_length]
  refine ⟨hkept, ?_, by decide, by decide⟩
  intro hsum
  obtain ⟨hune, _, hpos, _⟩ := unitMap_facts unit size hunit
  have hg0 := goFrac_nonneg f size k
  have hn0 := digitsValue_nonneg ints hints
  have hnu0 : 0 ≤ digitsValue ints * size := Int.mul_nonneg hn0 hpos.le
  have hprod : digitsValue ints * size ≤ maxInt64 := by
    by_cases hfpos : 0 < f
    · rw [if_pos hfpos] at hsum
      omega
    · rw [if_neg hfpos] at hsum
      omega
  have hstops : UnitStops ([] : List Nat) := by
    intro c hc
    simp at hc
  have hpart := parseDurationPart_fraction ints fracs unit [] size hints hfracs hfne hunit
    hprod hstops
  rw [List.append_nil, hfk] at hpart
  have hlen : 3 ≤ (ints ++ 46 :: (fracs ++ unit)).length := by
    have h1 : fracs.length ≠ 0 := fun h0 => hfne (List.length_eq_zero.mp h0)
    have h2 : unit.length ≠ 0 := fun h0 => hune (List.length_eq_zero.mp h0)
    simp only [List.length_append, List.length_cons]
    omega
  obtain ⟨c0, cs, hbody⟩ : ∃ c0 cs, ints ++ 46 :: (fracs ++ unit) = c0 :: cs := by
    cases h : ints ++ 46 :: (fracs ++ unit) with
    | nil => rw [h] at hlen; simp at hlen
    | cons c cs => exact ⟨c, cs, rfl⟩
  have hc0 : c0 = 46 ∨ (c0 ≥ 48 ∧ c0 ≤ 57) := by
    cases ints with
    | nil =>
      simp only [List.nil_append, List.cons.injEq] at hbody
      exact Or.inl hbody.1.symm
    | cons i is =>
      simp only [List.cons_append, List.cons.injEq] at hbody
      rw [← hbody.1]
      exact Or.inr (hints i (by simp))
  rw [parseDuration_body goFrac sign _ hsign (by rw [hbody]; simp)
    (by
      intro c hc
      rw [hbody] at hc
      simp only [List.head?_cons, Option.mem_def, Option.some.injEq] at hc
      omega)
    (by intro h; rw [h] at hlen; simp at hlen)]
  rw [hbody] at hpart ⊢
  rw [List.length_cons, parseLoop_step goFrac _ _ 0 c0 cs _ hpart]
  simp only [gt_iff_lt, zero_add]
  by_cases hfpos : 0 < f
  · rw [if_pos hfpos] at hsum
    have hw1 : wrap64 (digitsValue ints * size + goFrac f size k)
        = digitsValue ints * size + goFrac f size k :=
      wrap64_of_range (by unfold minInt64; omega) hsum
    have hnn : ¬ digitsValue ints * size + goFrac f size k < 0 := by omega
    simp only [hfpos, if_true, hw1, hnn, if_false]
    have hw2 : wrap64 (-(digitsValue ints * size + goFrac f size k))
        = -(digitsValue ints * size + goFrac f size k) :=
      wrap64_of_range (by unfold minInt64; unfold maxInt64 at hsum; omega)
        (by unfold maxInt64; omega)
    cases cs.length <;> simp only [parseLoop, hw2]
  · have hw1 : wrap64 (digitsValue ints * size) = digitsValue ints * size :=
      wrap64_of_range (by unfold minInt64; omega) hprod
    have hnn : ¬ digitsValue ints * size < 0 := by omega
    simp only [hfpos, if_false, hw1, hnn, add_zero]
    have hw2 : wrap64 (-(digitsValue ints * size)) = -(digitsValue ints * size) :=
      wrap64_of_range (by unfold minInt64; unfold maxInt64 at hprod; omega)
        (by unfold maxInt64; omega)
    cases cs.length <;> simp only [parseLoop, hw2]

set_option maxRecDepth 100000 in
/-- Instance at the input `"-1.99999999999999999999s"`, with twenty fractional digits: the
first eighteen are accumulated, `f = 10^18 - 1` and `k = 18`. -/
theorem parseDuration_fraction_witness :
    IsSign [45] ∧ (∀ c ∈ ([49] : List Nat), 48 ≤ c ∧ c ≤ 57)
      ∧ (∀ c ∈ ascii "99999999999999999999", 48 ≤ c ∧ c ≤ 57)
      ∧ ascii "99999999999999999999" ≠ []
      ∧ unitMap [115] = some Second
      ∧ leadingFraction (ascii "99999999999999999999") = (999999999999999999, 18, [])
      ∧ digitsValue [49] * Second
          + (if (0 : Int) < 999999999999999999 then goFrac 999999999999999999 Second 18
              else 0) ≤ maxInt64
      ∧ [45] ++ ([49] ++ 46 :: (ascii "99999999999999999999" ++ [115]))
          = ascii "-1.99999999999999999999s"
      ∧ ParseDuration goFrac ([45] ++ ([49] ++ 46 :: (ascii "99999999999999999999" ++ [115])))
          = some (-2000000000, none) :=
  ⟨by decide, by decide, by decide, by decide, by decide, by decide, by decide, by decide,
    ((parseDuration_fraction [45] [49] (ascii "99999999999999999999") [115] Second
      999999999999999999 18 [] (by decide) (by decide)
      (by decide) (by decide) (by decide) (by decide)).2.1 (by decide)).trans (by decide)⟩

set_option maxRecDepth 100000 in
/-- A fraction of a unit larger than the hour: `"0.5w"` parses to half a week.  The units
`d` and `w` are tokens of `unitMap`, so the bound of the source comment on the converted
fraction, `3.6e+12` for "h is the largest unit", is exceeded here. -/
theorem parseDuration_half_week :
    ParseDuration goFrac (ascii "0.5w") = some (302400000000000, none)
      ∧ goFrac 5 (7 * 24 * Hour) 1 = 302400000000000 := by
  refine ⟨by decide, by decide⟩

/-! ## The parser: the scanners in terms of the anatomy of a part -/

theorem digitRun_append_afterDigits (s : List Nat) : digitRun s ++ afterDigits s = s :=
  List.takeWhile_append_dropWhile _ _

theorem digitRun_digits (s : List Nat) : ∀ c ∈ digitRun s, 48 ≤ c ∧ c ≤ 57 := by
  intro c hc
  have h := List.mem_takeWhile_imp hc
  simpa [isDigit] using h

theorem afterDigits_noDigitAhead (s : List Nat) : NoDigitAhead (afterDigits s) := by
  induction s with
  | nil =>
    intro c hc
    simp [afterDigits] at hc
  | cons a s ih =>
    by_cases ha : isDigit a = true
    · have h : afterDigits (a :: s) = afterDigits s := by
        simp [afterDigits, List.dropWhile_cons, ha]
      rw [h]
      exact ih
    · have h : afterDigits (a :: s) = a :: s := by
        simp [afterDigits, List.dropWhile_cons, ha]
      rw [h]
      intro c hc
      simp only [List.head?_cons, Option.mem_def, Option.some.injEq] at hc
      subst hc
      simp only [isDigit, decide_eq_true_eq] at ha
      omega

/-- The digits at the start of a string are the only way to split it into digits and
something that does not start with a digit. -/
theorem digitRun_unique (ds rest : List Nat) (hds : ∀ c ∈ ds, 48 ≤ c ∧ c ≤ 57)
    (hrest : NoDigitAhead rest) :
    digitRun (ds ++ rest) = ds ∧ afterDigits (ds ++ rest) = rest := by
  induction ds with
  | nil =>
    cases rest with
    | nil => exact ⟨rfl, rfl⟩
    | cons c t =>
      have hc : c < 48 ∨ c > 57 := hrest c (by simp)
      have hd : isDigit c = false := by
        simp only [isDigit, decide_eq_false_iff_not]
        omega
      simp [digitRun, afterDigits, List.takeWhile_cons, List.dropWhile_cons, hd]
  | cons c ds ih =>
    have hc := hds c (by simp)
    have hd : isDigit c = true := by
      simp only [isDigit, decide_eq_true_eq]
      omega
    obtain ⟨h1, h2⟩ := ih (fun c hc => hds c (by simp [hc]))
    constructor
    · show List.takeWhile isDigit (c :: (ds ++ rest)) = c :: ds
      rw [List.takeWhile_cons, hd]
      simp only [if_true, List.cons.injEq, true_and]
      exact h1
    · show List.dropWhile isDigit (c :: (ds ++ rest)) = rest
      rw [List.dropWhile_cons, hd]
      simp only [if_true]
      exact h2

/-- The function `leadingInt`, in terms of the digits at the start of the string. -/
theorem leadingInt_eq (s : List Nat) :
    leadingInt s
      = if digitsValue (digitRun s) ≤ maxInt64 then
          .ok (digitsValue (digitRun s), afterDigits s)
        else .error .errLeadingInt := by
  have h := leadingIntLoop_digits (afterDigits s) (afterDigits_noDigitAhead s) (digitRun s)
    (digitRun_digits s) 0 (le_refl _) (by decide)
  rw [digitRun_append_afterDigits] at h
  exact h

/-- The function `leadingFraction`, in terms of the digits at the start of the string. -/
theorem leadingFraction_eq (s : List Nat) :
    leadingFraction s
      = ((leadingFraction (digitRun s)).1, (leadingFraction (digitRun s)).2.1,
          afterDigits s) := by
  have h := leadingFractionLoop_run (afterDigits s) (afterDigits_noDigitAhead s) (digitRun s)
    (digitRun_digits s) 0 0 false
  rw [digitRun_append_afterDigits] at h
  exact h

theorem unitEnd_eq (s : List Nat) :
    s.take (unitEnd s) = s.takeWhile (fun c => !isStop c)
      ∧ s.drop (unitEnd s) = s.dropWhile (fun c => !isStop c) := by
  induction s with
  | nil => exact ⟨rfl, rfl⟩
  | cons c s ih =>
    by_cases hc : c = 46 ∨ (c ≥ 48 ∧ c ≤ 57)
    · have hs : isStop c = true := by
        simp only [isStop, decide_eq_true_eq]
        exact hc
      rw [unitEnd, if_pos hc]
      simp [List.takeWhile_cons, List.dropWhile_cons, hs]
    · have hs : isStop c = false := by
        simp only [isStop, decide_eq_false_iff_not]
        exact hc
      rw [unitEnd, if_neg hc]
      simp only [List.take_succ_cons, List.drop_succ_cons, List.takeWhile_cons,
        List.dropWhile_cons, hs, Bool.not_false, if_true, List.cons.injEq, true_and]
      exact ih

theorem unitEnd_zero_iff (s : List Nat) :
    unitEnd s = 0 ↔ s.takeWhile (fun c => !isStop c) = [] := by
  rw [← (unitEnd_eq s).1]
  constructor
  · intro h
    rw [h]
    rfl
  · intro h
    have hl := congrArg List.length h
    rw [List.length_take, List.length_nil] at hl
    have := unitEnd_le s
    omega

/-- The function `consumeUnit`, in terms of the bytes up to the next point or digit. -/
theorem consumeUnit_eq (s : List Nat) :
    consumeUnit s
      = if s.takeWhile (fun c => !isStop c) = [] then .error .missingUnit
        else match unitMap (s.takeWhile (fun c => !isStop c)) with
          | none => .error .errUnknownUnit
          | some unit => .ok (unit, s.dropWhile (fun c => !isStop c)) := by
  unfold consumeUnit
  by_cases h0 : unitEnd s = 0
  · have h1 := (unitEnd_zero_iff s).mp h0
    simp only [h0, if_true, h1]
  · have h1 : ¬ s.takeWhile (fun c => !isStop c) = [] := fun h => h0 ((unitEnd_zero_iff s).mpr h)
    simp only [h0, if_false, h1, (unitEnd_eq s).1, (unitEnd_eq s).2]

/-- The end of `parseDurationPart`, from the unit on, in terms of the bytes up to the next
point or digit. -/
theorem partTail_eq (v0 f : Int) (scale : Nat) (s3 : List Nat) (hv0 : 0 ≤ v0) :
    (match consumeUnit s3 with
      | Except.error e => some (Except.error e)
      | Except.ok (unit, s) =>
        if unit = 0 then none
        else if v0 > maxInt64.tdiv unit then
          some (Except.error ParseError.invalidDurationPart)
        else some (Except.ok (PartResult.mk (wrap64 (v0 * unit)) f unit scale s)))
      = if s3.takeWhile (fun c => !isStop c) = [] then some (Except.error ParseError.missingUnit)
        else match unitMap (s3.takeWhile (fun c => !isStop c)) with
          | none => some (Except.error ParseError.errUnknownUnit)
          | some u =>
            if maxInt64 < v0 * u then some (Except.error ParseError.invalidDurationPart)
            else some (Except.ok (PartResult.mk (v0 * u) f u scale
              (s3.dropWhile (fun c => !isStop c)))) := by
  rw [consumeUnit_eq]
  by_cases htok : s3.takeWhile (fun c => !isStop c) = []
  · simp only [htok, if_true]
  · simp only [htok, if_false]
    cases hum : unitMap (s3.takeWhile (fun c => !isStop c)) with
    | none => rfl
    | some u =>
      have hpos := (unitMap_facts _ u hum).2.2.1
      have h0 : ¬ u = 0 := by omega
      simp only [h0, if_false]
      by_cases hgt : v0 > maxInt64.tdiv u
      · have hlt : maxInt64 < v0 * u := by
          have := (gt_tdiv_iff v0 u hpos).mp hgt
          omega
        simp only [hgt, if_true, hlt]
      · have hle : v0 * u ≤ maxInt64 := by
          by_contra hc
          exact hgt ((gt_tdiv_iff v0 u hpos).mpr hc)
        have hlt : ¬ maxInt64 < v0 * u := by omega
        have hw : wrap64 (v0 * u) = v0 * u :=
          wrap64_of_range (by unfold minInt64; nlinarith) hle
        simp only [hgt, if_false, hlt, hw]

/-- The function `parseDurationPart` on a non-empty string, in terms of the anatomy of the
part at its start: the first byte, the integer digits, the point and the fractional
digits, the unit token and what follows it. -/
theorem parseDurationPart_eq (c0 : Nat) (cs : List Nat) :
    parseDurationPart (c0 :: cs)
      = if ¬ (c0 = 46 ∨ (c0 ≥ 48 ∧ c0 ≤ 57)) then some (.error .badFirstCharacter)
        else if maxInt64 < digitsValue (intDigits (c0 :: cs)) then some (.error .errLeadingInt)
        else if (afterPoint (c0 :: cs)).isSome ∧ fracDigits (c0 :: cs) = [] then
          some (.error .errA)
        else if unitToken (c0 :: cs) = [] then some (.error .missingUnit)
        else match unitMap (unitToken (c0 :: cs)) with
          | none => some (.error .errUnknownUnit)
          | some u =>
            if maxInt64 < digitsValue (intDigits (c0 :: cs)) * u then
              some (.error .invalidDurationPart)
            else some (.ok ⟨digitsValue (intDigits (c0 :: cs)) * u,
              (leadingFraction (fracDigits (c0 :: cs))).1, u,
              (leadingFraction (fracDigits (c0 :: cs))).2.1, afterUnit (c0 :: cs)⟩) := by
  rw [parseDurationPart]
  by_cases hfirst : c0 = 46 ∨ (c0 ≥ 48 ∧ c0 ≤ 57)
  · have hnn : ¬ ¬ (c0 = 46 ∨ (c0 ≥ 48 ∧ c0 ≤ 57)) := not_not.mpr hfirst
    simp only [if_neg hnn]
    rw [leadingInt_eq]
    have hv0 := digitsValue_nonneg _ (digitRun_digits (c0 :: cs))
    by_cases hfit : digitsValue (digitRun (c0 :: cs)) ≤ maxInt64
    · have hnlt : ¬ maxInt64 < digitsValue (intDigits (c0 :: cs)) := by
        unfold intDigits
        omega
      simp only [if_pos hfit, if_neg hnlt]
      cases hA : afterDigits (c0 :: cs) with
      | nil =>
        have hap : afterPoint (c0 :: cs) = none := by simp only [afterPoint, hA]
        have hfd : fracDigits (c0 :: cs) = [] := by simp only [fracDigits, hap]
        have han : afterNumber (c0 :: cs) = [] := by simp only [afterNumber, hap, hA]
        have hpre : (c0 :: cs).length ≠ ([] : List Nat).length := by simp
        simp only [hpre, ne_eq, not_false_eq_true, decide_True, Bool.not_true,
          Bool.false_and, Bool.false_eq_true, if_false, hap, Option.isSome_none, false_and]
        refine Eq.trans (partTail_eq (digitsValue (digitRun (c0 :: cs))) 0 0 [] hv0) ?_
        simp only [unitToken, afterUnit, han, hfd, intDigits]
        rfl
      | cons c s2 =>
        by_cases hc : c = 46
        · subst hc
          have hap : afterPoint (c0 :: cs) = some s2 := by simp only [afterPoint, hA, if_true]
          have hfd : fracDigits (c0 :: cs) = digitRun s2 := by simp only [fracDigits, hap]
          have han : afterNumber (c0 :: cs) = afterDigits s2 := by
            simp only [afterNumber, hap]
          simp only [if_true, leadingFraction_eq s2]
          have hlen : s2.length = (digitRun s2).length + (afterDigits s2).length := by
            rw [← List.length_append, digitRun_append_afterDigits]
          by_cases hfr : digitRun s2 = []
          · have hpost : s2.length = (afterDigits s2).length := by
              rw [hlen, hfr]
              simp
            simp only [hpost, ne_eq, not_true_eq_false, decide_False, Bool.not_false,
              Bool.and_self, if_true, hap, hfd, hfr, Option.isSome_some, and_self]
          · have hpost : ¬ s2.length = (afterDigits s2).length := by
              have : (digitRun s2).length ≠ 0 := fun h => hfr (List.length_eq_zero.mp h)
              omega
            simp only [hpost, ne_eq, not_false_eq_true, decide_True, Bool.not_true,
              Bool.false_and, Bool.false_eq_true, if_false, hap, hfd, hfr,
              Option.isSome_some, and_false]
            refine Eq.trans (partTail_eq (digitsValue (digitRun (c0 :: cs)))
              (leadingFraction (digitRun s2)).1 (leadingFraction (digitRun s2)).2.1
              (afterDigits s2) hv0) ?_
            simp only [unitToken, afterUnit, han, hfd, intDigits]
        · have hap : afterPoint (c0 :: cs) = none := by simp only [afterPoint, hA, hc, if_false]
          have hfd : fracDigits (c0 :: cs) = [] := by simp only [fracDigits, hap]
          have han : afterNumber (c0 :: cs) = c :: s2 := by simp only [afterNumber, hap, hA]
          have hpre : ¬ (c0 :: cs).length = (c :: s2).length := by
            intro hlen
            have hsplit := digitRun_append_afterDigits (c0 :: cs)
            rw [hA] at hsplit
            have hl := congrArg List.length hsplit
            rw [List.length_append] at hl
            have hr0 : digitRun (c0 :: cs) = [] := List.length_eq_zero.mp (by omega)
            rw [hr0, List.nil_append] at hsplit
            simp only [List.cons.injEq] at hsplit
            have hnd := afterDigits_noDigitAhead (c0 :: cs) c (by rw [hA]; simp)
            omega
          simp only [hc, if_false, hpre, ne_eq, not_false_eq_true, decide_True, Bool.not_true,
            Bool.false_and, Bool.false_eq_true, hap, Option.isSome_none, false_and]
          refine Eq.trans (partTail_eq (digitsValue (digitRun (c0 :: cs))) 0 0 (c :: s2) hv0) ?_
          simp only [unitToken, afterUnit, han, hfd, intDigits]
          rfl
    · have hlt : maxInt64 < digitsValue (intDigits (c0 :: cs)) := by
        unfold intDigits
        omega
      simp only [if_neg hfit, if_pos hlt]
  · simp only [if_pos hfirst]

theorem anatomy_bad_first (c0 : Nat) (cs : List Nat)
    (hfirst : ¬ (c0 = 46 ∨ (c0 ≥ 48 ∧ c0 ≤ 57))) :
    intDigits (c0 :: cs) = [] ∧ afterPoint (c0 :: cs) = none ∧ fracDigits (c0 :: cs) = [] := by
  have hd : isDigit c0 = false := by
    simp only [isDigit, decide_eq_false_iff_not]
    omega
  have h46 : ¬ c0 = 46 := fun h => hfirst (Or.inl h)
  have hA : afterDigits (c0 :: cs) = c0 :: cs := by
    simp [afterDigits, List.dropWhile_cons, hd]
  have hap : afterPoint (c0 :: cs) = none := by simp only [afterPoint, hA, h46, if_false]
  refine ⟨by simp [intDigits, digitRun, List.takeWhile_cons, hd], hap, ?_⟩
  simp only [fracDigits, hap]

theorem anatomy_no_int_digits (c0 : Nat) (cs : List Nat) (h : intDigits (c0 :: cs) = []) :
    afterDigits (c0 :: cs) = c0 :: cs ∧ ¬ (c0 ≥ 48 ∧ c0 ≤ 57) := by
  have hsplit := digitRun_append_afterDigits (c0 :: cs)
  unfold intDigits at h
  rw [h, List.nil_append] at hsplit
  refine ⟨hsplit, ?_⟩
  have hnd := afterDigits_noDigitAhead (c0 :: cs) c0 (by rw [hsplit]; simp)
  omega

theorem anatomy_digits_present (c0 : Nat) (cs : List Nat)
    (hfirst : c0 = 46 ∨ (c0 ≥ 48 ∧ c0 ≤ 57))
    (hA : ¬ ((afterPoint (c0 :: cs)).isSome ∧ fracDigits (c0 :: cs) = [])) :
    intDigits (c0 :: cs) ≠ [] ∨ fracDigits (c0 :: cs) ≠ [] := by
  by_cases hi : intDigits (c0 :: cs) = []
  · right
    obtain ⟨hAD, hnd⟩ := anatomy_no_int_digits c0 cs hi
    have h46 : c0 = 46 := by omega
    have hap : afterPoint (c0 :: cs) = some cs := by
      subst h46
      simp only [afterPoint, hAD, if_true]
    intro hf
    exact hA ⟨by rw [hap]; rfl, hf⟩
  · exact Or.inl hi

/-- The errors of `parseDurationPart` and the situations in which they are returned, in
terms of the anatomy of the part. -/
theorem parseDurationPart_error_class (c0 : Nat) (cs : List Nat) (e : ParseError)
    (h : parseDurationPart (c0 :: cs) = some (.error e)) :
    (NoDigits (c0 :: cs)
        ∧ ((c0 = 46 ∧ e = .errA)
          ∨ (¬ (c0 = 46 ∨ (c0 ≥ 48 ∧ c0 ≤ 57)) ∧ e = .badFirstCharacter)))
      ∨ (MissingUnit (c0 :: cs) ∧ e = .missingUnit)
      ∨ (UnknownUnit (c0 :: cs) ∧ e = .errUnknownUnit)
      ∨ (maxInt64 < digitsValue (intDigits (c0 :: cs)) ∧ e = .errLeadingInt)
      ∨ (∃ u, unitMap (unitToken (c0 :: cs)) = some u
          ∧ maxInt64 < digitsValue (intDigits (c0 :: cs)) * u ∧ e = .invalidDurationPart)
      ∨ PointWithoutFraction (c0 :: cs) := by
  rw [parseDurationPart_eq] at h
  by_cases hfirst : c0 = 46 ∨ (c0 ≥ 48 ∧ c0 ≤ 57)
  · have hnn : ¬ ¬ (c0 = 46 ∨ (c0 ≥ 48 ∧ c0 ≤ 57)) := not_not.mpr hfirst
    rw [if_neg hnn] at h
    by_cases hbig : maxInt64 < digitsValue (intDigits (c0 :: cs))
    · rw [if_pos hbig] at h
      simp only [Option.some.injEq, Except.error.injEq] at h
      exact Or.inr (Or.inr (Or.inr (Or.inl ⟨hbig, h.symm⟩)))
    · rw [if_neg hbig] at h
      by_cases hA : (afterPoint (c0 :: cs)).isSome ∧ fracDigits (c0 :: cs) = []
      · rw [if_pos hA] at h
        simp only [Option.some.injEq, Except.error.injEq] at h
        by_cases hi : intDigits (c0 :: cs) = []
        · obtain ⟨_, hnd⟩ := anatomy_no_int_digits c0 cs hi
          exact Or.inl ⟨⟨hi, hA.2⟩, Or.inl ⟨by omega, h.symm⟩⟩
        · exact Or.inr (Or.inr (Or.inr (Or.inr (Or.inr ⟨hi, hA.1, hA.2⟩))))
      · rw [if_neg hA] at h
        have hdig := anatomy_digits_present c0 cs hfirst hA
        by_cases htok : unitToken (c0 :: cs) = []
        · rw [if_pos htok] at h
          simp only [Option.some.injEq, Except.error.injEq] at h
          exact Or.inr (Or.inl ⟨⟨hdig, htok⟩, h.symm⟩)
        · rw [if_neg htok] at h
          cases hum : unitMap (unitToken (c0 :: cs)) with
          | none =>
            rw [hum] at h
            simp only [Option.some.injEq, Except.error.injEq] at h
            exact Or.inr (Or.inr (Or.inl ⟨⟨htok, hum⟩, h.symm⟩))
          | some u =>
            rw [hum] at h
            simp only at h
            by_cases hprod : maxInt64 < digitsValue (intDigits (c0 :: cs)) * u
            · rw [if_pos hprod] at h
              simp only [Option.some.injEq, Except.error.injEq] at h
              exact Or.inr (Or.inr (Or.inr (Or.inr (Or.inl ⟨u, rfl, hprod, h.symm⟩))))
            · rw [if_neg hprod] at h
              simp at h
  · rw [if_pos hfirst] at h
    simp only [Option.some.injEq, Except.error.injEq] at h
    obtain ⟨h1, _, h3⟩ := anatomy_bad_first c0 cs hfirst
    exact Or.inl ⟨⟨h1, h3⟩, Or.inr ⟨hfirst, h.symm⟩⟩

/-- What a successful `parseDurationPart` returns, in terms of the anatomy of the part. -/
theorem parseDurationPart_ok_eq (c0 : Nat) (cs : List Nat) (r : PartResult)
    (h : parseDurationPart (c0 :: cs) = some (.ok r)) :
    ∃ u, unitMap (unitToken (c0 :: cs)) = some u
      ∧ digitsValue (intDigits (c0 :: cs)) * u ≤ maxInt64
      ∧ r = ⟨digitsValue (intDigits (c0 :: cs)) * u,
          (leadingFraction (fracDigits (c0 :: cs))).1, u,
          (leadingFraction (fracDigits (c0 :: cs))).2.1, afterUnit (c0 :: cs)⟩ := by
  rw [parseDurationPart_eq] at h
  by_cases hfirst : c0 = 46 ∨ (c0 ≥ 48 ∧ c0 ≤ 57)
  · have hnn : ¬ ¬ (c0 = 46 ∨ (c0 ≥ 48 ∧ c0 ≤ 57)) := not_not.mpr hfirst
    rw [if_neg hnn] at h
    by_cases hbig : maxInt64 < digitsValue (intDigits (c0 :: cs))
    · rw [if_pos hbig] at h
      simp at h
    · rw [if_neg hbig] at h
      by_cases hA : (afterPoint (c0 :: cs)).isSome ∧ fracDigits (c0 :: cs) = []
      · rw [if_pos hA] at h
        simp at h
      · rw [if_neg hA] at h
        by_cases htok : unitToken (c0 :: cs) = []
        · rw [if_pos htok] at h
          simp at h
        · rw [if_neg htok] at h
          cases hum : unitMap (unitToken (c0 :: cs)) with
          | none =>
            rw [hum] at h
            simp at h
          | some u =>
            rw [hum] at h
            simp only at h
            by_cases hprod : maxInt64 < digitsValue (intDigits (c0 :: cs)) * u
            · rw [if_pos hprod] at h
              simp at h
            · rw [if_neg hprod] at h
              simp only [Option.some.injEq, Except.ok.injEq] at h
              exact ⟨u, rfl, by omega, h.symm⟩
  · rw [if_pos hfirst] at h
    simp at h

/-! ## The parser: where the loop stops with an error -/

/-- A successful part is read the same way when what follows the part and the next ones
is removed. -/
theorem parseDurationPart_strip (a b y : List Nat) (r : PartResult)
    (h : parseDurationPart (a ++ b) = some (.ok r)) (hy : r.s = y ++ b) :
    parseDurationPart a = some (.ok ⟨r.v, r.f, r.unit, r.scale, y⟩) := by
  obtain ⟨v0, s1, s3, hne, hhead, hint, hfr, hcu, hu0, hngt, hv⟩ :=
    (parseDurationPart_ok_iff _ _).mp h
  obtain ⟨u, hs3, hmap, hstops⟩ := consumeUnit_split s3 r.unit r.s hcu
  obtain ⟨ds0, hsplit, hds0, hahead⟩ := leadingIntLoop_split (a ++ b) 0 v0 s1 hint
  obtain ⟨hune, hu, hpos, _⟩ := unitMap_facts u r.unit hmap
  have hdig := leadingIntLoop_digits s1 hahead ds0 hds0 0 (le_refl _) (by decide)
  rw [← hsplit] at hdig
  have hint' : leadingIntLoop 0 (a ++ b) = .ok (v0, s1) := hint
  rw [hint'] at hdig
  have hv0 : v0 = digitsValue ds0 := by
    by_cases hfit : digitsAcc 0 ds0 ≤ maxInt64
    · rw [if_pos hfit] at hdig
      simp only [Except.ok.injEq, Prod.mk.injEq] at hdig
      exact hdig.1
    · rw [if_neg hfit] at hdig
      simp at hdig
  have hprod : digitsValue ds0 * r.unit ≤ maxInt64 := by
    by_contra hc
    rw [← hv0] at hc
    exact hngt ((gt_tdiv_iff v0 r.unit hpos).mpr hc)
  have hstopsy : UnitStops y := by
    intro c hc
    cases y with
    | nil => simp at hc
    | cons y0 ys =>
      simp only [List.head?_cons, Option.mem_def, Option.some.injEq] at hc
      exact hstops c (by rw [hy]; simp [hc])
  have hstopsyb : UnitStops (y ++ b) := by
    rw [← hy]
    exact hstops
  rcases hfr with ⟨s2, hs1, hlf, hlen⟩ | ⟨hnp, hf0, hsc0, hs31, hlen⟩
  · obtain ⟨ds, hs2, hds, _⟩ := leadingFractionLoop_split s2 0 0 false
    have hrest : (leadingFractionLoop 0 0 false s2).2.2 = s3 := by
      have : leadingFractionLoop 0 0 false s2 = (r.f, r.scale, s3) := hlf
      rw [this]
    rw [hrest] at hs2
    have hdsne : ds ≠ [] := by
      intro h0
      rw [h0, List.nil_append] at hs2
      exact hlen (by rw [hs2])
    have hab : a ++ b = (ds0 ++ 46 :: (ds ++ (u ++ y))) ++ b := by
      rw [hsplit, hs1, hs2, hs3, hy]
      simp only [List.append_assoc, List.cons_append]
    have ha : a = ds0 ++ 46 :: (ds ++ (u ++ y)) := List.append_cancel_right hab
    have hfwd1 := parseDurationPart_fraction ds0 ds u (y ++ b) r.unit hds0 hds hdsne hmap
      hprod hstopsyb
    have hab2 : a ++ b = ds0 ++ 46 :: (ds ++ (u ++ (y ++ b))) := by
      rw [hab]
      simp only [List.append_assoc, List.cons_append]
    rw [← hab2, h] at hfwd1
    simp only [Option.some.injEq, Except.ok.injEq] at hfwd1
    have hfwd2 := parseDurationPart_fraction ds0 ds u y r.unit hds0 hds hdsne hmap
      hprod hstopsy
    rw [← ha] at hfwd2
    rw [hfwd2, hfwd1]
  · rw [hs31] at hs3
    have hd0ne : ds0 ≠ [] := by
      intro h0
      rw [h0, List.nil_append] at hsplit
      exact hlen (by rw [hsplit])
    have hab : a ++ b = (ds0 ++ (u ++ y)) ++ b := by
      rw [hsplit, hs3, hy]
      simp only [List.append_assoc]
    have ha : a = ds0 ++ (u ++ y) := List.append_cancel_right hab
    have hwf : (SimplePart.mk ds0 u r.unit).WellFormed := ⟨hd0ne, hds0, hmap⟩
    have hfit : digitsValue ds0 ≤ maxInt64 := by
      have := digitsValue_nonneg ds0 hds0
      nlinarith
    have hfwd1 := parseDurationPart_simple (SimplePart.mk ds0 u r.unit) hwf (y ++ b) hstopsyb
    have hfwd2 := parseDurationPart_simple (SimplePart.mk ds0 u r.unit) hwf y hstopsy
    simp only [SimplePart.bytes, SimplePart.nanos, hfit, hprod, if_true] at hfwd1 hfwd2
    have hab2 : a ++ b = (ds0 ++ u) ++ (y ++ b) := by
      rw [hab]
      simp only [List.append_assoc]
    have ha2 : a = (ds0 ++ u) ++ y := by
      rw [ha]
      simp only [List.append_assoc]
    rw [← hab2, h] at hfwd1
    simp only [Option.some.injEq, Except.ok.injEq] at hfwd1
    rw [← ha2] at hfwd2
    rw [hfwd2, hfwd1]

theorem wrap64_neg_of_nonneg (x : Int) (h0 : 0 ≤ x) (h : wrap64 x < 0) : maxInt64 < x := by
  by_contra hc
  have hw : wrap64 x = x := wrap64_of_range (by unfold minInt64; omega) (by omega)
  omega

/-- One iteration of the loop of `ParseDuration` after a part has been read, with the
value `v` the part adds. -/
theorem parseLoop_step_value (fmul : FracConv) (orig : List Nat) (fuel : Nat) (d : Int)
    (c : Nat) (cs : List Nat) (r : PartResult)
    (h : parseDurationPart (c :: cs) = some (.ok r)) :
    parseLoop fmul orig (fuel + 1) d (c :: cs)
      = if (if r.f > 0 then wrap64 (r.v + fmul r.f r.unit r.scale) else r.v) < 0
            ∨ wrap64 (d + if r.f > 0 then wrap64 (r.v + fmul r.f r.unit r.scale) else r.v) < 0
          then some (.error (.invalidDuration orig))
        else parseLoop fmul orig fuel
          (wrap64 (d + if r.f > 0 then wrap64 (r.v + fmul r.f r.unit r.scale) else r.v)) r.s := by
  rw [parseLoop_step fmul orig fuel d c cs r h]
  have hv0 := (parseDurationPart_ok_facts _ r h).2.1
  by_cases hf : r.f > 0
  · simp only [hf, if_true]
    by_cases h1 : wrap64 (r.v + fmul r.f r.unit r.scale) < 0
    · simp only [h1, if_true, true_or]
    · simp only [h1, if_false, false_or]
  · have hnn : ¬ r.v < 0 := by omega
    simp only [hf, if_false, hnn, false_or]

/-- An error of the loop of `ParseDuration` comes from one part: the parts before it are
read and added without error, giving the running total `total`, and either
`parseDurationPart` fails on the part, or the part is read and adding its contribution
to the running total leaves the `int64` range. -/
theorem parseLoop_error_at (fmul : FracConv) (hfm : ∀ f u k, 0 ≤ fmul f u k)
    (orig : List Nat) :
    ∀ (fuel : Nat) (d : Int) (s : List Nat) (e : ParseError), 0 ≤ d → d ≤ maxInt64 →
      parseLoop fmul orig fuel d s = some (.error e) →
      ∃ done t total, s = done ++ t ∧ t ≠ [] ∧ 0 ≤ total ∧ total ≤ maxInt64
        ∧ (done ≠ [] → UnitStops t)
        ∧ (∀ orig2 fuel2, done.length ≤ fuel2 →
            parseLoop fmul orig2 fuel2 d done = some (.ok total))
        ∧ (parseDurationPart t = some (.error e)
          ∨ ∃ r, parseDurationPart t = some (.ok r) ∧ e = .invalidDuration orig
              ∧ maxInt64 < total + (r.v + if r.f > 0 then fmul r.f r.unit r.scale else 0)) := by
  intro fuel
  induction fuel with
  | zero =>
    intro d s e _ _ h
    cases s <;> simp [parseLoop] at h
  | succ n ih =>
    intro d s e hd0 hd h
    cases s with
    | nil => simp [parseLoop] at h
    | cons c cs =>
      have hnil : ∀ (orig2 : List Nat) (fuel2 : Nat), ([] : List Nat).length ≤ fuel2 →
          parseLoop fmul orig2 fuel2 d [] = some (.ok d) := by
        intro orig2 fuel2 _
        cases fuel2 <;> rfl
      cases hp : parseDurationPart (c :: cs) with
      | none =>
        rw [parseLoop, hp] at h
        simp at h
      | some x =>
        cases x with
        | error e' =>
          rw [parseLoop, hp] at h
          simp only [Option.some.injEq, Except.error.injEq] at h
          subst h
          exact ⟨[], c :: cs, d, rfl, by simp, hd0, hd, fun hc => absurd rfl hc, hnil,
            Or.inl hp⟩
        | ok r =>
          rw [parseLoop_step_value fmul orig n d c cs r hp] at h
          obtain ⟨hupos, hv0, hvmax, hlen, hstops⟩ := parseDurationPart_ok_facts _ r hp
          have hg0 : 0 ≤ (if r.f > 0 then fmul r.f r.unit r.scale else 0) := by
            split_ifs
            · exact hfm _ _ _
            · exact le_refl _
          by_cases hov : (if r.f > 0 then wrap64 (r.v + fmul r.f r.unit r.scale) else r.v) < 0
              ∨ wrap64 (d + if r.f > 0 then wrap64 (r.v + fmul r.f r.unit r.scale) else r.v) < 0
          · rw [if_pos hov] at h
            simp only [Option.some.injEq, Except.error.injEq] at h
            refine ⟨[], c :: cs, d, rfl, by simp, hd0, hd, fun hc => absurd rfl hc, hnil,
              Or.inr ⟨r, hp, h.symm, ?_⟩⟩
            by_cases hf : r.f > 0
            · simp only [hf, if_true] at hov hg0 ⊢
              by_cases hfit : r.v + fmul r.f r.unit r.scale ≤ maxInt64
              · have hw : wrap64 (r.v + fmul r.f r.unit r.scale)
                    = r.v + fmul r.f r.unit r.scale :=
                  wrap64_of_range (by unfold minInt64; omega) hfit
                rw [hw] at hov
                rcases hov with h1 | h1
                · omega
                · exact wrap64_neg_of_nonneg _ (by omega) h1
              · omega
            · simp only [hf, if_false] at hov ⊢
              rcases hov with h1 | h1
              · omega
              · have := wrap64_neg_of_nonneg _ (by omega) h1
                omega
          · rw [if_neg hov] at h
            have hov' := not_or.mp hov
            have hd' := wrap64_range
              (d + if r.f > 0 then wrap64 (r.v + fmul r.f r.unit r.scale) else r.v)
            obtain ⟨done', t, total, hrs, htne, ht0, htmax, hst, hparse, hcase⟩ :=
              ih _ r.s e (by omega) hd'.2 h
            obtain ⟨p, _, hsp, hpne, _⟩ := parseDurationPart_split _ r hp
            obtain ⟨p0, ps, hpcons⟩ := List.exists_cons_of_ne_nil hpne
            have hp0 : p0 = c ∧ cs = ps ++ r.s := by
              rw [hpcons, List.cons_append] at hsp
              simp only [List.cons.injEq] at hsp
              exact ⟨hsp.1.symm, hsp.2⟩
            obtain ⟨hp0c, hcs⟩ := hp0
            subst hp0c
            have hsplit : p0 :: cs = (p0 :: (ps ++ done')) ++ t := by
              rw [hcs, hrs]
              simp only [List.cons_append, List.append_assoc]
            have hstrip := parseDurationPart_strip (p0 :: (ps ++ done')) t done' r
              (by rw [← hsplit]; exact hp) hrs
            refine ⟨p0 :: (ps ++ done'), t, total, hsplit, htne, ht0, htmax, ?_, ?_, hcase⟩
            · intro _
              by_cases hdn : done' = []
              · rw [hdn, List.nil_append] at hrs
                rw [← hrs]
                exact hstops
              · exact hst hdn
            · intro orig2 fuel2 hfuel
              cases fuel2 with
              | zero => simp at hfuel
              | succ m =>
                rw [parseLoop_step_value fmul orig2 m d p0 (ps ++ done') _ hstrip]
                simp only
                rw [if_neg hov]
                exact hparse orig2 m (by
                  simp only [List.length_cons, List.length_append] at hfuel
                  omega)

/-! ## The parser: the errors and the classes of the specification -/

/-- C16, as stated, fails on an input that starts directly with a unit token: its part has
neither integer nor fractional digits, and the test on the first byte of the part returns
the error "bad first character", which is not the "no digits" error `errA`. -/
theorem parseDuration_unit_first :
    ParseDuration exactFrac (ascii "s") = some (0, some .badFirstCharacter)
      ∧ ParseDuration exactFrac (ascii "-h") = some (0, some .badFirstCharacter)
      ∧ ParseDuration goFrac (ascii "s") = some (0, some .badFirstCharacter)
      ∧ ParseDuration goFrac (ascii "-h") = some (0, some .badFirstCharacter)
      ∧ NoDigits (ascii "s") ∧ NoDigits (ascii "h")
      ∧ ParseError.badFirstCharacter ≠ ParseError.errA := by
  refine ⟨by decide, by decide, by decide, by decide, by decide, by decide, by decide⟩

/-- C16, amended.  Every error `ParseDuration` returns comes with duration `0`, and either
the input is empty ("EmptyInput"), or the input is an optional sign, a run `done` of parts
that parses on its own to the running total `total` (`total = 0` when `done` is empty),
and a non-empty rest `t` at whose first part parsing stops in one of these situations:
the part has neither integer nor fractional digits ("NoDigits"), and the error is `errA`
when the part starts with a point, and "bad first character" when it starts with another
byte, which happens at the first part only; digits are present and no unit token follows
("MissingUnit"), with the error "time: missing unit in duration "; the unit token is not
recognized ("UnknownUnit"), with the error `errUnknownUnit`; the integer digits, their
product with the unit, or the running total plus the contribution of the part exceed
`2^63 - 1` ("Overflow"), with one of the errors `errLeadingInt`, "time: invalid duration "
and "time: invalid duration " followed by the input; or the part has integer digits and a
point without fractional digits, the inputs of C4, of which nothing is said here.  And
`ParseDuration` returns the error "bad first character" exactly when the input, after an
optional sign, starts with a byte that is neither a digit nor a point: an input that
starts directly with a unit token fails with that error and not with `errA`. -/
theorem parseDuration_error_classes (s : List Nat) (d : Int) (e : ParseError)
    (h : ParseDuration goFrac s = some (d, some e)) :
    d = 0
      ∧ (s = []
          ∨ ∃ sign done t total, IsSign sign ∧ s = sign ++ (done ++ t) ∧ t ≠ []
              ∧ ((done = [] ∧ total = 0) ∨ ParseDuration goFrac done = some (total, none))
              ∧ ((NoDigits t
                    ∧ ((t.head? = some 46 ∧ e = .errA)
                      ∨ (t.head? ≠ some 46 ∧ e = .badFirstCharacter ∧ done = [])))
                  ∨ (MissingUnit t ∧ e = .missingUnit)
                  ∨ (UnknownUnit t ∧ e = .errUnknownUnit)
                  ∨ (Overflow goFrac total t
                      ∧ (e = .errLeadingInt ∨ e = .invalidDurationPart
                          ∨ e = .invalidDuration s))
                  ∨ PointWithoutFraction t))
      ∧ (ParseDuration goFrac s = some (0, some .badFirstCharacter) ↔
          ∃ sign c rest, IsSign sign ∧ s = sign ++ c :: rest
            ∧ ¬ (c = 46 ∨ (c ≥ 48 ∧ c ≤ 57)) ∧ (sign = [] → ¬ (c = 45 ∨ c = 43))) := by
  have hiff : ParseDuration goFrac s = some (0, some .badFirstCharacter) ↔
      ∃ sign c rest, IsSign sign ∧ s = sign ++ c :: rest
        ∧ ¬ (c = 46 ∨ (c ≥ 48 ∧ c ≤ 57)) ∧ (sign = [] → ¬ (c = 45 ∨ c = 43)) := by
    constructor
    · intro hb
      by_cases hne : s = []
      · subst hne
        simp [ParseDuration] at hb
      · obtain ⟨sign, body, hsign, hs, hhead, hpd⟩ := parseDuration_unfold goFrac s hne
        rw [hpd] at hb
        by_cases h48 : body = [48]
        · rw [if_pos h48] at hb
          simp at hb
        · rw [if_neg h48] at hb
          cases hl : parseLoop goFrac s body.length 0 body with
          | none => rw [hl] at hb; simp at hb
          | some x =>
            cases x with
            | ok r => rw [hl] at hb; simp at hb
            | error e' =>
              rw [hl] at hb
              simp only [Option.some.injEq, Prod.mk.injEq, true_and] at hb
              subst hb
              rcases parseLoop_error goFrac s _ _ _ _ hl with
                ⟨_, c, cs, hb, hc⟩ | h1 | h1 | h1 | h1 | h1 | h1
              · refine ⟨sign, c, cs, hsign, by rw [hs, hb], hc, ?_⟩
                intro hsn
                exact hhead hsn c (by rw [hb]; simp)
              all_goals simp at h1
    · rintro ⟨sign, c, rest, hsign, hs, hc, hns⟩
      rw [hs]
      exact parseDuration_bad_first goFrac sign rest c hsign hc hns
  by_cases hne : s = []
  · subst hne
    simp only [ParseDuration, if_true, Option.some.injEq, Prod.mk.injEq] at h
    exact ⟨h.1.symm, Or.inl rfl, hiff⟩
  · obtain ⟨sign, body, hsign, hs, hhead, hpd⟩ := parseDuration_unfold goFrac s hne
    rw [hpd] at h
    by_cases h48 : body = [48]
    · rw [if_pos h48] at h
      simp at h
    · rw [if_neg h48] at h
      cases hl : parseLoop goFrac s body.length 0 body with
      | none => rw [hl] at h; simp at h
      | some x =>
        cases x with
        | ok r => rw [hl] at h; simp at h
        | error e' =>
          rw [hl] at h
          simp only [Option.some.injEq, Prod.mk.injEq] at h
          obtain ⟨hd, he⟩ := h
          subst he
          refine ⟨hd.symm, Or.inr ?_, hiff⟩
          · obtain ⟨done, t, total, hbody, htne, ht0, htmax, hst, hparse, hcase⟩ :=
              parseLoop_error_at goFrac goFrac_nonneg s body.length 0 body e' (le_refl _)
                (by decide) hl
            obtain ⟨c0, cs0, htcons⟩ := List.exists_cons_of_ne_nil htne
            subst htcons
            refine ⟨sign, done, c0 :: cs0, total, hsign, by rw [hs, hbody], htne, ?_, ?_⟩
            · cases hdn : done with
              | nil =>
                left
                have h0 := hparse s 0 (by rw [hdn]; simp)
                rw [hdn] at h0
                simp only [parseLoop, Option.some.injEq, Except.ok.injEq] at h0
                exact ⟨rfl, h0.symm⟩
              | cons a as =>
                right
                have hp := hparse (a :: as) (a :: as).length (by rw [hdn])
                rw [hdn] at hp
                have hstop := parseLoop_ok_head goFrac _ _ 0 total a as hp
                have hne48 : a :: as ≠ [48] := by
                  intro h1
                  rw [h1] at hp
                  have h2 : parseLoop goFrac [48] [48].length 0 [48]
                      = some (.error .missingUnit) := rfl
                  rw [h2] at hp
                  simp at hp
                exact (parseDuration_ok_iff_loop goFrac (a :: as) total
                  (by
                    intro c hc
                    simp only [List.head?_cons, Option.mem_def, Option.some.injEq] at hc
                    omega)
                  (by simp) hne48).mpr hp
            · rcases hcase with hp | ⟨r, hp, he, hbig⟩
              · rcases parseDurationPart_error_class c0 cs0 e' hp with
                  ⟨hnd, hcl⟩ | ⟨hm, he1⟩ | ⟨hu, he1⟩ | ⟨hov, he1⟩ | ⟨u, hum, hov, he1⟩ | hpw
                · left
                  refine ⟨hnd, ?_⟩
                  rcases hcl with ⟨h46, he1⟩ | ⟨hfirst, he1⟩
                  · exact Or.inl ⟨by rw [h46]; rfl, he1⟩
                  · right
                    refine ⟨?_, he1, ?_⟩
                    · intro hh
                      simp only [List.head?_cons, Option.some.injEq] at hh
                      exact hfirst (Or.inl hh)
                    · by_contra hdn
                      exact hfirst (hst hdn c0 (by simp))
                · exact Or.inr (Or.inl ⟨hm, he1⟩)
                · exact Or.inr (Or.inr (Or.inl ⟨hu, he1⟩))
                · exact Or.inr (Or.inr (Or.inr (Or.inl ⟨Or.inl hov, Or.inl he1⟩)))
                · exact Or.inr (Or.inr (Or.inr (Or.inl
                    ⟨Or.inr ⟨u, hum, Or.inl hov⟩, Or.inr (Or.inl he1)⟩)))
                · exact Or.inr (Or.inr (Or.inr (Or.inr hpw)))
              · obtain ⟨u, hum, _, hr⟩ := parseDurationPart_ok_eq c0 cs0 r hp
                subst hr
                refine Or.inr (Or.inr (Or.inr (Or.inl
                  ⟨Or.inr ⟨u, hum, Or.inr ?_⟩, Or.inr (Or.inr he)⟩)))
                unfold partValue
                simp only [gt_iff_lt] at hbig
                exact hbig

/-- Instance at the input `"1h5"`: the part `"1h"` is read, and parsing stops at `"5"`,
which has a digit and no unit token. -/
theorem parseDuration_error_classes_witness :
    ParseDuration goFrac (ascii "1h5") = some (0, some .missingUnit)
      ∧ ((0 : Int) = 0
        ∧ (ascii "1h5" = []
          ∨ ∃ sign done t total, IsSign sign ∧ ascii "1h5" = sign ++ (done ++ t) ∧ t ≠ []
              ∧ ((done = [] ∧ total = 0) ∨ ParseDuration goFrac done = some (total, none))
              ∧ ((NoDigits t
                    ∧ ((t.head? = some 46 ∧ ParseError.missingUnit = .errA)
                      ∨ (t.head? ≠ some 46 ∧ ParseError.missingUnit = .badFirstCharacter
                          ∧ done = [])))
                  ∨ (MissingUnit t ∧ ParseError.missingUnit = .missingUnit)
                  ∨ (UnknownUnit t ∧ ParseError.missingUnit = .errUnknownUnit)
                  ∨ (Overflow goFrac total t
                      ∧ (ParseError.missingUnit = .errLeadingInt
                          ∨ ParseError.missingUnit = .invalidDurationPart
                          ∨ ParseError.missingUnit = .invalidDuration (ascii "1h5")))
                  ∨ PointWithoutFraction t))
        ∧ (ParseDuration goFrac (ascii "1h5") = some (0, some .badFirstCharacter) ↔
            ∃ sign c rest, IsSign sign ∧ ascii "1h5" = sign ++ c :: rest
              ∧ ¬ (c = 46 ∨ (c ≥ 48 ∧ c ≤ 57)) ∧ (sign = [] → ¬ (c = 45 ∨ c = 43)))) :=
  ⟨by decide, parseDuration_error_classes (ascii "1h5") 0 .missingUnit (by decide)⟩

end Utils
